import Mathlib

/-!
# EMI costume loader and scheduler (`engines/grim/emi/costumeemi.cpp`)

A shallow embedding of `EMICostume` and a verification of the properties its
specification states.

Modelling conventions

* The input stream is the list of its remaining bytes.  Reading past its end
  is an error (`LoadError.eos`).
* `float` is IEEE-754 binary32 (`F32`).  Every finite binary32 value is an
  integer multiple of `2^-149`; a finite value is stored as that integer.
  The sign of zero is not kept (no operation of this file observes it).
  Arithmetic is round-to-nearest-even, evaluated in single precision.
* Behaviour the C++ standard leaves undefined (a float-to-int conversion
  whose value does not fit, an array index out of range, a null dereference)
  and an allocation with a negative size are the error `LoadError.undefined`
  in `load` and `none` in the runtime operations: the function does not
  return a result there.
* The collaborators that are not part of this file (the base class `Costume`,
  `EMIChore`, the component classes) appear as parameters (`Externals`) or as
  the record of the call made on them.
* A `Component *` is the slot of the pointed-to object in the component table
  of the costume that owns it (`CompPtr`); an `EMIChore *` is the index of the
  chore in `_chores`.  A null pointer is `none`.
* Calls on collaborators that have an effect but no result (`reset` of a
  skeleton) are appended to the costume's `log`.
-/

namespace Grim

/-! ## binary32 -/

/-- A binary32 value: not-a-number, an infinity, or the finite value
`units * 2^-149`. -/
inductive F32 where
  | nan : F32
  | inf (neg : Bool) : F32
  | fin (units : Int) : F32
  deriving DecidableEq, Repr

namespace F32

/-- The number of `2^-149` units in `1.0`. -/
def one : Nat := 1 <<< 149

/-- One halving step of the binary logarithm: strip `k` bits when possible. -/
def log2Step (acc : Nat × Nat) (k : Nat) : Nat × Nat :=
  if 1 <<< k ≤ acc.1 then (acc.1 >>> k, acc.2 + k) else acc

/-- The position of the leading bit of `n` (for `0 < n < 2^1024`). -/
def floorLog2 (n : Nat) : Nat :=
  ([512, 256, 128, 64, 32, 16, 8, 4, 2, 1].foldl log2Step (n, 0)).2

/-- The integer nearest to `p / 2^s`, ties to the even one. -/
def roundHalfEven (p s : Nat) : Nat :=
  let q := p >>> s
  let r := p % (1 <<< s)
  if 2 * r < 1 <<< s then q
  else if 1 <<< s < 2 * r then q + 1
  else if q % 2 = 0 then q else q + 1

/-- Round the magnitude `p * 2^-298` to binary32: the result in units of
`2^-149`, or `none` on overflow.  The spacing of binary32 values around a
magnitude with leading bit `b` (in units) is `2^(b - 23)` units, and one unit
below `2^24` units. -/
def roundMag (p : Nat) : Option Nat :=
  let s := floorLog2 p - 172
  let r := roundHalfEven p (149 + s) <<< s
  if r < 1 <<< 277 then some r else none

/-- The binary32 product. -/
def mul : F32 → F32 → F32
  | nan, _ => nan
  | _, nan => nan
  | inf s, inf t => inf (s != t)
  | inf s, fin b => if b = 0 then nan else inf (s != decide (b < 0))
  | fin a, inf t => if a = 0 then nan else inf (decide (a < 0) != t)
  | fin a, fin b =>
      match roundMag (a.natAbs * b.natAbs) with
      | some r => fin (if decide (a < 0) = decide (b < 0) then (r : Int) else -(r : Int))
      | none => inf (decide (a < 0) != decide (b < 0))

/-- The comparison `a < b` of C++ on floats (false when either is a NaN). -/
def lt : F32 → F32 → Bool
  | nan, _ => false
  | _, nan => false
  | inf s, inf t => s && !t
  | inf s, fin _ => s
  | fin _, inf t => !t
  | fin a, fin b => decide (a < b)

/-- The conversion of the `int` constant `1000` to `float`. -/
def thousand : F32 := fin ((1000 * one : Nat) : Int)

/-- The C++ conversion `(int)x`: truncation toward zero, undefined (`none`)
when the truncated value is not an `int`. -/
def toInt : F32 → Option Int
  | fin n =>
      let t : Int := if 0 ≤ n then n / (one : Int) else -((-n) / (one : Int))
      if -2147483648 ≤ t ∧ t ≤ 2147483647 then some t else none
  | _ => none

/-- The conversion to `int` of `ceil(x)`, as in `chore->_length = ceil(length)`:
undefined (`none`) when the ceiling is not an `int`. -/
def ceilToInt : F32 → Option Int
  | fin n =>
      let t : Int := -((-n) / (one : Int))
      if -2147483648 ≤ t ∧ t ≤ 2147483647 then some t else none
  | _ => none

/-- The rational value of a finite binary32 (`0` for a NaN or an infinity). -/
def toRat : F32 → ℚ
  | fin n => (n : ℚ) / ((one : Nat) : ℚ)
  | _ => 0

/-- Finite values. -/
def isFinite : F32 → Bool
  | fin _ => true
  | _ => false

end F32

/-- The template `MAX(a, b)` of `common/util.h`: `(a > b) ? a : b`. -/
def MAX (a b : F32) : F32 := if F32.lt b a then a else b

/-! ## The input stream -/

/-- The bytes of the stream that have not been read yet. -/
abbrev Stream := List Nat

/-- The ways `EMICostume::load` does not return. -/
inductive LoadError where
  /-- a read past the end of the stream -/
  | eos
  /-- `assert(nameLength < 32)` -/
  | assertNameLength
  /-- `assert(name[0] == '!')` -/
  | assertMarker
  /-- `error("Actor::loadComponentEMI missing tag ...")` -/
  | missingTag
  /-- undefined behaviour -/
  | undefined
  deriving DecidableEq, Repr

/-- The call `data->read(buf, n)`. -/
def read (n : Nat) (data : Stream) : Except LoadError (List Nat × Stream) :=
  if n ≤ data.length then .ok (data.take n, data.drop n) else .error .eos

/-- The little-endian value of four bytes. -/
def le32 (b : List Nat) : Nat :=
  b.getD 0 0 % 256 + b.getD 1 0 % 256 * 256 + b.getD 2 0 % 256 * 65536
    + b.getD 3 0 % 256 * 16777216

/-- The call `data->readUint32LE()`. -/
def readUint32LE (data : Stream) : Except LoadError (Nat × Stream) :=
  match read 4 data with
  | .ok (b, rest) => .ok (le32 b, rest)
  | .error e => .error e

/-- The conversion of a `uint32` to `int`. -/
def toInt32 (u : Nat) : Int :=
  if u % 4294967296 < 2147483648 then ((u % 4294967296 : Nat) : Int)
  else ((u % 4294967296 : Nat) : Int) - 4294967296

/-- The binary32 value with the bit pattern `b`. -/
def F32.ofBits (b : Nat) : F32 :=
  let sign := b / 2147483648 % 2
  let e := b / 8388608 % 256
  let m := b % 8388608
  if e = 255 then (if m = 0 then .inf (decide (sign = 1)) else .nan)
  else
    let mag : Nat := if e = 0 then m else (8388608 + m) <<< (e - 1)
    .fin (if sign = 1 then -(mag : Int) else (mag : Int))

/-- The helper `get_float(p)`: the little-endian binary32 at `p`. -/
def get_float (b : List Nat) : F32 := F32.ofBits (le32 b)

/-! ## Components -/

/-- The macro `MKTAG(a0, a1, a2, a3)`. -/
def MKTAG (a0 a1 a2 a3 : Char) : Nat :=
  a3.toNat + a2.toNat * 256 + a1.toNat * 65536 + a0.toNat * 16777216

/-- A non-null `Component *`: a slot of the component table of this costume
(`own`) or of the previous costume (`prev`). -/
inductive CompPtr where
  | own (slot : Nat) : CompPtr
  | prev (slot : Nat) : CompPtr
  deriving DecidableEq, Repr

/-- The component classes `loadEMIComponent` instantiates. -/
inductive ComponentKind where
  | Mesh | Skeleton | Texture | Animation | ScriptCode | ScriptVar | Sprite
  deriving DecidableEq, Repr

/-- A component object: its class and the arguments its constructor was
called with, and whether `setCostume(this)` and `init()` have been called on
it. -/
structure Component where
  kind : ComponentKind
  parent : Option CompPtr
  parentID : Int
  name : List Nat
  prevComponent : Option CompPtr
  tag : Nat
  /-- the `this` argument, passed to `EMIMeshComponent` only -/
  costumeArg : Bool
  costumeSet : Bool := false
  initDone : Bool := false
  deriving DecidableEq, Repr

/-- Modelled from the spec: `Component::isComponentType`, the type-check
predicate on the component's stable 4-character tag (declared in
`costume/component.h`, not part of this file). -/
def Component.isComponentType (c : Component) (a0 a1 a2 a3 : Char) : Bool :=
  c.tag == MKTAG a0 a1 a2 a3

/-- The C string at the start of `buf`: its characters before the first NUL,
or `none` when `buf` holds no NUL (reading it would leave the buffer). -/
def cstr (buf : List Nat) : Option (List Nat) :=
  if 0 ∈ buf then some (buf.takeWhile (fun b => b != 0)) else none

/-- The big-endian value of four bytes (`FROM_BE_32` of the copied tag). -/
def be32 (b : List Nat) : Nat :=
  b.getD 3 0 % 256 + b.getD 2 0 % 256 * 256 + b.getD 1 0 % 256 * 65536
    + b.getD 0 0 % 256 * 16777216

/-- The expression `new C(parent, parentID, name, prevComponent, tag[, this])`,
`name` being the C string that follows the tag. -/
def newComponent (kind : ComponentKind) (parent : Option CompPtr) (parentID : Int)
    (rest : List Nat) (prevComponent : Option CompPtr) (tag : Nat) :
    Except LoadError (Option Component) :=
  match cstr rest with
  | some nm =>
      .ok (some { kind := kind, parent := parent, parentID := parentID, name := nm,
                  prevComponent := prevComponent, tag := tag,
                  costumeArg := decide (kind = .Mesh) })
  | none => .error .undefined

/-- The function `EMICostume::loadEMIComponent`; `name` is the buffer the
pointer `name` points into. -/
def loadEMIComponent (parent : Option CompPtr) (parentID : Int) (name : List Nat)
    (prevComponent : Option CompPtr) : Except LoadError (Option Component) :=
  match name with
  | [] => .error .undefined
  | c :: name =>
    if c ≠ '!'.toNat then .error .assertMarker
    else if name.length < 4 then .error .undefined
    else
      let tag := be32 (name.take 4)
      let name := name.drop 4
      if tag = MKTAG 'm' 'e' 's' 'h' then
        newComponent .Mesh parent parentID name prevComponent tag
      else if tag = MKTAG 's' 'k' 'e' 'l' then
        newComponent .Skeleton parent parentID name prevComponent tag
      else if tag = MKTAG 't' 'e' 'x' 'i' then
        newComponent .Texture parent parentID name prevComponent tag
      else if tag = MKTAG 'a' 'n' 'i' 'm' then
        newComponent .Animation parent parentID name prevComponent tag
      else if tag = MKTAG 'l' 'u' 'a' 'c' then
        newComponent .ScriptCode parent parentID name prevComponent tag
      else if tag = MKTAG 'l' 'u' 'a' 'v' then
        newComponent .ScriptVar parent parentID name prevComponent tag
      else if tag = MKTAG 's' 'p' 'r' 't' then
        newComponent .Sprite parent parentID name prevComponent tag
      else if tag = MKTAG 's' 'h' 'a' 'd' then
        .ok none
      else if tag = MKTAG 'a' 'w' 'g' 't' then
        .ok none
      else if tag = MKTAG 's' 'n' 'd' '2' then
        .ok none
      else
        .error .missingTag

/-! ## Chores and the costume -/

/-- A keyframe of a track. -/
structure TrackKey where
  time : Int
  value : Int
  deriving DecidableEq, Repr

/-- A track of a chore; `numKeys` is the length of `keys`. -/
structure ChoreTrack where
  keys : List TrackKey
  component : Option CompPtr
  compID : Int
  deriving DecidableEq, Repr

/-- A chore.  `attached` lists the components `addComponent` was called
with, in call order. -/
structure EMIChore where
  name : List Nat
  choreId : Int
  length : Int
  numTracks : Int
  tracks : List ChoreTrack := []
  attached : List CompPtr := []
  deriving DecidableEq, Repr

/-- A material of the cache. -/
structure Material where
  filename : List Char
  activeTexture : Int
  deriving DecidableEq, Repr

/-- The calls on collaborators that have an effect and no result. -/
inductive Event where
  /-- the call `reset()` on the skeleton component -/
  | skelReset (skel : CompPtr)
  /-- the call `commit()` on the skeleton component -/
  | skelCommit (skel : CompPtr)
  /-- the call `update(time)` on the chore at the index -/
  | choreUpdate (chore : Nat) (time : Nat)
  /-- the call `update(time)` on the component -/
  | componentUpdate (comp : CompPtr) (time : Nat)
  /-- the call `draw()` on the component -/
  | componentDraw (comp : CompPtr)
  /-- the call `getMesh()->draw()` on the chore at the index -/
  | meshDraw (chore : Nat)
  deriving DecidableEq, Repr

/-- The state of an `EMICostume`.  `prevCostume` is the component table of
the costume `_prevCostume` points to; `_numChores` and `_numComponents` are
the lengths of `chores` and `components`. -/
structure EMICostume where
  prevCostume : Option (List (Option Component)) := none
  chores : List EMIChore := []
  components : List (Option Component) := []
  playingChores : List Nat := []
  materials : List Material := []
  wearChore : Option Nat := none
  emiSkel : Option CompPtr := none
  log : List Event := []
  deriving Repr

/-! ## `EMICostume::load` -/

/-- Lines 64-65: `if (length < 1000) length *= 1000;`. -/
def normalizeLength (length : F32) : F32 :=
  if F32.lt length F32.thousand then F32.mul length F32.thousand else length

/-- The conversion of an undefined float-to-int cast into an error. -/
def defined (x : Option Int) : Except LoadError Int :=
  match x with
  | some v => .ok v
  | none => .error .undefined

/-- The keyframe loop (lines 105-114), `n` keyframes to go; `length` is the
running duration. -/
def readKeys : Nat → Stream → F32 → Except LoadError (List TrackKey × F32 × Stream)
  | 0, data, length => .ok ([], length, data)
  | n + 1, data, length => do
      let (v, data) ← read 8 data
      let time := get_float (v.take 4)
      let value := get_float (v.drop 4)
      let t ← defined (F32.toInt (F32.mul time F32.thousand))
      let length := MAX length (F32.mul time F32.thousand)
      let x ← defined (F32.toInt value)
      let (keys, length, data) ← readKeys n data length
      .ok ({ time := t, value := x } :: keys, length, data)

/-- The variables of the chore loop body that the track loop updates. -/
structure LoadState where
  components : List (Option Component)
  chore : EMIChore
  prevComponent : Option CompPtr
  length : F32
  deriving Repr

/-- Lines 78-88: the hand-off to the previous costume.  Returns the parent
index and the hand-off candidate. -/
def handOff (prevCostume : Option (List (Option Component))) (i : Nat) (parentID : Int)
    (prevComponent : Option CompPtr) : Except LoadError (Int × Option CompPtr) :=
  match prevCostume with
  | some prev =>
      if parentID = -1 then
        -- `_prevCostume->getComponent(0)` and the call through the result
        match prev.head? with
        | some (some first) =>
            .ok (if i = 0 then -2 else parentID,
                 if first.isComponentType 'M' 'M' 'D' 'L' then some (.prev 0) else none)
        | _ => .error .undefined
      else .ok (parentID, prevComponent)
  | none => .ok (parentID, prevComponent)

/-- The expression `parentID < 0 ? NULL : components[parentID]`. -/
def resolveParent (components : List (Option Component)) (parentID : Int) :
    Except LoadError (Option CompPtr) :=
  if parentID < 0 then .ok none
  else
    match components.get? parentID.toNat with
    | some (some _) => .ok (some (.own parentID.toNat))
    | some none => .ok none
    | none => .error .undefined

/-- The body of the track loop (lines 71-115) in chore `i`. -/
def loadTrack (prevCostume : Option (List (Option Component))) (i : Nat)
    (st : LoadState) (data : Stream) : Except LoadError (LoadState × Stream) := do
  let (len, data) ← readUint32LE data
  let componentNameLength := toInt32 len
  if componentNameLength < 0 then .error .undefined else
  let (componentName, data) ← read componentNameLength.toNat data
  let (_, data) ← readUint32LE data
  let (pid, data) ← readUint32LE data
  let (parentID, prevComponent) ← handOff prevCostume i (toInt32 pid) st.prevComponent
  let parent ← resolveParent st.components parentID
  let component ← loadEMIComponent parent parentID componentName prevComponent
  let slot := st.components.length
  -- `setCostume(this)`, `init()` and `chore->addComponent(component)`
  let component := component.map (fun c => { c with costumeSet := true, initDone := true })
  let ptr : Option CompPtr := component.map (fun _ => .own slot)
  let attached := match ptr with
    | some p => st.chore.attached ++ [p]
    | none => st.chore.attached
  let components := st.components ++ [component]
  let (nk, data) ← readUint32LE data
  let numKeys := toInt32 nk
  if numKeys < 0 then .error .undefined else
  let (keys, length, data) ← readKeys numKeys.toNat data st.length
  let track : ChoreTrack := { keys := keys, component := ptr, compID := -1 }
  .ok ({ components := components,
         chore := { st.chore with attached := attached, tracks := st.chore.tracks ++ [track] },
         prevComponent := prevComponent,
         length := length }, data)

/-- The track loop (line 70), `n` tracks to go. -/
def loadTracks (prevCostume : Option (List (Option Component))) (i : Nat) :
    Nat → LoadState → Stream → Except LoadError (LoadState × Stream)
  | 0, st, data => .ok (st, data)
  | n + 1, st, data => do
      let (st, data) ← loadTrack prevCostume i st data
      loadTracks prevCostume i n st data

/-- Lines 52-68: the chore record up to the construction of the chore.
Returns the chore as constructed, the normalized duration and the stream. -/
def loadChoreHeader (i : Nat) (data : Stream) : Except LoadError (EMIChore × F32 × Stream) := do
  let (nameLength, data) ← readUint32LE data
  if ¬ nameLength < 32 then .error .assertNameLength else
  let (name, data) ← read nameLength data
  let (f, data) ← read 4 data
  let length := get_float f
  let (nt, data) ← readUint32LE data
  let numTracks := toInt32 nt
  let length := normalizeLength length
  let l ← defined (F32.toInt length)
  if numTracks < 0 then .error .undefined else
  .ok ({ name := name, choreId := i, length := l, numTracks := numTracks }, length, data)

/-- The body of the chore loop (lines 52-120) for chore `i`. -/
def loadChore (prevCostume : Option (List (Option Component))) (i : Nat)
    (components : List (Option Component)) (data : Stream) :
    Except LoadError (EMIChore × List (Option Component) × Stream) := do
  let (chore, length, data) ← loadChoreHeader i data
  let (st, data) ← loadTracks prevCostume i chore.numTracks.toNat
    { components := components, chore := chore, prevComponent := none, length := length } data
  let l ← defined (F32.ceilToInt st.length)
  .ok ({ st.chore with length := l }, st.components, data)

/-- The chore loop (line 51), `n` chores to go, the next one being chore `i`. -/
def loadChores (prevCostume : Option (List (Option Component))) :
    Nat → Nat → List (Option Component) → Stream →
    Except LoadError (List EMIChore × List (Option Component) × Stream)
  | 0, _, components, data => .ok ([], components, data)
  | n + 1, i, components, data => do
      let (chore, components, data) ← loadChore prevCostume i components data
      let (chores, components, data) ← loadChores prevCostume n (i + 1) components data
      .ok (chore :: chores, components, data)

/-- The function `EMICostume::load`. -/
def EMICostume.load (c : EMICostume) (data : Stream) : Except LoadError EMICostume := do
  let (n, data) ← readUint32LE data
  let numChores := toInt32 n
  if numChores < 0 then .error .undefined else
  let (chores, components, _) ← loadChores c.prevCostume numChores.toNat 0 [] data
  .ok { c with chores := chores, components := components }

/-! ## The binary format of the specification (section 6)

A reader of the record layout alone, independent of the loader: it builds no
component and converts no number.  The loader is compared with it. -/

namespace Format

/-- A keyframe record: `time_raw: float32`, `value_raw: float32`. -/
structure Key where
  time_raw : F32
  value_raw : F32
  deriving DecidableEq, Repr

/-- A track record. -/
structure Track where
  descriptor : List Nat
  reserved : Nat
  parent_index : Int
  keys : List Key
  deriving DecidableEq, Repr

/-- A chore record. -/
structure Chore where
  name : List Nat
  duration_raw : F32
  tracks : List Track
  deriving DecidableEq, Repr

/-- The next `n` bytes. -/
def bytes (n : Nat) (data : Stream) : Option (List Nat × Stream) :=
  if n ≤ data.length then some (data.take n, data.drop n) else none

/-- A little-endian `uint32` field. -/
def u32 (data : Stream) : Option (Nat × Stream) :=
  match bytes 4 data with
  | some (b, rest) => some (le32 b, rest)
  | none => none

/-- A little-endian `float32` field. -/
def f32 (data : Stream) : Option (F32 × Stream) :=
  match u32 data with
  | some (b, rest) => some (F32.ofBits b, rest)
  | none => none

/-- The group `repeat key_count times: time_raw, value_raw`. -/
def readKeys : Nat → Stream → Option (List Key × Stream)
  | 0, data => some ([], data)
  | n + 1, data => do
      let (t, data) ← f32 data
      let (v, data) ← f32 data
      let (keys, data) ← readKeys n data
      some ({ time_raw := t, value_raw := v } :: keys, data)

/-- One track record: `desc_len`, `descriptor`, `reserved`, `parent_index`,
`key_count` and the keyframes. -/
def readTrack (data : Stream) : Option (Track × Stream) := do
  let (desc_len, data) ← u32 data
  let (descriptor, data) ← bytes desc_len data
  let (reserved, data) ← u32 data
  let (parent_index, data) ← u32 data
  let (key_count, data) ← u32 data
  let (keys, data) ← readKeys key_count data
  some ({ descriptor := descriptor, reserved := reserved,
          parent_index := toInt32 parent_index, keys := keys }, data)

/-- The group `repeat track_count times`. -/
def readTracks : Nat → Stream → Option (List Track × Stream)
  | 0, data => some ([], data)
  | n + 1, data => do
      let (t, data) ← readTrack data
      let (ts, data) ← readTracks n data
      some (t :: ts, data)

/-- One chore record: `name_len`, `name`, `duration_raw`, `track_count` and
the tracks. -/
def readChore (data : Stream) : Option (Chore × Stream) := do
  let (name_len, data) ← u32 data
  let (name, data) ← bytes name_len data
  let (duration_raw, data) ← f32 data
  let (track_count, data) ← u32 data
  let (tracks, data) ← readTracks track_count data
  some ({ name := name, duration_raw := duration_raw, tracks := tracks }, data)

/-- The group `repeat chore_count times`. -/
def readChores : Nat → Stream → Option (List Chore × Stream)
  | 0, data => some ([], data)
  | n + 1, data => do
      let (c, data) ← readChore data
      let (cs, data) ← readChores n data
      some (c :: cs, data)

/-- The costume payload: `chore_count` and the chores. -/
def readCostume (data : Stream) : Option (List Chore × Stream) := do
  let (chore_count, data) ← u32 data
  readChores chore_count data

/-- The value `time_raw * 1000` of a keyframe, in single precision. -/
def Key.time (k : Key) : F32 := F32.mul k.time_raw F32.thousand

/-- The values `time_raw * 1000` of the keyframes of a list of tracks, in
stream order. -/
def keyTimes : List Track → List F32
  | [] => []
  | t :: ts => t.keys.map Key.time ++ keyTimes ts

/-- The 4-character tag of a descriptor, big-endian. -/
def tagOf (descriptor : List Nat) : Nat := be32 ((descriptor.drop 1).take 4)

/-- The descriptors `'!' + tag + ...`. -/
def Marked (descriptor : List Nat) : Prop :=
  descriptor.head? = some '!'.toNat ∧ 5 ≤ descriptor.length

instance (d : List Nat) : Decidable (Marked d) := by
  unfold Marked; exact inferInstance

/-- The tags of the components that are constructed. -/
def constructedTags : List Nat :=
  [MKTAG 'm' 'e' 's' 'h', MKTAG 's' 'k' 'e' 'l', MKTAG 't' 'e' 'x' 'i',
   MKTAG 'a' 'n' 'i' 'm', MKTAG 'l' 'u' 'a' 'c', MKTAG 'l' 'u' 'a' 'v',
   MKTAG 's' 'p' 'r' 't']

/-- The tags that are recognized and produce no component. -/
def ignorableTags : List Nat :=
  [MKTAG 's' 'h' 'a' 'd', MKTAG 'a' 'w' 'g' 't', MKTAG 's' 'n' 'd' '2']

/-- The variant the specification gives for a tag: `mesh`, `skel`, `texi`,
`anim`, `luac`, `luav`, `sprt` are constructed, every other tag is not. -/
def variantOf (tag : Nat) : Option ComponentKind :=
  if tag = MKTAG 'm' 'e' 's' 'h' then some .Mesh
  else if tag = MKTAG 's' 'k' 'e' 'l' then some .Skeleton
  else if tag = MKTAG 't' 'e' 'x' 'i' then some .Texture
  else if tag = MKTAG 'a' 'n' 'i' 'm' then some .Animation
  else if tag = MKTAG 'l' 'u' 'a' 'c' then some .ScriptCode
  else if tag = MKTAG 'l' 'u' 'a' 'v' then some .ScriptVar
  else if tag = MKTAG 's' 'p' 'r' 't' then some .Sprite
  else none

/-- The stored form of a keyframe: `time_raw * 1000` and `value_raw`, each
converted to `int`; `none` when a conversion is undefined. -/
def storeKey (k : Key) : Option TrackKey :=
  match F32.toInt k.time, F32.toInt k.value_raw with
  | some t, some v => some { time := t, value := v }
  | _, _ => none

/-- The stored form of the keyframes of a track. -/
def storeKeys : List Key → Option (List TrackKey)
  | [] => some []
  | k :: ks =>
      match storeKey k, storeKeys ks with
      | some k, some ks => some (k :: ks)
      | _, _ => none

/-- The running duration after it was widened by each of `times` in turn. -/
def widen (length : F32) (times : List F32) : F32 := times.foldl MAX length

end Format

/-- The effect of the track loop body (lines 78-114) on the variables of the
loop, given the record `t` it has read from the stream. -/
def trackStep (prevCostume : Option (List (Option Component))) (i : Nat)
    (st : LoadState) (t : Format.Track) : Except LoadError LoadState := do
  let (parentID, prevComponent) ← handOff prevCostume i t.parent_index st.prevComponent
  let parent ← resolveParent st.components parentID
  let component ← loadEMIComponent parent parentID t.descriptor prevComponent
  let component := component.map (fun c => { c with costumeSet := true, initDone := true })
  let ptr : Option CompPtr := component.map (fun _ => .own st.components.length)
  let attached := match ptr with
    | some p => st.chore.attached ++ [p]
    | none => st.chore.attached
  match Format.storeKeys t.keys with
  | none => .error .undefined
  | some keys =>
      let track : ChoreTrack := { keys := keys, component := ptr, compID := -1 }
      .ok { components := st.components ++ [component],
            chore := { st.chore with attached := attached,
                                     tracks := st.chore.tracks ++ [track] },
            prevComponent := prevComponent,
            length := Format.widen st.length (t.keys.map Format.Key.time) }

/-- The effect of the track loop on the variables of the loop, given the
records it has read. -/
def tracksStep (prevCostume : Option (List (Option Component))) (i : Nat) :
    LoadState → List Format.Track → Except LoadError LoadState
  | st, [] => .ok st
  | st, t :: ts =>
      match trackStep prevCostume i st t with
      | .ok st => tracksStep prevCostume i st ts
      | .error e => .error e

/-- The effect of the chore loop body (lines 64-120) for chore `i`, given the
record `c` it has read: the chore and the component list. -/
def choreStep (prevCostume : Option (List (Option Component))) (i : Nat)
    (components : List (Option Component)) (c : Format.Chore) :
    Except LoadError (EMIChore × List (Option Component)) := do
  let length := normalizeLength c.duration_raw
  let l ← defined (F32.toInt length)
  let st ← tracksStep prevCostume i
    { components := components,
      chore := { name := c.name, choreId := i, length := l, numTracks := c.tracks.length },
      prevComponent := none, length := length } c.tracks
  let l ← defined (F32.ceilToInt st.length)
  .ok ({ st.chore with length := l }, st.components)

/-- The effect of the chore loop, given the records it has read, the first
one being chore `i`. -/
def choresStep (prevCostume : Option (List (Option Component))) :
    Nat → List (Option Component) → List Format.Chore →
    Except LoadError (List EMIChore × List (Option Component))
  | _, components, [] => .ok ([], components)
  | i, components, c :: cs => do
      let (chore, components) ← choreStep prevCostume i components c
      let (chores, components) ← choresStep prevCostume (i + 1) components cs
      .ok (chore :: chores, components)

/-- The track records whose counts the loader accepts: `desc_len` and
`key_count` are not negative as an `int`. -/
def Format.Track.Fits (t : Format.Track) : Prop :=
  t.descriptor.length < 2147483648 ∧ t.keys.length < 2147483648

/-- The chore records whose counts the loader accepts: `name_len` is below 32,
`track_count` is not negative as an `int`, and every track fits. -/
def Format.Chore.Fits (c : Format.Chore) : Prop :=
  c.name.length < 32 ∧ c.tracks.length < 2147483648 ∧ ∀ t ∈ c.tracks, t.Fits

/-! ## The playback and persistence operations -/

/-- The values of a save game, in the order written. -/
abbrev SaveGame := List Int

/-- The members of the base classes and of `EMIChore` that this file calls
and does not define. -/
structure Externals where
  /-- the accessor `EMIChore::getSkeleton` -/
  getSkeleton : EMIChore → Option CompPtr
  /-- the predicate `EMIChore::isWearChore` -/
  isWearChore : EMIChore → Bool
  /-- the base start `Costume::playChore` -/
  playChore : Int → EMICostume → EMICostume
  /-- the base start `Costume::playChoreLooping` -/
  playChoreLooping : Int → EMICostume → EMICostume
  /-- the base writer `Costume::saveState` -/
  saveState : EMICostume → SaveGame → SaveGame
  /-- the base reader `Costume::restoreState` -/
  restoreState : EMICostume → SaveGame → Bool × EMICostume × SaveGame

/-- The statement `if (_emiSkel) _emiSkel->reset();`: the log after it. -/
def resetSkel (c : EMICostume) : List Event :=
  match c.emiSkel with
  | some skel => c.log ++ [Event.skelReset skel]
  | none => c.log

/-- The function `EMICostume::setWearChore`; `chore` is the index in
`_chores` of the chore pointed to. -/
def setWearChore (ext : Externals) (c : EMICostume) (chore : Nat) : Option EMICostume :=
  if some chore ≠ c.wearChore then
    -- `chore->getSkeleton()`
    match c.chores[chore]? with
    | none => none
    | some ch =>
        some { c with wearChore := some chore, log := resetSkel c,
                      emiSkel := ext.getSkeleton ch }
  else some c

/-- The function `EMICostume::playChore`. -/
def playChore (ext : Externals) (c : EMICostume) (num : Int) : Option EMICostume :=
  if num < 0 then none else
  match c.chores[num.toNat]? with
  | none => none
  | some chore =>
      match (if ext.isWearChore chore then setWearChore ext c num.toNat else some c) with
      | some c => some (ext.playChore num c)
      | none => none

/-- The function `EMICostume::playChoreLooping`. -/
def playChoreLooping (ext : Externals) (c : EMICostume) (num : Int) : Option EMICostume :=
  if num < 0 then none else
  match c.chores[num.toNat]? with
  | none => none
  | some chore =>
      match (if ext.isWearChore chore then setWearChore ext c num.toNat else some c) with
      | some c => some (ext.playChoreLooping num c)
      | none => none

/-- The call `state->writeLESint32(v)`. -/
def writeLESint32 (state : SaveGame) (v : Int) : SaveGame := state ++ [v]

/-- The call `state->readLESint32()`; `none` past the end of the save game. -/
def readLESint32 (state : SaveGame) : Option (Int × SaveGame) :=
  match state with
  | [] => none
  | v :: rest => some (v, rest)

/-- The loop of `saveState` over `_materials` (lines 230-233). -/
def writeTextures : List Material → SaveGame → SaveGame
  | [], state => state
  | m :: rest, state => writeTextures rest (writeLESint32 state m.activeTexture)

/-- The function `EMICostume::saveState`. -/
def saveState (ext : Externals) (c : EMICostume) (state : SaveGame) : Option SaveGame :=
  let state := ext.saveState c state
  let state := writeTextures c.materials state
  match c.wearChore with
  | none => some (writeLESint32 state (-1))
  | some w =>
      -- `_wearChore->getChoreId()`
      match c.chores[w]? with
      | some chore => some (writeLESint32 state chore.choreId)
      | none => none

/-- The loop of `restoreState` over `_materials` (lines 240-243). -/
def readTextures : List Material → SaveGame → Option (List Material × SaveGame)
  | [], state => some ([], state)
  | m :: rest, state =>
      match readLESint32 state with
      | none => none
      | some (v, state) =>
          match readTextures rest state with
          | none => none
          | some (rest, state) => some ({ m with activeTexture := v } :: rest, state)

/-- The function `EMICostume::restoreState`: the result, the costume and the
save game after the call. -/
def restoreState (ext : Externals) (c : EMICostume) (state : SaveGame) :
    Option (Bool × EMICostume × SaveGame) :=
  match ext.restoreState c state with
  | (false, c, state) => some (false, c, state)
  | (true, c, state) =>
      match readTextures c.materials state with
      | none => none
      | some (materials, state) =>
          let c := { c with materials := materials }
          match readLESint32 state with
          | none => none
          | some (id, state) =>
              if id ≥ 0 then
                -- `_chores[id]`
                match c.chores[id.toNat]? with
                | none => none
                | some _ =>
                    match setWearChore ext c id.toNat with
                    | some c => some (true, c, state)
                    | none => none
              else some (true, c, state)

/-! ## The material cache -/

/-- The members of the resource loader `g_resourceloader` that this file
calls and does not define. -/
structure ResourceLoader where
  /-- the call `fixFilename(name, false)` -/
  fixFilename : List Char → List Char
  /-- the call `loadMaterial(name.c_str(), NULL)` -/
  loadMaterial : List Char → Material

/-- The loop of `findMaterial` over `_materials` (lines 256-261). -/
def findFilename (fixedName : List Char) : List Material → Option Material
  | [] => none
  | m :: rest => if m.filename = fixedName then some m else findFilename fixedName rest

/-- The function `EMICostume::findMaterial`. -/
def findMaterial (loader : ResourceLoader) (c : EMICostume) (name : List Char) :
    Option Material :=
  findFilename (loader.fixFilename name) c.materials

/-- The function `EMICostume::loadMaterial`: the material returned and the
costume after the call. -/
def loadMaterial (loader : ResourceLoader) (c : EMICostume) (name : List Char) :
    Material × EMICostume :=
  match findMaterial loader c name with
  | some mat => (mat, c)
  | none =>
      (loader.loadMaterial name,
       { c with materials := c.materials ++ [loader.loadMaterial name] })

/-- A sequence of calls of `loadMaterial`, one per name: the costume after
the last call. -/
def loadMaterials (loader : ResourceLoader) : EMICostume → List (List Char) → EMICostume
  | c, [] => c
  | c, name :: names => loadMaterials loader (loadMaterial loader c name).2 names

/-! ## `EMICostume::update` and `EMICostume::draw` -/

namespace ListIter

/-- Modelled from the spec: the iterator of `Common::List` (declared in
`common/list.h`, not part of this file), which must tolerate removal during a
traversal.  The list is circular around an anchor node, which is `end()`; an
iterator is the position of its node, `0` for the anchor and `k` for the
`k`-th element.  This is `++i` in a list of `n` elements. -/
def next (n i : Nat) : Nat := if i = n then 0 else i + 1

/-- Modelled from the spec: `--i` in a `Common::List` of `n` elements (from
the first element it reaches the anchor, from the anchor the last element). -/
def prev (n i : Nat) : Nat := if i = 0 then n else i - 1

/-- Modelled from the spec: `begin()` of a `Common::List` of `n` elements,
the node after the anchor. -/
def begin (n : Nat) : Nat := next n 0

/-- Modelled from the spec: `erase(i)` of `Common::List`: the list without the
node at `i`, and the iterator to the node that followed it. -/
def erase (list : List Nat) (i : Nat) : List Nat × Nat :=
  (list.eraseIdx (i - 1), if i = list.length then 0 else i)

end ListIter

/-- The loop over the tracks in `update` (lines 211-215). -/
def updateTracks (time : Nat) : List ChoreTrack → List Event → List Event
  | [], log => log
  | t :: ts, log =>
      match t.component with
      | some comp => updateTracks time ts (log ++ [Event.componentUpdate comp time])
      | none => updateTracks time ts log

/-- The loop over `_playingChores` in `update` (lines 207-221), with at most
`fuel` tests of its condition.  `isPlaying c` is what `c->isPlaying()`
returns after the updates of chore `c`; `i` is the iterator. -/
def updateLoop (isPlaying : Nat → Bool) (chores : List EMIChore) (time : Nat) :
    Nat → List Nat → Nat → List Event → Option (List Nat × List Event)
  | 0, _, _, _ => none
  | fuel + 1, playing, i, log =>
      if i = 0 then some (playing, log)
      else
        match playing[i - 1]? with
        | none => none
        | some c =>
            match chores[c]? with
            | none => none
            | some chore =>
                let log := updateTracks time chore.tracks (log ++ [Event.choreUpdate c time])
                if isPlaying c then
                  updateLoop isPlaying chores time fuel playing
                    (ListIter.next playing.length i) log
                else
                  let erased := ListIter.erase playing i
                  let i := ListIter.prev erased.1.length erased.2
                  updateLoop isPlaying chores time fuel erased.1
                    (ListIter.next erased.1.length i) log

/-- The statement `if (_emiSkel) _emiSkel->commit();`: the log after it. -/
def commitSkel (emiSkel : Option CompPtr) (log : List Event) : List Event :=
  match emiSkel with
  | some skel => log ++ [Event.skelCommit skel]
  | none => log

/-- The function `EMICostume::update`: its result and the costume after the
call; `none` when the loop does not end within `fuel` tests of its
condition. -/
def update (isPlaying : Nat → Bool) (fuel : Nat) (c : EMICostume) (time : Nat) :
    Option (Int × EMICostume) :=
  match updateLoop isPlaying c.chores time fuel c.playingChores
      (ListIter.begin c.playingChores.length) (resetSkel c) with
  | none => none
  | some (playing, log) =>
      some (0, { c with playingChores := playing, log := commitSkel c.emiSkel log })

/-- The component a `Component *` points to. -/
def deref (c : EMICostume) : CompPtr → Option Component
  | .own slot =>
      match c.components[slot]? with
      | some (some comp) => some comp
      | _ => none
  | .prev slot =>
      match c.prevCostume with
      | some table =>
          match table[slot]? with
          | some (some comp) => some comp
          | _ => none
      | none => none

/-- The loop over the tracks in `draw` (lines 190-196): the log and the flag
`drewMesh`. -/
def drawTracks (c : EMICostume) : List ChoreTrack → List Event × Bool →
    Option (List Event × Bool)
  | [], acc => some acc
  | t :: ts, acc =>
      match t.component with
      | none => drawTracks c ts acc
      | some p =>
          match deref c p with
          | none => none
          | some comp =>
              drawTracks c ts (acc.1 ++ [Event.componentDraw p],
                if comp.isComponentType 'm' 'e' 's' 'h' then true else acc.2)

/-- The loop over `_playingChores` in `draw` (lines 188-197). -/
def drawChores (c : EMICostume) : List Nat → List Event × Bool →
    Option (List Event × Bool)
  | [], acc => some acc
  | ci :: rest, acc =>
      match c.chores[ci]? with
      | none => none
      | some chore =>
          match drawTracks c chore.tracks acc with
          | none => none
          | some acc => drawChores c rest acc

/-- The function `EMICostume::draw`. -/
def draw (c : EMICostume) : Option EMICostume :=
  match drawChores c c.playingChores (c.log, false) with
  | none => none
  | some (log, drewMesh) =>
      match c.wearChore with
      | some w =>
          if !drewMesh then some { c with log := log ++ [Event.meshDraw w] }
          else some { c with log := log }
      | none => some { c with log := log }

/-! ## Descriptions used in the statements -/

/-- The tracks of all chores, in stream order: the track at position `p` has
the global ordinal `p`. -/
def allTracks : List EMIChore → List ChoreTrack
  | [] => []
  | chore :: chores => chore.tracks ++ allTracks chores

/-- The pointers to the entries of a part of the component table that starts
at slot `base`: none for an empty slot. -/
def slotPtrs : Nat → List (Option Component) → List (Option CompPtr)
  | _, [] => []
  | base, entry :: entries =>
      entry.map (fun _ => CompPtr.own base) :: slotPtrs (base + 1) entries

/-- The calls `setCostume(this)` and `init()` on a new component. -/
def initialized (component : Option Component) : Option Component :=
  component.map (fun c => { c with costumeSet := true, initDone := true })

/-- The events of the update of one playing chore: the chore, then the bound
component of each of its tracks. -/
def choreUpdateEvents (chores : List EMIChore) (time : Nat) (c : Nat) : List Event :=
  match chores[c]? with
  | some chore =>
      Event.choreUpdate c time ::
        (chore.tracks.filterMap (fun t => t.component)).map
          (fun p => Event.componentUpdate p time)
  | none => []

/-- The bound components of the tracks of the playing chores, in order. -/
def boundComponents (chores : List EMIChore) : List Nat → List CompPtr
  | [] => []
  | c :: rest =>
      (match chores[c]? with
        | some chore => chore.tracks.filterMap (fun t => t.component)
        | none => []) ++ boundComponents chores rest

/-! ## The states of a costume -/

/-- The constructor `EMICostume::EMICostume(fname, prevCost)` (lines 42-44):
no worn chore and no active skeleton. -/
def EMICostume.new (prevCost : Option (List (Option Component))) : EMICostume :=
  { prevCostume := prevCost, wearChore := none, emiSkel := none }

/-- The states a costume goes through.  It is constructed, and loaded while
no chore is worn; `setWearChore` is the only function that writes
`_wearChore` and `_emiSkel` (lines 276 and 281), and only `load` writes the
chores: every other step (`update`, `draw`, `loadMaterial`, the texture loop
of `restoreState`, the members of the base class) leaves these three as they
are. -/
inductive Reachable (ext : Externals) : EMICostume → Prop where
  | constructed (prevCost : Option (List (Option Component))) :
      Reachable ext (EMICostume.new prevCost)
  | loaded (c c1 : EMICostume) (data : Stream) :
      Reachable ext c → c.wearChore = none → c.load data = .ok c1 → Reachable ext c1
  | wear (c c1 : EMICostume) (chore : Nat) :
      Reachable ext c → setWearChore ext c chore = some c1 → Reachable ext c1
  | other (c c1 : EMICostume) :
      Reachable ext c → c1.wearChore = c.wearChore → c1.emiSkel = c.emiSkel →
      c1.chores = c.chores → Reachable ext c1

/-! ## Sample inputs -/

namespace Samples

/-- The chore record `wave`: duration `1.0`, one track `!mesha.m` with parent
index `-1` and the keyframes `(0.0, 0.0)` and `(1.2, 2.0)`. -/
def wave : Stream :=
  [5, 0, 0, 0, 119, 97, 118, 101, 0,        -- name_len, "wave\0"
   0, 0, 128, 63,                            -- duration_raw = 1.0
   1, 0, 0, 0,                               -- track_count
   9, 0, 0, 0, 33, 109, 101, 115, 104, 97, 46, 109, 0,   -- "!mesha.m\0"
   0, 0, 0, 0,                               -- reserved
   255, 255, 255, 255,                       -- parent_index = -1
   2, 0, 0, 0,                               -- key_count
   0, 0, 0, 0, 0, 0, 0, 0,                   -- (0.0, 0.0)
   154, 153, 153, 63, 0, 0, 0, 64]           -- (1.2, 2.0)

/-- The component `load` builds for the track of `wave`. -/
def waveMesh : Component :=
  { kind := .Mesh, parent := none, parentID := -1, name := [97, 46, 109],
    prevComponent := none, tag := MKTAG 'm' 'e' 's' 'h', costumeArg := true,
    costumeSet := true, initDone := true }

/-- The chore `load` builds from `wave`. -/
def waveChore : EMIChore :=
  { name := [119, 97, 118, 101, 0], choreId := 0, length := 1200, numTracks := 1,
    tracks := [{ keys := [{ time := 0, value := 0 }, { time := 1200, value := 2 }],
                 component := some (.own 0), compID := -1 }],
    attached := [.own 0] }

/-- The costume payload with the one chore `wave`. -/
def waveCostume : Stream := [1, 0, 0, 0] ++ wave

/-- The chore record with an empty name, duration `1000.5` and no track. -/
def plain : Stream := [0, 0, 0, 0, 0, 32, 122, 68, 0, 0, 0, 0]

/-- The binary32 value `1000.5`. -/
def plainDuration : F32 := get_float [0, 32, 122, 68]

/-- The chore `load` builds from `plain`. -/
def plainChore : EMIChore := { name := [], choreId := 0, length := 1001, numTracks := 0 }

/-- The track record `!MESHa` with parent index `-1` and no keyframe. -/
def upperTrack : Format.Track :=
  { descriptor := [33, 77, 69, 83, 72, 97, 0], reserved := 0, parent_index := -1, keys := [] }

/-- The chore record that holds `upperTrack`. -/
def upperChore : Format.Chore :=
  { name := [120, 0], duration_raw := F32.ofBits 1065353216, tracks := [upperTrack] }

/-- The costume payload with the one chore `upperChore`. -/
def upper : Stream :=
  [1, 0, 0, 0,                               -- chore_count
   2, 0, 0, 0, 120, 0,                       -- name_len, "x\0"
   0, 0, 128, 63,                            -- duration_raw = 1.0
   1, 0, 0, 0,                               -- track_count
   7, 0, 0, 0, 33, 77, 69, 83, 72, 97, 0,    -- "!MESHa\0"
   0, 0, 0, 0,                               -- reserved
   255, 255, 255, 255,                       -- parent_index = -1
   0, 0, 0, 0]                               -- key_count

/-- The track record `!shadx` with parent index `0` and the keyframe
`(1.2, 2.0)`. -/
def shadTrack : Format.Track :=
  { descriptor := [33, 115, 104, 97, 100, 120, 0], reserved := 0, parent_index := 0,
    keys := [{ time_raw := F32.ofBits 1067030938, value_raw := F32.ofBits 1073741824 }] }

/-- The bytes of `shadTrack`, followed by the byte `9`. -/
def shad : Stream :=
  [7, 0, 0, 0, 33, 115, 104, 97, 100, 120, 0,   -- "!shadx\0"
   0, 0, 0, 0,                               -- reserved
   0, 0, 0, 0,                               -- parent_index = 0
   1, 0, 0, 0,                               -- key_count
   154, 153, 153, 63, 0, 0, 0, 64,           -- (1.2, 2.0)
   9]

/-- The loop variables after the track of `wave` was read. -/
def afterWave : LoadState :=
  { components := [some waveMesh], chore := waveChore, prevComponent := none,
    length := F32.fin ((1200 * F32.one : Nat) : Int) }

/-- Sample collaborators: the skeleton of a chore is its first attached
component, every chore with an attached component is a wear chore, the base
start appends the chore to the playing list, the base writer writes the
number of playing chores, and the base reader succeeds exactly when it reads
that number back. -/
def ext : Externals :=
  { getSkeleton := fun ch => ch.attached.head?
    isWearChore := fun ch => !ch.attached.isEmpty
    playChore := fun num c => { c with playingChores := c.playingChores ++ [num.toNat] }
    playChoreLooping := fun num c => { c with playingChores := c.playingChores ++ [num.toNat] }
    saveState := fun c state => state ++ [(c.playingChores.length : Int)]
    restoreState := fun c state =>
      match state with
      | [] => (false, c, [])
      | v :: rest => (decide (v = (c.playingChores.length : Int)), c, rest) }

/-- A chore without component. -/
def idle : EMIChore := { name := [105, 0], choreId := 1, length := 1000, numTracks := 0 }

/-- A loaded costume with the chores `wave` and `idle`, two cached materials
and no worn chore. -/
def costume : EMICostume :=
  { chores := [waveChore, idle], components := [some waveMesh],
    materials := [{ filename := ['a'], activeTexture := 3 },
                  { filename := ['b'], activeTexture := 5 }] }

/-- The sample costume wearing the chore `wave`. -/
def worn : EMICostume :=
  { costume with wearChore := some 0, emiSkel := some (.own 0) }

/-- A component with the tag `MMDL`. -/
def model : Component :=
  { kind := .Mesh, parent := none, parentID := -1, name := [109], prevComponent := none,
    tag := MKTAG 'M' 'M' 'D' 'L', costumeArg := false }

/-- A component with the tag `skel`. -/
def skeleton : Component :=
  { kind := .Skeleton, parent := none, parentID := -1, name := [115], prevComponent := none,
    tag := MKTAG 's' 'k' 'e' 'l', costumeArg := false }

/-- The costume payload with two chores `wave`. -/
def twoWaves : Stream := [2, 0, 0, 0] ++ wave ++ wave

/-- The chore `load` builds from the second record of `twoWaves`. -/
def secondWave : EMIChore :=
  { waveChore with choreId := 1
                   tracks := [{ keys := [{ time := 0, value := 0 }, { time := 1200, value := 2 }],
                                component := some (.own 1), compID := -1 }]
                   attached := [.own 1] }

/-- A resource loader: the canonical filename is the name in lower case, a
new material has the canonical filename and the active texture `0`. -/
def loader : ResourceLoader :=
  { fixFilename := fun name => name.map Char.toLower
    loadMaterial := fun name => { filename := name.map Char.toLower, activeTexture := 0 } }

/-- The track record of `wave`. -/
def waveTrack : Format.Track :=
  { descriptor := [33, 109, 101, 115, 104, 97, 46, 109, 0], reserved := 0, parent_index := -1,
    keys := [{ time_raw := F32.ofBits 0, value_raw := F32.ofBits 0 },
             { time_raw := F32.ofBits 1067030938, value_raw := F32.ofBits 1073741824 }] }

/-- The chore record of `wave`. -/
def waveRecord : Format.Chore :=
  { name := [119, 97, 118, 101, 0], duration_raw := F32.ofBits 1065353216,
    tracks := [waveTrack] }

/-- The bytes of the track of `wave`. -/
def meshTrack : Stream := wave.drop 17

/-- The loop variables before the track of `wave` is read. -/
def beforeWave : LoadState :=
  { components := [],
    chore := { name := [119, 97, 118, 101, 0], choreId := 0, length := 1000, numTracks := 1 },
    prevComponent := none, length := F32.fin ((1000 * F32.one : Nat) : Int) }

/-- The component built for the track of `wave` when the previous costume's
component 0 has the tag `MMDL`. -/
def heir : Component :=
  { waveMesh with parentID := -2, prevComponent := some (.prev 0) }

/-- The loop variables after the track of `wave` was read, the previous
costume's component 0 having the tag `MMDL`. -/
def afterHandOff : LoadState :=
  { components := [some heir],
    chore := { beforeWave.chore with tracks := waveChore.tracks, attached := [.own 0] },
    prevComponent := some (.prev 0), length := F32.fin ((1200 * F32.one : Nat) : Int) }

/-- The bytes of the track record `!mesha.m` with parent index `1` and no
keyframe. -/
def child : Stream :=
  [9, 0, 0, 0, 33, 109, 101, 115, 104, 97, 46, 109, 0,   -- "!mesha.m\0"
   0, 0, 0, 0,                               -- reserved
   1, 0, 0, 0,                               -- parent_index = 1
   0, 0, 0, 0]                               -- key_count

/-- The track record of `child`. -/
def childTrack : Format.Track :=
  { descriptor := [33, 109, 101, 115, 104, 97, 46, 109, 0], reserved := 0, parent_index := 1,
    keys := [] }

/-- The component `load` builds for `child` when slot 1 is empty. -/
def orphan : Component := { waveMesh with parentID := 1 }

/-- The bytes of the tracks `!shadx` and `child`. -/
def kinTracks : Stream := shad.dropLast ++ child

/-- The chore record `kin`: duration `1.0` and the tracks of `kinTracks`. -/
def kin : Stream :=
  [4, 0, 0, 0, 107, 105, 110, 0,             -- name_len, "kin\0"
   0, 0, 128, 63,                            -- duration_raw = 1.0
   2, 0, 0, 0] ++ kinTracks                  -- track_count

/-- The loop variables before the tracks of `kin` are read, `wave` being
chore 0. -/
def beforeKin : LoadState :=
  { components := [some waveMesh],
    chore := { name := [107, 105, 110, 0], choreId := 1, length := 1000, numTracks := 2 },
    prevComponent := none, length := F32.fin ((1000 * F32.one : Nat) : Int) }

/-- The loop variables after the track `!shadx` of `kin` was read. -/
def afterShad : LoadState :=
  { components := [some waveMesh, none],
    chore := { beforeKin.chore with
      tracks := [{ keys := [{ time := 1200, value := 2 }], component := none, compID := -1 }] },
    prevComponent := none, length := F32.fin ((1200 * F32.one : Nat) : Int) }

/-- The chore `load` builds from `kin` after `wave`. -/
def kinChore : EMIChore :=
  { name := [107, 105, 110, 0], choreId := 1, length := 1200, numTracks := 2,
    tracks := [{ keys := [{ time := 1200, value := 2 }], component := none, compID := -1 },
               { keys := [], component := some (.own 2), compID := -1 }],
    attached := [.own 2] }

/-- The costume payload with the chores `wave` and `kin`. -/
def family : Stream := [2, 0, 0, 0] ++ wave ++ kin

/-- The costume `load` builds from `family`. -/
def familyCostume : EMICostume :=
  { chores := [waveChore, kinChore], components := [some waveMesh, none, some orphan] }

/-- A costume with four chores, all playing, whose active skeleton is
component 0. -/
def band : EMICostume :=
  { chores := [waveChore, idle, { idle with choreId := 2 }, { idle with choreId := 3 }],
    components := [some waveMesh], playingChores := [0, 1, 2, 3], wearChore := some 0,
    emiSkel := some (.own 0) }

/-- The sample costume wearing `wave` while only `idle` plays. -/
def resting : EMICostume := { worn with playingChores := [1] }

/-- The sample costume wearing `wave` while `idle` and `wave` play. -/
def waving : EMICostume := { worn with playingChores := [1, 0] }

/-- The costume `familyCostume` wearing its chore `wave`, whose skeleton is
component 0. -/
def familyWorn : EMICostume :=
  { familyCostume with wearChore := some 0, emiSkel := some (.own 0) }

end Samples

/-! ## The loader reads the format of the specification

Each loop of `load` returns exactly when the format reader returns a record
whose counts fit and the corresponding step function returns. -/

theorem read_eq (n : Nat) (data : Stream) :
    read n data = match Format.bytes n data with
      | some r => .ok r
      | none => .error .eos := by
  unfold read Format.bytes
  split <;> rfl

theorem readUint32LE_eq (data : Stream) :
    readUint32LE data = match Format.u32 data with
      | some r => .ok r
      | none => .error .eos := by
  unfold readUint32LE Format.u32
  rw [read_eq]
  cases Format.bytes 4 data <;> rfl

theorem read_ok_iff (n : Nat) (data : Stream) (r : List Nat × Stream) :
    read n data = .ok r ↔ Format.bytes n data = some r := by
  rw [read_eq]
  cases Format.bytes n data <;> simp

theorem readUint32LE_ok_iff (data : Stream) (r : Nat × Stream) :
    readUint32LE data = .ok r ↔ Format.u32 data = some r := by
  rw [readUint32LE_eq]
  cases Format.u32 data <;> simp

theorem bytes_eq_some (n : Nat) (data b r : Stream) :
    Format.bytes n data = some (b, r) ↔ n ≤ data.length ∧ b = data.take n ∧ r = data.drop n := by
  unfold Format.bytes
  split
  · simp [*, eq_comm]
  · simp [*]

theorem u32_eq_some (data r : Stream) (v : Nat) :
    Format.u32 data = some (v, r) ↔ 4 ≤ data.length ∧ v = le32 (data.take 4) ∧ r = data.drop 4 := by
  unfold Format.u32 Format.bytes
  split
  · rename_i x b rest hx
    split at hx
    · simp at hx
      obtain ⟨rfl, rfl⟩ := hx
      simp [*, eq_comm]
    · cases hx
  · rename_i x hx
    split at hx
    · cases hx
    · simp [*]

theorem f32_eq_some (data r : Stream) (a : F32) :
    Format.f32 data = some (a, r) ↔
      4 ≤ data.length ∧ a = get_float (data.take 4) ∧ r = data.drop 4 := by
  unfold Format.f32
  split
  · rename_i x b rest hx
    rw [u32_eq_some] at hx
    obtain ⟨h4, rfl, rfl⟩ := hx
    simp [h4, get_float, eq_comm]
  · rename_i x hx
    have : ¬ 4 ≤ data.length := by
      intro h4
      have := (u32_eq_some data (data.drop 4) (le32 (data.take 4))).2 ⟨h4, rfl, rfl⟩
      rw [hx] at this
      cases this
    simp [this]

theorem read8_ok_iff (data v rest : Stream) :
    read 8 data = .ok (v, rest) ↔
      ∃ mid, Format.f32 data = some (get_float (v.take 4), mid) ∧
        Format.f32 mid = some (get_float (v.drop 4), rest) ∧ v = data.take 8 := by
  constructor
  · intro h
    rw [read_eq] at h
    split at h
    · rename_i x r hx
      cases h
      rw [bytes_eq_some] at hx
      obtain ⟨h8, rfl, rfl⟩ := hx
      refine ⟨data.drop 4, ?_, ?_, rfl⟩
      · rw [f32_eq_some]
        exact ⟨by omega, by simp [List.take_take], rfl⟩
      · rw [f32_eq_some]
        refine ⟨by simp; omega, by simp [List.drop_take], by simp⟩
    · cases h
  · rintro ⟨mid, h1, h2, rfl⟩
    rw [f32_eq_some] at h1 h2
    obtain ⟨h4, -, rfl⟩ := h1
    obtain ⟨h4', -, rfl⟩ := h2
    simp only [List.length_drop] at h4'
    have h8 : 8 ≤ data.length := by omega
    simp [read, h8]


theorem bind_ok_iff {ε α β : Type} (x : Except ε α) (f : α → Except ε β) (b : β) :
    (x >>= f) = .ok b ↔ ∃ a, x = .ok a ∧ f a = .ok b := by
  cases x <;> simp [bind, Except.bind]

theorem defined_ok_iff (x : Option Int) (v : Int) : defined x = .ok v ↔ x = some v := by
  cases x <;> simp [defined]

theorem storeKey_eq_some (k : Format.Key) (s : TrackKey) :
    Format.storeKey k = some s ↔
      F32.toInt k.time = some s.time ∧ F32.toInt k.value_raw = some s.value := by
  unfold Format.storeKey
  cases s with
  | mk t v =>
    cases h1 : F32.toInt k.time <;> cases h2 : F32.toInt k.value_raw <;> simp

theorem storeKeys_cons_eq_some (k : Format.Key) (ks : List Format.Key) (out : List TrackKey) :
    Format.storeKeys (k :: ks) = some out ↔
      ∃ s ss, Format.storeKey k = some s ∧ Format.storeKeys ks = some ss ∧ out = s :: ss := by
  simp only [Format.storeKeys]
  cases h1 : Format.storeKey k <;> cases h2 : Format.storeKeys ks <;> simp [eq_comm]

theorem readKeys_ok_iff (n : Nat) : ∀ (data : Stream) (len : F32) (keys : List TrackKey)
    (len' : F32) (data' : Stream),
    readKeys n data len = .ok (keys, len', data') ↔
      ∃ raws, Format.readKeys n data = some (raws, data') ∧
        Format.storeKeys raws = some keys ∧
        len' = Format.widen len (raws.map Format.Key.time) := by
  induction n with
  | zero =>
      intro data len keys len' data'
      simp only [readKeys, Format.readKeys, Except.ok.injEq, Prod.mk.injEq, Option.some.injEq]
      constructor
      · rintro ⟨rfl, rfl, rfl⟩
        exact ⟨[], ⟨rfl, rfl⟩, rfl, rfl⟩
      · rintro ⟨raws, ⟨rfl, rfl⟩, h2, h3⟩
        simp only [Format.storeKeys, Option.some.injEq] at h2
        simp only [List.map_nil, Format.widen, List.foldl_nil] at h3
        exact ⟨h2, h3.symm, rfl⟩
  | succ n ih =>
      intro data len keys len' data'
      simp only [readKeys, Format.readKeys, bind_ok_iff, Option.bind_eq_bind,
        Option.bind_eq_some, defined_ok_iff, Prod.exists, Except.ok.injEq, Prod.mk.injEq,
        Option.some.injEq, read8_ok_iff, ih]
      constructor
      · rintro ⟨v, d1, ⟨mid, h1, h2, rfl⟩, t, ht, x, hx, ks, l2, d2, ⟨raws, hr, hs, rfl⟩, rfl, rfl, rfl⟩
        refine ⟨_ :: raws, ⟨_, _, h1, _, _, h2, raws, _, hr, rfl, rfl⟩, ?_, ?_⟩
        · rw [storeKeys_cons_eq_some]
          exact ⟨⟨t, x⟩, _, (storeKey_eq_some _ ⟨t, x⟩).2 ⟨ht, hx⟩, hs, rfl⟩
        · simp [Format.widen, Format.Key.time]
      · rintro ⟨raws, ⟨a, mid, h1, b, d1, h2, rs, d2, hr, rfl, rfl⟩, hs, rfl⟩
        rw [storeKeys_cons_eq_some] at hs
        obtain ⟨s, ss, hk, hss, rfl⟩ := hs
        rw [storeKey_eq_some] at hk
        have ha := (f32_eq_some _ _ _).1 h1
        have hb := (f32_eq_some _ _ _).1 h2
        obtain ⟨h4, rfl, rfl⟩ := ha
        obtain ⟨h4', rfl, rfl⟩ := hb
        simp only [List.length_drop] at h4'
        refine ⟨data.take 8, _, ⟨data.drop 4, ?_, ?_, rfl⟩, s.time, ?_, s.value, ?_, ss, _, _,
          ⟨rs, hr, hss, rfl⟩, rfl, ?_, rfl⟩
        · rw [f32_eq_some]; exact ⟨h4, by simp [List.take_take], rfl⟩
        · rw [f32_eq_some]
          exact ⟨by simp only [List.length_drop]; exact h4', by simp [List.drop_take], rfl⟩
        · simpa [Format.Key.time, List.take_take] using hk.1
        · simpa [List.drop_take] using hk.2
        · simp [Format.widen, Format.Key.time, List.take_take]



theorem ite_error_ok_iff {ε α : Type} (c : Prop) [Decidable c] (e : ε) (x : Except ε α) (r : α) :
    (if c then (Except.error e) else x) = .ok r ↔ ¬ c ∧ x = .ok r := by
  split <;> simp [*]

theorem le32_lt (b : List Nat) : le32 b < 4294967296 := by
  unfold le32; omega

theorem toInt32_neg_iff (u : Nat) (h : u < 4294967296) : toInt32 u < 0 ↔ 2147483648 ≤ u := by
  unfold toInt32
  rw [Nat.mod_eq_of_lt h]
  split <;> omega

theorem toInt32_toNat (u : Nat) (h : u < 2147483648) : (toInt32 u).toNat = u := by
  unfold toInt32
  rw [Nat.mod_eq_of_lt (by omega)]
  simp [h]

theorem Format.readKeys_length (n : Nat) : ∀ (data : Stream) (raws : List Format.Key)
    (data' : Stream), Format.readKeys n data = some (raws, data') → raws.length = n := by
  induction n with
  | zero => intro data raws data' h; simp [Format.readKeys] at h; simp [h.1.symm]
  | succ n ih =>
      intro data raws data' h
      simp only [Format.readKeys, Option.bind_eq_bind, Option.bind_eq_some, Prod.exists,
        Option.some.injEq, Prod.mk.injEq] at h
      obtain ⟨a, mid, h1, b, d1, h2, rs, d2, hr, rfl, rfl⟩ := h
      simp [ih _ _ _ hr]

theorem loadTrack_ok_iff (prev : Option (List (Option Component))) (i : Nat)
    (st st' : LoadState) (data data' : Stream) :
    loadTrack prev i st data = .ok (st', data') ↔
      ∃ t, Format.readTrack data = some (t, data') ∧ t.Fits ∧ trackStep prev i st t = .ok st' := by
  simp only [loadTrack, Format.readTrack, trackStep, Format.Track.Fits, and_assoc, bind_ok_iff, Option.bind_eq_bind,
    Option.bind_eq_some, Prod.exists, ite_error_ok_iff, readUint32LE_ok_iff, read_ok_iff,
    readKeys_ok_iff, Option.some.injEq, Prod.mk.injEq]
  constructor
  · rintro ⟨n1, d1, h1, hn1, desc, d2, h2, r, d3, h3, p, d4, h4, pid, pc, h5, par, h6, comp, h7,
      n2, d5, h8, hn2, keys, len, d6, ⟨raws, h9, h10, rfl⟩, h11⟩
    have b1 := (u32_eq_some _ _ _).1 h1
    have b2 := (u32_eq_some _ _ _).1 h8
    have e1 : n1 < 2147483648 := by
      have := toInt32_neg_iff n1 (by rw [b1.2.1]; exact le32_lt _)
      omega
    have e2 : n2 < 2147483648 := by
      have := toInt32_neg_iff n2 (by rw [b2.2.1]; exact le32_lt _)
      omega
    rw [toInt32_toNat _ e1] at h2
    rw [toInt32_toNat _ e2] at h9
    have l1 : desc.length = n1 := by
      have := (bytes_eq_some _ _ _ _).1 h2
      rw [this.2.1, List.length_take]; omega
    have l2 := Format.readKeys_length _ _ _ _ h9
    refine ⟨⟨desc, r, toInt32 p, raws⟩, ⟨n1, d1, h1, desc, d2, h2, r, d3, h3, p, d4, h4, n2, d5,
      h8, raws, d6, h9, rfl, ?_⟩, by simpa [l1] using e1, by simpa [l2] using e2,
      pid, pc, h5, par, h6, comp, h7, ?_⟩
    · simp only [Except.ok.injEq, Prod.mk.injEq] at h11; exact h11.2
    · simp only [h10]
      simp only [Except.ok.injEq, Prod.mk.injEq] at h11 ⊢
      exact h11.1
  · rintro ⟨t, ⟨n1, d1, h1, desc, d2, h2, r, d3, h3, p, d4, h4, n2, d5, h8, raws, d6, h9, rfl, rfl⟩,
      e1, e2, pid, pc, h5, par, h6, comp, h7, h10⟩
    have l1 : desc.length = n1 := by
      have := (bytes_eq_some _ _ _ _).1 h2
      rw [this.2.1, List.length_take]; omega
    have l2 := Format.readKeys_length _ _ _ _ h9
    simp only [l1] at e1
    simp only [l2] at e2
    have b1 := (u32_eq_some _ _ _).1 h1
    have b2 := (u32_eq_some _ _ _).1 h8
    have g1 : ¬ toInt32 n1 < 0 := by
      have := toInt32_neg_iff n1 (by rw [b1.2.1]; exact le32_lt _)
      omega
    have g2 : ¬ toInt32 n2 < 0 := by
      have := toInt32_neg_iff n2 (by rw [b2.2.1]; exact le32_lt _)
      omega
    cases hk : Format.storeKeys raws with
    | none => simp [hk] at h10
    | some keys =>
      simp only [hk] at h10
      refine ⟨n1, d1, h1, g1, desc, d2, by rw [toInt32_toNat _ e1]; exact h2, r, d3, h3, p, d4, h4,
        pid, pc, h5, par, h6, comp, h7, n2, d5, h8, g2, keys, _, d6,
        ⟨raws, by rw [toInt32_toNat _ e2]; exact h9, hk, rfl⟩, ?_⟩
      simp only [Except.ok.injEq, Prod.mk.injEq] at h10 ⊢
      exact ⟨h10, trivial⟩


theorem tracksStep_cons_ok_iff (prev : Option (List (Option Component))) (i : Nat)
    (st st' : LoadState) (t : Format.Track) (ts : List Format.Track) :
    tracksStep prev i st (t :: ts) = .ok st' ↔
      ∃ st1, trackStep prev i st t = .ok st1 ∧ tracksStep prev i st1 ts = .ok st' := by
  simp only [tracksStep]
  cases trackStep prev i st t <;> simp

theorem loadTracks_ok_iff (prev : Option (List (Option Component))) (i n : Nat) :
    ∀ (st st' : LoadState) (data data' : Stream),
    loadTracks prev i n st data = .ok (st', data') ↔
      ∃ ts, Format.readTracks n data = some (ts, data') ∧ (∀ t ∈ ts, t.Fits) ∧
        tracksStep prev i st ts = .ok st' := by
  induction n with
  | zero =>
      intro st st' data data'
      simp only [loadTracks, Format.readTracks, Except.ok.injEq, Prod.mk.injEq,
        Option.some.injEq]
      constructor
      · rintro ⟨rfl, rfl⟩
        exact ⟨[], ⟨rfl, rfl⟩, by simp, rfl⟩
      · rintro ⟨ts, ⟨rfl, rfl⟩, -, h⟩
        simp only [tracksStep, Except.ok.injEq] at h
        exact ⟨h, rfl⟩
  | succ n ih =>
      intro st st' data data'
      simp only [loadTracks, Format.readTracks, bind_ok_iff, Prod.exists, loadTrack_ok_iff, ih,
        Option.bind_eq_bind, Option.bind_eq_some, Option.some.injEq, Prod.mk.injEq]
      constructor
      · rintro ⟨st1, d1, ⟨t, ht, hf, hs⟩, ts, hts, hfs, hss⟩
        refine ⟨t :: ts, ⟨t, d1, ht, ts, _, hts, rfl, rfl⟩, ?_, ?_⟩
        · intro x hx
          rcases List.mem_cons.1 hx with rfl | hx
          · exact hf
          · exact hfs x hx
        · rw [tracksStep_cons_ok_iff]; exact ⟨st1, hs, hss⟩
      · rintro ⟨ts0, ⟨t, d1, ht, ts, d2, hts, rfl, rfl⟩, hf, hs⟩
        rw [tracksStep_cons_ok_iff] at hs
        obtain ⟨st1, hs1, hs2⟩ := hs
        exact ⟨st1, d1, ⟨t, ht, hf t (by simp), hs1⟩, ts, hts,
          fun x hx => hf x (by simp [hx]), hs2⟩

theorem Format.readTracks_length (n : Nat) : ∀ (data : Stream) (ts : List Format.Track)
    (data' : Stream), Format.readTracks n data = some (ts, data') → ts.length = n := by
  induction n with
  | zero => intro data ts data' h; simp [Format.readTracks] at h; simp [h.1.symm]
  | succ n ih =>
      intro data ts data' h
      simp only [Format.readTracks, Option.bind_eq_bind, Option.bind_eq_some, Prod.exists,
        Option.some.injEq, Prod.mk.injEq] at h
      obtain ⟨t, d1, h1, rs, d2, hr, rfl, rfl⟩ := h
      simp [ih _ _ _ hr]

theorem f32_eq_bytes (data r : Stream) (a : F32) :
    Format.f32 data = some (a, r) ↔ ∃ f, Format.bytes 4 data = some (f, r) ∧ a = get_float f := by
  rw [f32_eq_some]
  constructor
  · rintro ⟨h4, rfl, rfl⟩
    exact ⟨_, (bytes_eq_some _ _ _ _).2 ⟨h4, rfl, rfl⟩, rfl⟩
  · rintro ⟨f, hf, rfl⟩
    obtain ⟨h4, rfl, rfl⟩ := (bytes_eq_some _ _ _ _).1 hf
    exact ⟨h4, rfl, rfl⟩

theorem toInt32_of_lt (u : Nat) (h : u < 2147483648) : toInt32 u = (u : Int) := by
  unfold toInt32
  rw [Nat.mod_eq_of_lt (by omega)]
  simp [h]

theorem u32_lt (data r : Stream) (v : Nat) (h : Format.u32 data = some (v, r)) :
    v < 4294967296 := by
  obtain ⟨-, rfl, -⟩ := (u32_eq_some _ _ _).1 h
  exact le32_lt _

theorem bytes_length (n : Nat) (data b r : Stream) (h : Format.bytes n data = some (b, r)) :
    b.length = n := by
  obtain ⟨hn, rfl, -⟩ := (bytes_eq_some _ _ _ _).1 h
  rw [List.length_take]; omega

theorem loadChoreHeader_ok_iff (i : Nat) (data data' : Stream) (hdr : EMIChore) (len : F32) :
    loadChoreHeader i data = .ok (hdr, len, data') ↔
      ∃ n1 d1 name d2 dr d3 nt l0, Format.u32 data = some (n1, d1) ∧ n1 < 32 ∧
        Format.bytes n1 d1 = some (name, d2) ∧ Format.f32 d2 = some (dr, d3) ∧
        Format.u32 d3 = some (nt, data') ∧ nt < 2147483648 ∧ len = normalizeLength dr ∧
        F32.toInt len = some l0 ∧
        hdr = { name := name, choreId := i, length := l0, numTracks := (nt : Int) } := by
  simp only [loadChoreHeader, bind_ok_iff, Prod.exists, ite_error_ok_iff, readUint32LE_ok_iff,
    read_ok_iff, defined_ok_iff, Except.ok.injEq, Prod.mk.injEq, not_not]
  constructor
  · rintro ⟨n1, d1, h1, hn1, name, d2, h2, f, d3, h3, nt, d4, h4, l0, hl0, hnt, rfl, rfl, rfl⟩
    have hlt : nt < 2147483648 := by
      have := toInt32_neg_iff nt (u32_lt _ _ _ h4)
      omega
    refine ⟨n1, d1, name, d2, get_float f, d3, nt, l0, h1, hn1, h2,
      (f32_eq_bytes _ _ _).2 ⟨f, h3, rfl⟩, h4, hlt, rfl, hl0, ?_⟩
    rw [toInt32_of_lt _ hlt]
  · rintro ⟨n1, d1, name, d2, dr, d3, nt, l0, h1, hn1, h2, h3, h4, hlt, rfl, hl0, rfl⟩
    obtain ⟨f, hf, rfl⟩ := (f32_eq_bytes _ _ _).1 h3
    refine ⟨n1, d1, h1, hn1, name, d2, h2, f, d3, hf, nt, data', h4, l0, hl0, ?_, ?_, rfl, rfl⟩
    · rw [toInt32_of_lt _ hlt]; omega
    · rw [toInt32_of_lt _ hlt]

theorem loadChore_ok_iff (prev : Option (List (Option Component))) (i : Nat)
    (comps comps' : List (Option Component)) (chore : EMIChore) (data data' : Stream) :
    loadChore prev i comps data = .ok (chore, comps', data') ↔
      ∃ c, Format.readChore data = some (c, data') ∧ c.Fits ∧
        choreStep prev i comps c = .ok (chore, comps') := by
  simp only [loadChore, bind_ok_iff, Prod.exists, loadChoreHeader_ok_iff, loadTracks_ok_iff,
    defined_ok_iff, Except.ok.injEq, Prod.mk.injEq]
  simp only [Format.readChore, choreStep, Format.Chore.Fits, bind_ok_iff, defined_ok_iff,
    Option.bind_eq_bind, Option.bind_eq_some, Option.some.injEq, Prod.mk.injEq, Prod.exists,
    Except.ok.injEq]
  constructor
  · rintro ⟨hdr, len, d4, ⟨n1, d1, name, d2, dr, d3, nt, l0, h1, hn1, h2, h3, h4, hlt, rfl, hl0,
      rfl⟩, st, d5, ⟨ts, hts, hfs, hss⟩, l, hl, rfl, rfl, rfl⟩
    simp only [Int.toNat_ofNat] at hts
    have hlen := Format.readTracks_length _ _ _ _ hts
    refine ⟨⟨name, dr, ts⟩, ⟨n1, d1, h1, name, d2, h2, dr, d3, h3, nt, d4, h4, ts, d5, hts, rfl,
      rfl⟩, ⟨by rw [bytes_length _ _ _ _ h2]; exact hn1, by rw [hlen]; exact hlt, hfs⟩,
      l0, hl0, st, ?_, l, hl, rfl, rfl⟩
    simp only [hlen]
    exact hss
  · rintro ⟨c, ⟨n1, d1, h1, name, d2, h2, dr, d3, h3, nt, d4, h4, ts, d5, hts, rfl, rfl⟩,
      ⟨hn, hlt, hfs⟩, l0, hl0, st, hss, l, hl, rfl, rfl⟩
    have hlen := Format.readTracks_length _ _ _ _ hts
    simp only [hlen] at hlt hss
    simp only [bytes_length _ _ _ _ h2] at hn
    exact ⟨_, _, d4, ⟨n1, d1, name, d2, dr, d3, nt, l0, h1, hn, h2, h3, h4, hlt, rfl, hl0, rfl⟩,
      st, _, ⟨ts, by simpa using hts, hfs, hss⟩, l, hl, rfl, rfl, rfl⟩

theorem Format.readChores_length (n : Nat) : ∀ (data : Stream) (cs : List Format.Chore)
    (data' : Stream), Format.readChores n data = some (cs, data') → cs.length = n := by
  induction n with
  | zero => intro data cs data' h; simp [Format.readChores] at h; simp [h.1.symm]
  | succ n ih =>
      intro data cs data' h
      simp only [Format.readChores, Option.bind_eq_bind, Option.bind_eq_some, Prod.exists,
        Option.some.injEq, Prod.mk.injEq] at h
      obtain ⟨t, d1, h1, rs, d2, hr, rfl, rfl⟩ := h
      simp [ih _ _ _ hr]

theorem loadChores_ok_iff (prev : Option (List (Option Component))) (n : Nat) :
    ∀ (i : Nat) (comps comps' : List (Option Component)) (chores : List EMIChore)
      (data data' : Stream),
    loadChores prev n i comps data = .ok (chores, comps', data') ↔
      ∃ cs, Format.readChores n data = some (cs, data') ∧ (∀ c ∈ cs, c.Fits) ∧
        choresStep prev i comps cs = .ok (chores, comps') := by
  induction n with
  | zero =>
      intro i comps comps' chores data data'
      simp only [loadChores, Format.readChores, Except.ok.injEq, Prod.mk.injEq,
        Option.some.injEq]
      constructor
      · rintro ⟨rfl, rfl, rfl⟩
        exact ⟨[], ⟨rfl, rfl⟩, by simp, rfl⟩
      · rintro ⟨cs, ⟨rfl, rfl⟩, -, h⟩
        simp only [choresStep, Except.ok.injEq, Prod.mk.injEq] at h
        exact ⟨h.1, h.2, rfl⟩
  | succ n ih =>
      intro i comps comps' chores data data'
      simp only [loadChores, Format.readChores, bind_ok_iff, Prod.exists, loadChore_ok_iff, ih,
        Option.bind_eq_bind, Option.bind_eq_some, Option.some.injEq, Prod.mk.injEq,
        Except.ok.injEq]
      constructor
      · rintro ⟨ch, comps1, d1, ⟨c, hc, hf, hs⟩, chs, comps2, d2, ⟨cs, hcs, hfs, hss⟩, rfl, rfl,
          rfl⟩
        refine ⟨c :: cs, ⟨c, d1, hc, cs, _, hcs, rfl, rfl⟩, ?_, ?_⟩
        · intro x hx
          rcases List.mem_cons.1 hx with rfl | hx
          · exact hf
          · exact hfs x hx
        · simp only [choresStep, bind_ok_iff, Prod.exists, Except.ok.injEq, Prod.mk.injEq]
          exact ⟨ch, comps1, hs, chs, _, hss, rfl, rfl⟩
      · rintro ⟨cs0, ⟨c, d1, hc, cs, d2, hcs, rfl, rfl⟩, hf, hs⟩
        simp only [choresStep, bind_ok_iff, Prod.exists, Except.ok.injEq, Prod.mk.injEq] at hs
        obtain ⟨ch, comps1, hs1, chs, comps2, hs2, rfl, rfl⟩ := hs
        exact ⟨ch, comps1, d1, ⟨c, hc, hf c (by simp), hs1⟩, chs, _, _,
          ⟨cs, hcs, fun x hx => hf x (by simp [hx]), hs2⟩, rfl, rfl, rfl⟩

theorem load_ok_iff (c c' : EMICostume) (data : Stream) :
    c.load data = .ok c' ↔
      ∃ cs rest, Format.readCostume data = some (cs, rest) ∧ cs.length < 2147483648 ∧
        (∀ x ∈ cs, x.Fits) ∧
        ∃ chores comps, choresStep c.prevCostume 0 [] cs = .ok (chores, comps) ∧
          c' = { c with chores := chores, components := comps } := by
  simp only [EMICostume.load, Format.readCostume, bind_ok_iff, Prod.exists, ite_error_ok_iff,
    readUint32LE_ok_iff, loadChores_ok_iff, Option.bind_eq_bind, Option.bind_eq_some,
    Except.ok.injEq]
  constructor
  · rintro ⟨n, d1, h1, hn, chores, comps, d2, ⟨cs, hcs, hf, hs⟩, rfl⟩
    have hlt : n < 2147483648 := by
      have := toInt32_neg_iff n (u32_lt _ _ _ h1)
      omega
    rw [toInt32_toNat _ hlt] at hcs
    exact ⟨cs, d2, ⟨n, d1, h1, hcs⟩, by rw [Format.readChores_length _ _ _ _ hcs]; exact hlt,
      hf, chores, comps, hs, rfl⟩
  · rintro ⟨cs, rest, ⟨n, d1, h1, hcs⟩, hlt, hf, chores, comps, hs, rfl⟩
    rw [Format.readChores_length _ _ _ _ hcs] at hlt
    refine ⟨n, d1, h1, ?_, chores, comps, rest, ⟨cs, ?_, hf, hs⟩, rfl⟩
    · rw [toInt32_of_lt _ hlt]; omega
    · rw [toInt32_toNat _ hlt]; exact hcs

/-! ## Conversions and the running maximum -/

theorem F32.one_pos : 0 < F32.one := by decide

theorem F32.one_pos_rat : (0 : ℚ) < ((F32.one : Nat) : ℚ) := by
  exact_mod_cast F32.one_pos

theorem F32.ceil_toRat (n : Int) : ⌈(F32.fin n).toRat⌉ = -((-n) / (F32.one : Int)) := by
  have h : ⌈(F32.fin n).toRat⌉ = -⌊-(F32.fin n).toRat⌋ := by rw [Int.floor_neg, neg_neg]
  rw [h, F32.toRat, ← neg_div, ← Int.cast_neg, Rat.floor_intCast_div_natCast]

theorem F32.floor_toRat (n : Int) : ⌊(F32.fin n).toRat⌋ = n / (F32.one : Int) := by
  rw [F32.toRat, Rat.floor_intCast_div_natCast]

theorem F32.toRat_nonneg_iff (n : Int) : 0 ≤ (F32.fin n).toRat ↔ 0 ≤ n := by
  rw [F32.toRat, div_nonneg_iff]
  have := F32.one_pos_rat
  constructor
  · rintro (⟨h, -⟩ | ⟨-, h⟩)
    · exact_mod_cast h
    · linarith
  · intro h
    exact Or.inl ⟨by exact_mod_cast h, this.le⟩

theorem F32.ceilToInt_eq (x : F32) (l : Int) (h : F32.ceilToInt x = some l) :
    x.isFinite = true ∧ l = ⌈x.toRat⌉ := by
  cases x with
  | nan => cases h
  | inf s => cases h
  | fin n =>
      simp only [F32.ceilToInt] at h
      split at h
      · simp only [Option.some.injEq] at h
        exact ⟨rfl, by rw [← h, F32.ceil_toRat]⟩
      · cases h

theorem F32.toInt_eq (x : F32) (t : Int) (h : F32.toInt x = some t) :
    x.isFinite = true ∧ t = if 0 ≤ x.toRat then ⌊x.toRat⌋ else ⌈x.toRat⌉ := by
  cases x with
  | nan => cases h
  | inf s => cases h
  | fin n =>
      refine ⟨rfl, ?_⟩
      by_cases hn : 0 ≤ n
      · simp only [F32.toInt, hn, if_true] at h
        split at h
        · simp only [Option.some.injEq] at h
          rw [← h, if_pos ((F32.toRat_nonneg_iff n).2 hn), F32.floor_toRat]
        · cases h
      · simp only [F32.toInt, hn, if_false] at h
        split at h
        · simp only [Option.some.injEq] at h
          rw [← h, if_neg (fun h => hn ((F32.toRat_nonneg_iff n).1 h)), F32.ceil_toRat]
        · cases h

theorem F32.toInt_le_ceil (x : F32) (t : Int) (h : F32.toInt x = some t) : t ≤ ⌈x.toRat⌉ := by
  rw [(F32.toInt_eq x t h).2]
  split
  · exact Int.floor_le_ceil _
  · exact le_rfl

theorem F32.toRat_le_iff (a b : Int) : (F32.fin a).toRat ≤ (F32.fin b).toRat ↔ a ≤ b := by
  rw [F32.toRat, F32.toRat, div_le_div_iff_of_pos_right F32.one_pos_rat]
  exact Int.cast_le

theorem MAX_fin (a b : Int) : MAX (.fin a) (.fin b) = .fin (max a b) := by
  unfold MAX F32.lt
  by_cases h : b < a
  · simp [h, max_eq_left h.le]
  · simp [h, max_eq_right (not_lt.1 h)]

theorem widen_fin (xs : List F32) : ∀ (a : Int), (∀ x ∈ xs, x.isFinite = true) →
    ∃ m ∈ F32.fin a :: xs, Format.widen (.fin a) xs = m ∧
      ∀ x ∈ F32.fin a :: xs, x.isFinite = true ∧ x.toRat ≤ m.toRat := by
  induction xs with
  | nil =>
      intro a _
      exact ⟨.fin a, by simp, rfl, by simp [F32.isFinite]⟩
  | cons y ys ih =>
      intro a hfin
      have hy := hfin y (by simp)
      cases y with
      | nan => cases hy
      | inf s => cases hy
      | fin b =>
          obtain ⟨m, hm, hw, hall⟩ := ih (max a b) (fun x hx => hfin x (by simp [hx]))
          have hm' : m.isFinite = true := (hall m hm).1
          refine ⟨m, ?_, ?_, ?_⟩
          · rcases List.mem_cons.1 hm with rfl | hm
            · by_cases hab : b ≤ a
              · rw [max_eq_left hab]; simp
              · rw [max_eq_right (le_of_not_le hab)]; simp
            · simp [hm]
          · simp only [Format.widen, List.foldl_cons, MAX_fin] at hw ⊢
            exact hw
          · intro x hx
            have hmax := (hall (.fin (max a b)) (by simp)).2
            rcases List.mem_cons.1 hx with rfl | hx
            · refine ⟨rfl, le_trans ?_ hmax⟩
              rw [F32.toRat_le_iff]; exact le_max_left _ _
            · rcases List.mem_cons.1 hx with rfl | hx
              · refine ⟨rfl, le_trans ?_ hmax⟩
                rw [F32.toRat_le_iff]; exact le_max_right _ _
              · exact hall x (by simp [hx])

theorem widen_append (l : F32) (xs ys : List F32) :
    Format.widen l (xs ++ ys) = Format.widen (Format.widen l xs) ys := by
  simp [Format.widen, List.foldl_append]

theorem trackStep_spec (prev : Option (List (Option Component))) (i : Nat)
    (st st' : LoadState) (t : Format.Track) (h : trackStep prev i st t = .ok st') :
    ∃ keys comp, Format.storeKeys t.keys = some keys ∧
      st'.length = Format.widen st.length (t.keys.map Format.Key.time) ∧
      st'.chore.tracks = st.chore.tracks ++ [{ keys := keys, component := comp, compID := -1 }] := by
  simp only [trackStep, bind_ok_iff, Prod.exists] at h
  obtain ⟨pid, pc, -, parent, -, r, -, h⟩ := h
  cases hk : Format.storeKeys t.keys with
  | none => simp [hk] at h
  | some keys =>
      simp only [hk, Except.ok.injEq] at h
      subst h
      exact ⟨keys, _, rfl, rfl, rfl⟩

theorem tracksStep_spec (prev : Option (List (Option Component))) (i : Nat)
    (ts : List Format.Track) : ∀ (st st' : LoadState), tracksStep prev i st ts = .ok st' →
    st'.length = Format.widen st.length (Format.keyTimes ts) ∧
    ∃ new, st'.chore.tracks = st.chore.tracks ++ new ∧
      List.Forall₂ (fun t tr => Format.storeKeys t.keys = some tr.keys) ts new := by
  induction ts with
  | nil =>
      intro st st' h
      simp only [tracksStep, Except.ok.injEq] at h
      subst h
      exact ⟨rfl, [], by simp, List.Forall₂.nil⟩
  | cons t ts ih =>
      intro st st' h
      rw [tracksStep_cons_ok_iff] at h
      obtain ⟨st1, h1, h2⟩ := h
      obtain ⟨keys, comp, hk, hl, htr⟩ := trackStep_spec prev i st st1 t h1
      obtain ⟨hl2, new, hnew, hall⟩ := ih st1 st' h2
      have hk' : Format.storeKeys t.keys =
          some ({ keys := keys, component := comp, compID := -1 } : ChoreTrack).keys := hk
      refine ⟨?_, _ :: new, ?_, List.Forall₂.cons hk' hall⟩
      · rw [hl2, hl, Format.keyTimes, widen_append]
      · rw [hnew, htr, List.append_assoc]; rfl

theorem storeKeys_forall₂ (ks : List Format.Key) : ∀ (out : List TrackKey),
    Format.storeKeys ks = some out →
    List.Forall₂ (fun k s => F32.toInt (F32.mul k.time_raw F32.thousand) = some s.time ∧
      F32.toInt k.value_raw = some s.value) ks out := by
  induction ks with
  | nil =>
      intro out h
      simp only [Format.storeKeys, Option.some.injEq] at h
      subst h
      exact List.Forall₂.nil
  | cons k ks ih =>
      intro out h
      rw [storeKeys_cons_eq_some] at h
      obtain ⟨s, ss, h1, h2, rfl⟩ := h
      exact List.Forall₂.cons ((storeKey_eq_some k s).1 h1) (ih ss h2)

theorem keyTimes_mem (ts : List Format.Track) (x : F32) :
    x ∈ Format.keyTimes ts ↔ ∃ t ∈ ts, ∃ k ∈ t.keys, x = F32.mul k.time_raw F32.thousand := by
  induction ts with
  | nil => simp [Format.keyTimes]
  | cons t ts ih =>
      simp only [Format.keyTimes, List.mem_append, List.mem_map, ih, List.mem_cons,
        exists_eq_or_imp, Format.Key.time]
      constructor
      · rintro (⟨k, hk, rfl⟩ | h)
        · exact Or.inl ⟨k, hk, rfl⟩
        · exact Or.inr h
      · rintro (⟨k, hk, rfl⟩ | h)
        · exact Or.inl ⟨k, hk, rfl⟩
        · exact Or.inr h

theorem choreStep_spec (prev : Option (List (Option Component))) (i : Nat)
    (comps comps' : List (Option Component)) (c : Format.Chore) (chore : EMIChore)
    (h : choreStep prev i comps c = .ok (chore, comps')) :
    (∃ l0, F32.toInt (normalizeLength c.duration_raw) = some l0) ∧
    F32.ceilToInt (Format.widen (normalizeLength c.duration_raw) (Format.keyTimes c.tracks)) =
      some chore.length ∧
    List.Forall₂ (fun t tr => Format.storeKeys t.keys = some tr.keys) c.tracks chore.tracks := by
  simp only [choreStep, bind_ok_iff, defined_ok_iff, Except.ok.injEq, Prod.mk.injEq] at h
  obtain ⟨l0, hl0, st, hs, l, hl, rfl, rfl⟩ := h
  obtain ⟨hlen, new, hnew, hall⟩ := tracksStep_spec prev i c.tracks _ st hs
  refine ⟨⟨l0, hl0⟩, ?_, ?_⟩
  · rw [← hlen]; exact hl
  · simp only [List.nil_append] at hnew
    rw [hnew]; exact hall

theorem forall₂_mem_right {α β : Type} {R : α → β → Prop} {xs : List α} {ys : List β}
    (h : List.Forall₂ R xs ys) : ∀ y ∈ ys, ∃ x ∈ xs, R x y := by
  induction h with
  | nil => intro y hy; cases hy
  | cons hr _ ih =>
      intro y hy
      rcases List.mem_cons.1 hy with rfl | hy
      · exact ⟨_, by simp, hr⟩
      · obtain ⟨x, hx, hxy⟩ := ih y hy
        exact ⟨x, by simp [hx], hxy⟩

theorem forall₂_mem_left {α β : Type} {R : α → β → Prop} {xs : List α} {ys : List β}
    (h : List.Forall₂ R xs ys) : ∀ x ∈ xs, ∃ y ∈ ys, R x y := by
  induction h with
  | nil => intro x hx; cases hx
  | cons hr _ ih =>
      intro x hx
      rcases List.mem_cons.1 hx with rfl | hx
      · exact ⟨_, by simp, hr⟩
      · obtain ⟨y, hy, hxy⟩ := ih x hx
        exact ⟨y, by simp [hy], hxy⟩

theorem choreStep_covers (prev : Option (List (Option Component))) (i : Nat)
    (comps comps' : List (Option Component)) (c : Format.Chore) (chore : EMIChore)
    (hstep : choreStep prev i comps c = .ok (chore, comps')) :
    (∃ m ∈ normalizeLength c.duration_raw :: Format.keyTimes c.tracks,
      (∀ x ∈ normalizeLength c.duration_raw :: Format.keyTimes c.tracks,
        x.isFinite = true ∧ x.toRat ≤ m.toRat) ∧
      chore.length = ⌈m.toRat⌉) ∧
    List.Forall₂ (fun t tr =>
      List.Forall₂ (fun k s =>
        F32.toInt (F32.mul k.time_raw F32.thousand) = some s.time ∧
        s.time = (if 0 ≤ (F32.mul k.time_raw F32.thousand).toRat
          then ⌊(F32.mul k.time_raw F32.thousand).toRat⌋
          else ⌈(F32.mul k.time_raw F32.thousand).toRat⌉)) t.keys tr.keys)
      c.tracks chore.tracks ∧
    ∀ tr ∈ chore.tracks, ∀ s ∈ tr.keys, s.time ≤ chore.length := by
  obtain ⟨⟨l0, hl0⟩, hceil, hall⟩ := choreStep_spec prev i comps comps' c chore hstep
  -- every candidate is finite
  have hnorm : (normalizeLength c.duration_raw).isFinite = true := (F32.toInt_eq _ _ hl0).1
  have hkeys : ∀ (t : Format.Track) (tr : ChoreTrack), Format.storeKeys t.keys = some tr.keys →
      List.Forall₂ (fun k s => F32.toInt (F32.mul k.time_raw F32.thousand) = some s.time ∧
        F32.toInt k.value_raw = some s.value) t.keys tr.keys :=
    fun t tr h => storeKeys_forall₂ t.keys tr.keys h
  have hfin : ∀ x ∈ Format.keyTimes c.tracks, x.isFinite = true := by
    intro x hx
    obtain ⟨t, ht, k, hk, rfl⟩ := (keyTimes_mem _ _).1 hx
    obtain ⟨tr, -, htr⟩ := forall₂_mem_left hall t ht
    obtain ⟨s, -, hs, -⟩ := forall₂_mem_left (hkeys t tr htr) k hk
    exact (F32.toInt_eq _ _ hs).1
  cases hn : normalizeLength c.duration_raw with
  | nan => rw [hn] at hnorm; cases hnorm
  | inf s => rw [hn] at hnorm; cases hnorm
  | fin a =>
      obtain ⟨m, hm, hw, hmax⟩ := widen_fin (Format.keyTimes c.tracks) a hfin
      rw [hn, hw] at hceil
      have hlen : chore.length = ⌈m.toRat⌉ := (F32.ceilToInt_eq m _ hceil).2
      refine ⟨⟨m, hm, hmax, hlen⟩, ?_, ?_⟩
      · refine List.Forall₂.imp ?_ hall
        intro t tr htr
        refine List.Forall₂.imp ?_ (hkeys t tr htr)
        intro k s hks
        exact ⟨hks.1, (F32.toInt_eq _ _ hks.1).2⟩
      · intro tr htr s hs
        obtain ⟨t, ht, htk⟩ := forall₂_mem_right hall tr htr
        obtain ⟨k, hk, hks, -⟩ := forall₂_mem_right (hkeys t tr htk) s hs
        have hmem : F32.mul k.time_raw F32.thousand ∈ Format.keyTimes c.tracks :=
          (keyTimes_mem _ _).2 ⟨t, ht, k, hk, rfl⟩
        have hle := (hmax _ (List.mem_cons_of_mem _ hmem)).2
        rw [hlen]
        exact le_trans (F32.toInt_le_ceil _ _ hks) (Int.ceil_mono hle)

theorem choresStep_forall₂ (prev : Option (List (Option Component)))
    (cs : List Format.Chore) : ∀ (i : Nat) (comps comps' : List (Option Component))
    (chores : List EMIChore), choresStep prev i comps cs = .ok (chores, comps') →
    List.Forall₂ (fun rc chore => ∃ j cmp cmp', choreStep prev j cmp rc = .ok (chore, cmp'))
      cs chores := by
  induction cs with
  | nil =>
      intro i comps comps' chores h
      simp only [choresStep, Except.ok.injEq, Prod.mk.injEq] at h
      rw [← h.1]
      exact List.Forall₂.nil
  | cons a cs ih =>
      intro i comps comps' chores h
      simp only [choresStep, bind_ok_iff, Prod.exists, Except.ok.injEq, Prod.mk.injEq] at h
      obtain ⟨ch, comps1, h1, chs, comps2, h2, rfl, -⟩ := h
      exact List.Forall₂.cons ⟨i, comps, comps1, h1⟩ (ih (i + 1) comps1 comps2 chs h2)

/-! ## The component factory -/

theorem takeWhile_terminated (nm junk : List Nat) (h0 : 0 ∉ nm) :
    (nm ++ 0 :: junk).takeWhile (fun b => b != 0) = nm := by
  induction nm with
  | nil => simp
  | cons a t ih =>
      have ha : (a != 0) = true := by
        simp only [bne_iff_ne, ne_eq]
        exact fun h => h0 (by simp [h])
      have ht : 0 ∉ t := fun h => h0 (by simp [h])
      simp only [List.cons_append, List.takeWhile_cons, ha, if_true, ih ht]

theorem cstr_terminated (nm junk : List Nat) (h0 : 0 ∉ nm) :
    cstr (nm ++ 0 :: junk) = some nm := by
  have hmem : (0 : Nat) ∈ nm ++ 0 :: junk := by simp
  simp only [cstr, hmem, takeWhile_terminated nm junk h0, if_true]

theorem marked_cases (desc : List Nat) (hm : Format.Marked desc) :
    ∃ t0 t1 t2 t3 rest, desc = '!'.toNat :: t0 :: t1 :: t2 :: t3 :: rest := by
  obtain ⟨h1, h2⟩ := hm
  match desc, h1, h2 with
  | c :: t0 :: t1 :: t2 :: t3 :: rest, h1, _ =>
      simp at h1
      exact ⟨t0, t1, t2, t3, rest, by simp [h1]⟩

theorem loadEMIComponent_marked (parent : Option CompPtr) (pid : Int) (prev : Option CompPtr)
    (t0 t1 t2 t3 : Nat) (rest : List Nat) :
    loadEMIComponent parent pid ('!'.toNat :: t0 :: t1 :: t2 :: t3 :: rest) prev =
      let tag := Format.tagOf ('!'.toNat :: t0 :: t1 :: t2 :: t3 :: rest)
      if tag = MKTAG 'm' 'e' 's' 'h' then
        newComponent .Mesh parent pid rest prev tag
      else if tag = MKTAG 's' 'k' 'e' 'l' then
        newComponent .Skeleton parent pid rest prev tag
      else if tag = MKTAG 't' 'e' 'x' 'i' then
        newComponent .Texture parent pid rest prev tag
      else if tag = MKTAG 'a' 'n' 'i' 'm' then
        newComponent .Animation parent pid rest prev tag
      else if tag = MKTAG 'l' 'u' 'a' 'c' then
        newComponent .ScriptCode parent pid rest prev tag
      else if tag = MKTAG 'l' 'u' 'a' 'v' then
        newComponent .ScriptVar parent pid rest prev tag
      else if tag = MKTAG 's' 'p' 'r' 't' then
        newComponent .Sprite parent pid rest prev tag
      else if tag = MKTAG 's' 'h' 'a' 'd' then .ok none
      else if tag = MKTAG 'a' 'w' 'g' 't' then .ok none
      else if tag = MKTAG 's' 'n' 'd' '2' then .ok none
      else .error .missingTag := by
  simp [loadEMIComponent, Format.tagOf]

theorem loadEMIComponent_unknown (parent : Option CompPtr) (parentID : Int)
    (prevComponent : Option CompPtr) (desc : List Nat) (hm : Format.Marked desc)
    (hu : Format.tagOf desc ∉ Format.constructedTags ++ Format.ignorableTags) :
    loadEMIComponent parent parentID desc prevComponent = .error .missingTag := by
  obtain ⟨t0, t1, t2, t3, rest, rfl⟩ := marked_cases desc hm
  rw [loadEMIComponent_marked]
  generalize Format.tagOf ('!'.toNat :: t0 :: t1 :: t2 :: t3 :: rest) = tag at hu ⊢
  simp only [Format.constructedTags, Format.ignorableTags, List.cons_append, List.nil_append,
    List.mem_cons, List.mem_singleton, not_or, List.not_mem_nil, or_false] at hu
  obtain ⟨h1, h2, h3, h4, h5, h6, h7, h8, h9, h10⟩ := hu
  simp only [h1, h2, h3, h4, h5, h6, h7, h8, h9, h10, if_false]

theorem loadEMIComponent_ignorable (parent : Option CompPtr) (parentID : Int)
    (prevComponent : Option CompPtr) (desc : List Nat) (hm : Format.Marked desc)
    (hi : Format.tagOf desc ∈ Format.ignorableTags) :
    loadEMIComponent parent parentID desc prevComponent = .ok none := by
  obtain ⟨t0, t1, t2, t3, rest, rfl⟩ := marked_cases desc hm
  rw [loadEMIComponent_marked]
  generalize Format.tagOf ('!'.toNat :: t0 :: t1 :: t2 :: t3 :: rest) = tag at hi ⊢
  simp only [Format.ignorableTags, List.mem_cons, List.mem_singleton, List.not_mem_nil,
    or_false] at hi
  rcases hi with rfl | rfl | rfl <;> simp [MKTAG]

theorem trackStep_factory (prev : Option (List (Option Component))) (i : Nat)
    (st st' : LoadState) (t : Format.Track) (h : trackStep prev i st t = .ok st') :
    ∃ parent pid pc r, loadEMIComponent parent pid t.descriptor pc = .ok r := by
  simp only [trackStep, bind_ok_iff, Prod.exists] at h
  obtain ⟨pid, pc, -, parent, -, r, hr, -⟩ := h
  exact ⟨parent, pid, pc, r, hr⟩

theorem tracksStep_factory (prev : Option (List (Option Component))) (i : Nat)
    (ts : List Format.Track) : ∀ (st st' : LoadState), tracksStep prev i st ts = .ok st' →
    ∀ t ∈ ts, ∃ parent pid pc r, loadEMIComponent parent pid t.descriptor pc = .ok r := by
  induction ts with
  | nil => intro st st' _ t ht; cases ht
  | cons a ts ih =>
      intro st st' h t ht
      rw [tracksStep_cons_ok_iff] at h
      obtain ⟨st1, h1, h2⟩ := h
      rcases List.mem_cons.1 ht with rfl | ht
      · exact trackStep_factory prev i st st1 _ h1
      · exact ih st1 st' h2 t ht

theorem choreStep_factory (prev : Option (List (Option Component))) (i : Nat)
    (comps comps' : List (Option Component)) (c : Format.Chore) (chore : EMIChore)
    (h : choreStep prev i comps c = .ok (chore, comps')) :
    ∀ t ∈ c.tracks, ∃ parent pid pc r, loadEMIComponent parent pid t.descriptor pc = .ok r := by
  simp only [choreStep, bind_ok_iff] at h
  obtain ⟨l0, -, st, hs, -⟩ := h
  exact tracksStep_factory prev i c.tracks _ st hs

theorem choresStep_factory (prev : Option (List (Option Component)))
    (cs : List Format.Chore) : ∀ (i : Nat) (comps comps' : List (Option Component))
    (chores : List EMIChore), choresStep prev i comps cs = .ok (chores, comps') →
    ∀ c ∈ cs, ∀ t ∈ c.tracks,
      ∃ parent pid pc r, loadEMIComponent parent pid t.descriptor pc = .ok r := by
  induction cs with
  | nil => intro i comps comps' chores _ c hc; cases hc
  | cons a cs ih =>
      intro i comps comps' chores h c hc
      simp only [choresStep, bind_ok_iff, Prod.exists, Except.ok.injEq, Prod.mk.injEq] at h
      obtain ⟨ch, comps1, h1, chs, comps2, h2, -, -⟩ := h
      rcases List.mem_cons.1 hc with rfl | hc
      · exact choreStep_factory prev i comps comps1 _ ch h1
      · exact ih (i + 1) comps1 comps2 chs h2 c hc

/-! ## Chore records -/

theorem loadChore_header (prev : Option (List (Option Component))) (i : Nat)
    (comps comps' : List (Option Component)) (chore : EMIChore) (data data' : Stream)
    (h : loadChore prev i comps data = .ok (chore, comps', data')) :
    ∃ c hdr rest, Format.readChore data = some (c, data') ∧
      choreStep prev i comps c = .ok (chore, comps') ∧
      loadChoreHeader i data = .ok (hdr, normalizeLength c.duration_raw, rest) ∧
      F32.toInt (normalizeLength c.duration_raw) = some hdr.length := by
  obtain ⟨c, hread, -, hstep⟩ := (loadChore_ok_iff prev i comps comps' chore data data').1 h
  simp only [loadChore, bind_ok_iff, Prod.exists] at h
  obtain ⟨hdr, len, rest, hh, -⟩ := h
  have hh' := hh
  rw [loadChoreHeader_ok_iff] at hh'
  obtain ⟨n1, d1, name, d2, dr, d3, nt, l0, h1, -, h2, h3, h4, -, rfl, hl0, rfl⟩ := hh'
  have hread' := hread
  simp only [Format.readChore, Option.bind_eq_bind, Option.bind_eq_some, Prod.exists,
    Option.some.injEq, Prod.mk.injEq] at hread'
  obtain ⟨n1', d1', g1, name', d2', g2, dr', d3', g3, nt', d4', g4, ts, d5, g5, hc, -⟩ := hread'
  rw [h1] at g1
  simp only [Option.some.injEq, Prod.mk.injEq] at g1
  obtain ⟨rfl, rfl⟩ := g1
  rw [h2] at g2
  simp only [Option.some.injEq, Prod.mk.injEq] at g2
  obtain ⟨rfl, rfl⟩ := g2
  rw [h3] at g3
  simp only [Option.some.injEq, Prod.mk.injEq] at g3
  obtain ⟨rfl, rfl⟩ := g3
  subst hc
  exact ⟨_, _, rest, hread, hstep, hh, hl0⟩

theorem normalizeLength_finite (d : F32) (l : Int)
    (h : F32.toInt (normalizeLength d) = some l) : d.isFinite = true := by
  cases d with
  | nan => cases h
  | inf s =>
      cases s
      · cases h
      · have e : normalizeLength (.inf true) = F32.mul (.inf true) F32.thousand := rfl
        obtain ⟨k, hk⟩ : ∃ k, F32.thousand = .fin k := ⟨_, rfl⟩
        have e3 : F32.mul (.inf true) (.fin k) =
            if k = 0 then .nan else .inf (true != decide (k < 0)) := rfl
        rw [e, hk, e3] at h
        split at h <;> cases h
  | fin n => rfl

theorem lt_thousand_iff (n : Int) :
    F32.lt (.fin n) F32.thousand = true ↔ (F32.fin n).toRat < 1000 := by
  simp only [F32.lt, F32.thousand, F32.toRat, decide_eq_true_eq, div_lt_iff₀ F32.one_pos_rat]
  constructor
  · intro h
    have : ((n : Int) : ℚ) < (((1000 * F32.one : Nat) : Int) : ℚ) := by exact_mod_cast h
    simpa using this
  · intro h
    have : ((n : Int) : ℚ) < (((1000 * F32.one : Nat) : Int) : ℚ) := by simpa using h
    exact_mod_cast this

/-! ## The worn chore and the save game -/

theorem setWearChore_same (ext : Externals) (c : EMICostume) (chore : Nat)
    (h : c.wearChore = some chore) : setWearChore ext c chore = some c := by
  simp [setWearChore, h]

theorem setWearChore_changed (ext : Externals) (c : EMICostume) (chore : Nat) (ch : EMIChore)
    (h : c.wearChore ≠ some chore) (hch : c.chores[chore]? = some ch) :
    setWearChore ext c chore =
      some { c with
        wearChore := some chore,
        log := resetSkel c,
        emiSkel := ext.getSkeleton ch } := by
  have h' : some chore ≠ c.wearChore := fun e => h e.symm
  simp only [setWearChore, h', hch, ne_eq, not_false_eq_true, if_true]

theorem writeTextures_eq (ms : List Material) : ∀ (state : SaveGame),
    writeTextures ms state = state ++ ms.map (fun m => m.activeTexture) := by
  induction ms with
  | nil => intro state; simp [writeTextures]
  | cons m ms ih => intro state; simp [writeTextures, writeLESint32, ih]

/-- The materials `ms` with the active textures `texs`. -/
theorem readTextures_eq (ms : List Material) : ∀ (texs : List Int) (rest : SaveGame),
    texs.length = ms.length →
    readTextures ms (texs ++ rest) =
      some (List.zipWith (fun m v => { m with activeTexture := v }) ms texs, rest) := by
  induction ms with
  | nil =>
      intro texs rest h
      have : texs = [] := List.length_eq_zero.1 h
      subst this
      simp [readTextures]
  | cons m ms ih =>
      intro texs rest h
      cases texs with
      | nil => cases h
      | cons v vs =>
          have hl : vs.length = ms.length := by simpa using h
          simp [readTextures, readLESint32, ih vs rest hl]

theorem zipWith_textures (ms : List Material) : ∀ (texs : List Int),
    texs.length = ms.length →
    (List.zipWith (fun (m : Material) v => { m with activeTexture := v }) ms texs).map
      (fun m => m.activeTexture) = texs ∧
    (List.zipWith (fun (m : Material) v => { m with activeTexture := v }) ms texs).map
      (fun m => m.filename) = ms.map (fun m => m.filename) := by
  induction ms with
  | nil =>
      intro texs h
      have : texs = [] := List.length_eq_zero.1 h
      subst this
      simp
  | cons m ms ih =>
      intro texs h
      cases texs with
      | nil => cases h
      | cons v vs =>
          have hl : vs.length = ms.length := by simpa using h
          simp [ih vs hl]

theorem materials_ext (xs : List Material) : ∀ (ys : List Material),
    xs.map (fun m => m.filename) = ys.map (fun m => m.filename) →
    xs.map (fun m => m.activeTexture) = ys.map (fun m => m.activeTexture) → xs = ys := by
  induction xs with
  | nil => intro ys h _; cases ys with
    | nil => rfl
    | cons y ys => cases h
  | cons x xs ih =>
      intro ys h1 h2
      cases ys with
      | nil => cases h1
      | cons y ys =>
          simp only [List.map_cons, List.cons.injEq] at h1 h2
          have := ih ys h1.2 h2.2
          subst this
          cases x; cases y
          simp only [Material.mk.injEq, List.cons.injEq, and_true]
          exact ⟨h1.1, h2.1⟩

theorem saveState_layout (ext : Externals) (c : EMICostume) (out saved : SaveGame)
    (hs : saveState ext c out = some saved) :
    ∃ wid, saved = ext.saveState c out ++ c.materials.map (fun m => m.activeTexture) ++ [wid] ∧
      saved.length = (ext.saveState c out).length + (c.materials.length + 1) ∧
      (c.wearChore = none → wid = -1) ∧
      (∀ w ch, c.wearChore = some w → c.chores[w]? = some ch → wid = ch.choreId) := by
  simp only [saveState, writeTextures_eq, writeLESint32] at hs
  cases hw : c.wearChore with
  | none =>
      simp only [hw, Option.some.injEq] at hs
      refine ⟨-1, hs.symm, ?_, fun _ => rfl, fun w ch h => by cases h⟩
      rw [← hs, List.length_append, List.length_append, List.length_map,
        List.length_singleton, Nat.add_assoc]
  | some w =>
      simp only [hw] at hs
      cases hc : c.chores[w]? with
      | none => simp [hc] at hs
      | some ch =>
          simp only [hc, Option.some.injEq] at hs
          refine ⟨ch.choreId, hs.symm, ?_, (fun h => by cases h), ?_⟩
          · rw [← hs, List.length_append, List.length_append, List.length_map,
              List.length_singleton, Nat.add_assoc]
          · intro w' ch' h1 h2
            simp only [Option.some.injEq] at h1
            subst h1
            rw [hc] at h2
            simp only [Option.some.injEq] at h2
            rw [h2]

theorem restoreState_layout (ext : Externals) (c' c1 : EMICostume) (state rest : SaveGame)
    (texs : List Int) (id : Int)
    (hbase : ext.restoreState c' state = (true, c1, texs ++ id :: rest))
    (hlen : texs.length = c1.materials.length)
    (hid : id < 0 ∨ id.toNat < c1.chores.length) :
    ∃ c2, restoreState ext c' state = some (true, c2, rest) ∧
      c2.materials.map (fun m => m.activeTexture) = texs ∧
      c2.materials.map (fun m => m.filename) = c1.materials.map (fun m => m.filename) ∧
      (id < 0 → c2.wearChore = c1.wearChore) ∧
      (0 ≤ id → c2.wearChore = some id.toNat) := by
  have hz := zipWith_textures c1.materials texs hlen
  simp only [restoreState, hbase, readTextures_eq c1.materials texs (id :: rest) hlen,
    readLESint32]
  rcases hid with hneg | hval
  · have : ¬ id ≥ 0 := by omega
    rw [if_neg this]
    exact ⟨_, rfl, hz.1, hz.2, fun _ => rfl, fun h => absurd h (by omega)⟩
  · by_cases hge : id ≥ 0
    · rw [if_pos hge]
      obtain ⟨ch, hch⟩ : ∃ ch, c1.chores[id.toNat]? = some ch :=
        ⟨c1.chores[id.toNat], List.getElem?_eq_getElem hval⟩
      simp only [hch]
      by_cases hsame : c1.wearChore = some id.toNat
      · rw [setWearChore_same ext _ _ (by exact hsame)]
        exact ⟨_, rfl, hz.1, hz.2, fun h => absurd h (by omega), fun _ => hsame⟩
      · rw [setWearChore_changed ext _ _ ch (by exact hsame) (by exact hch)]
        exact ⟨_, rfl, hz.1, hz.2, fun h => absurd h (by omega), fun _ => rfl⟩
    · rw [if_neg hge]
      exact ⟨_, rfl, hz.1, hz.2, fun _ => rfl, fun h => absurd h (by omega)⟩

/-! ## The component table -/

theorem trackStep_inv (prev : Option (List (Option Component))) (i : Nat)
    (st st' : LoadState) (t : Format.Track) (h : trackStep prev i st t = .ok st') :
    ∃ pid pc parent r keys,
      handOff prev i t.parent_index st.prevComponent = .ok (pid, pc) ∧
      resolveParent st.components pid = .ok parent ∧
      loadEMIComponent parent pid t.descriptor pc = .ok r ∧
      Format.storeKeys t.keys = some keys ∧
      st'.components = st.components ++ [initialized r] ∧
      st'.chore.tracks = st.chore.tracks ++
        [{ keys := keys, component := (initialized r).map (fun _ => .own st.components.length),
           compID := -1 }] ∧
      st'.chore.choreId = st.chore.choreId ∧
      st'.prevComponent = pc := by
  simp only [trackStep, bind_ok_iff, Prod.exists] at h
  obtain ⟨pid, pc, h1, parent, h2, r, h3, h⟩ := h
  cases hk : Format.storeKeys t.keys with
  | none => simp [hk] at h
  | some keys =>
      simp only [hk, Except.ok.injEq] at h
      subst h
      exact ⟨pid, pc, parent, r, keys, h1, h2, h3, rfl, rfl, rfl, rfl, rfl⟩

theorem slotPtrs_append (xs : List (Option Component)) : ∀ (base : Nat)
    (ys : List (Option Component)),
    slotPtrs base (xs ++ ys) = slotPtrs base xs ++ slotPtrs (base + xs.length) ys := by
  induction xs with
  | nil => intro base ys; simp [slotPtrs]
  | cons x xs ih =>
      intro base ys
      have e : base + 1 + xs.length = base + (xs.length + 1) := by omega
      have h := ih (base + 1) ys
      rw [e] at h
      show slotPtrs base (x :: (xs ++ ys)) = _
      simp only [slotPtrs, List.length_cons, List.cons_append, h]

theorem slotPtrs_length (xs : List (Option Component)) : ∀ (base : Nat),
    (slotPtrs base xs).length = xs.length := by
  induction xs with
  | nil => intro base; rfl
  | cons x xs ih => intro base; simp [slotPtrs, ih]

theorem slotPtrs_getElem? (xs : List (Option Component)) : ∀ (base p : Nat),
    (slotPtrs base xs)[p]? = xs[p]?.map (fun e => e.map (fun _ => CompPtr.own (base + p))) := by
  induction xs with
  | nil => intro base p; simp [slotPtrs]
  | cons x xs ih =>
      intro base p
      cases p with
      | zero => simp [slotPtrs]
      | succ p =>
          simp only [slotPtrs, List.getElem?_cons_succ, ih]
          rw [Nat.add_assoc, Nat.add_comm 1]

theorem tracksStep_inv (prev : Option (List (Option Component))) (i : Nat)
    (ts : List Format.Track) : ∀ (st st' : LoadState), tracksStep prev i st ts = .ok st' →
    ∃ newc newt, st'.components = st.components ++ newc ∧
      st'.chore.tracks = st.chore.tracks ++ newt ∧
      newc.length = ts.length ∧
      newt.map (fun t => t.component) = slotPtrs st.components.length newc ∧
      (∀ t ∈ newt, t.compID = -1) ∧
      st'.chore.choreId = st.chore.choreId := by
  induction ts with
  | nil =>
      intro st st' h
      simp only [tracksStep, Except.ok.injEq] at h
      subst h
      exact ⟨[], [], by simp, by simp, rfl, rfl, by simp, rfl⟩
  | cons t ts ih =>
      intro st st' h
      rw [tracksStep_cons_ok_iff] at h
      obtain ⟨st1, h1, h2⟩ := h
      obtain ⟨pid, pc, parent, r, keys, -, -, -, -, hc, ht, hid, -⟩ :=
        trackStep_inv prev i st st1 t h1
      obtain ⟨newc, newt, hc2, ht2, hl, hp, hcid, hid2⟩ := ih st1 st' h2
      obtain ⟨trk, htrk⟩ : ∃ trk : ChoreTrack, trk =
          { keys := keys, component := (initialized r).map (fun _ => .own st.components.length),
            compID := -1 } := ⟨_, rfl⟩
      rw [← htrk] at ht
      refine ⟨initialized r :: newc, trk :: newt, ?_, ?_, by simp [hl], ?_, ?_, by rw [hid2, hid]⟩
      · rw [hc2, hc, List.append_assoc]; rfl
      · rw [ht2, ht, List.append_assoc]; rfl
      · rw [hc] at hp
        simp only [List.map_cons, slotPtrs, hp, List.length_append, List.length_singleton, htrk]
      · intro x hx
        rcases List.mem_cons.1 hx with rfl | hx
        · rw [htrk]
        · exact hcid x hx

theorem choreStep_inv (prev : Option (List (Option Component))) (i : Nat)
    (comps comps' : List (Option Component)) (c : Format.Chore) (chore : EMIChore)
    (h : choreStep prev i comps c = .ok (chore, comps')) :
    ∃ newc, comps' = comps ++ newc ∧ newc.length = c.tracks.length ∧
      chore.tracks.map (fun t => t.component) = slotPtrs comps.length newc ∧
      (∀ t ∈ chore.tracks, t.compID = -1) ∧ chore.choreId = (i : Int) := by
  simp only [choreStep, bind_ok_iff, defined_ok_iff, Except.ok.injEq, Prod.mk.injEq] at h
  obtain ⟨l0, -, st, hs, l, -, rfl, rfl⟩ := h
  obtain ⟨newc, newt, hc, ht, hl, hp, hcid, hid⟩ := tracksStep_inv prev i c.tracks _ st hs
  simp only [List.nil_append] at ht
  refine ⟨newc, hc, hl, ?_, ?_, hid⟩
  · simp only [ht]; exact hp
  · simp only [ht]; exact hcid

theorem choresStep_inv (prev : Option (List (Option Component)))
    (cs : List Format.Chore) : ∀ (i : Nat) (comps comps' : List (Option Component))
    (chores : List EMIChore), choresStep prev i comps cs = .ok (chores, comps') →
    ∃ newc, comps' = comps ++ newc ∧
      (allTracks chores).map (fun t => t.component) = slotPtrs comps.length newc ∧
      (∀ t ∈ allTracks chores, t.compID = -1) ∧
      (∀ (j : Nat) (chore : EMIChore), chores[j]? = some chore →
        chore.choreId = ((i + j : Nat) : Int)) := by
  induction cs with
  | nil =>
      intro i comps comps' chores h
      simp only [choresStep, Except.ok.injEq, Prod.mk.injEq] at h
      obtain ⟨rfl, rfl⟩ := h
      exact ⟨[], by simp, by simp [allTracks, slotPtrs], by simp [allTracks], by simp⟩
  | cons a cs ih =>
      intro i comps comps' chores h
      simp only [choresStep, bind_ok_iff, Prod.exists, Except.ok.injEq, Prod.mk.injEq] at h
      obtain ⟨ch, comps1, h1, chs, comps2, h2, rfl, rfl⟩ := h
      obtain ⟨new1, hc1, -, hp1, hid1, hcid1⟩ := choreStep_inv prev i comps comps1 a ch h1
      obtain ⟨new2, hc2, hp2, hid2, hcid2⟩ := ih (i + 1) comps1 comps2 chs h2
      refine ⟨new1 ++ new2, ?_, ?_, ?_, ?_⟩
      · rw [hc2, hc1, List.append_assoc]
      · have hlen : new1.length = ch.tracks.length := by
          have := congrArg List.length hp1
          simpa [slotPtrs_length] using this.symm
        rw [hc1] at hp2
        simp only [allTracks, List.map_append, hp1, hp2, slotPtrs_append, List.length_append]
      · intro t ht
        simp only [allTracks, List.mem_append] at ht
        rcases ht with ht | ht
        · exact hid1 t ht
        · exact hid2 t ht
      · intro j chore hj
        cases j with
        | zero =>
            simp only [List.getElem?_cons_zero, Option.some.injEq] at hj
            subst hj
            simpa using hcid1
        | succ j =>
            simp only [List.getElem?_cons_succ] at hj
            have := hcid2 j chore hj
            rw [this]
            congr 1
            omega

theorem allTracks_length_of_ptrs (chores : List EMIChore) (base : Nat)
    (newc : List (Option Component))
    (h : (allTracks chores).map (fun t => t.component) = slotPtrs base newc) :
    newc.length = (allTracks chores).length := by
  have := congrArg List.length h
  simpa [slotPtrs_length] using this.symm

theorem resolveParent_neg (comps : List (Option Component)) (pid : Int) (h : pid < 0) :
    resolveParent comps pid = .ok none := by
  simp [resolveParent, h]

theorem resolveParent_inRange (comps : List (Option Component)) (pid : Int) (h0 : 0 ≤ pid)
    (hlt : pid.toNat < comps.length) :
    ∃ entry, comps[pid.toNat]? = some entry ∧
      resolveParent comps pid = .ok (entry.map (fun _ => CompPtr.own pid.toNat)) := by
  have hn : ¬ pid < 0 := not_lt.2 h0
  refine ⟨comps[pid.toNat], List.getElem?_eq_getElem hlt, ?_⟩
  simp only [resolveParent, hn, if_false, List.get?_eq_getElem?, List.getElem?_eq_getElem hlt]
  cases comps[pid.toNat] <;> rfl

theorem newComponent_args (kind : ComponentKind) (parent : Option CompPtr) (pid : Int)
    (rest : List Nat) (pc : Option CompPtr) (tag : Nat) (comp : Component)
    (h : newComponent kind parent pid rest pc tag = .ok (some comp)) :
    comp.parent = parent ∧ comp.parentID = pid ∧ comp.prevComponent = pc ∧ comp.kind = kind ∧
      comp.tag = tag := by
  unfold newComponent at h
  split at h
  · simp only [Except.ok.injEq, Option.some.injEq] at h
    subst h
    exact ⟨rfl, rfl, rfl, rfl, rfl⟩
  · cases h

theorem loadEMIComponent_ok_marked (parent : Option CompPtr) (pid : Int) (name : List Nat)
    (pc : Option CompPtr) (r : Option Component)
    (h : loadEMIComponent parent pid name pc = .ok r) : Format.Marked name := by
  cases name with
  | nil => simp [loadEMIComponent] at h
  | cons c name =>
      by_cases hc : c = 33
      · by_cases hl : name.length < 4
        · simp [loadEMIComponent, hl, hc] at h
        · refine ⟨by simp [hc], ?_⟩
          simp only [List.length_cons]
          omega
      · simp [loadEMIComponent, hc] at h

theorem loadEMIComponent_args (parent : Option CompPtr) (pid : Int) (name : List Nat)
    (pc : Option CompPtr) (comp : Component)
    (h : loadEMIComponent parent pid name pc = .ok (some comp)) :
    comp.parent = parent ∧ comp.parentID = pid ∧ comp.prevComponent = pc ∧
      Format.variantOf comp.tag = some comp.kind ∧ comp.tag = Format.tagOf name := by
  obtain ⟨t0, t1, t2, t3, rest, rfl⟩ :=
    marked_cases name (loadEMIComponent_ok_marked _ _ _ _ _ h)
  rw [loadEMIComponent_marked] at h
  simp only at h
  generalize Format.tagOf ('!'.toNat :: t0 :: t1 :: t2 :: t3 :: rest) = tag at h ⊢
  by_cases h0 : tag = MKTAG 'm' 'e' 's' 'h'
  · rw [if_pos h0] at h
    obtain ⟨a, b, c, d, e⟩ := newComponent_args _ _ _ _ _ _ _ h
    refine ⟨a, b, c, ?_, e⟩
    rw [d, e, h0]
    decide
  rw [if_neg h0] at h
  by_cases h1 : tag = MKTAG 's' 'k' 'e' 'l'
  · rw [if_pos h1] at h
    obtain ⟨a, b, c, d, e⟩ := newComponent_args _ _ _ _ _ _ _ h
    refine ⟨a, b, c, ?_, e⟩
    rw [d, e, h1]
    decide
  rw [if_neg h1] at h
  by_cases h2 : tag = MKTAG 't' 'e' 'x' 'i'
  · rw [if_pos h2] at h
    obtain ⟨a, b, c, d, e⟩ := newComponent_args _ _ _ _ _ _ _ h
    refine ⟨a, b, c, ?_, e⟩
    rw [d, e, h2]
    decide
  rw [if_neg h2] at h
  by_cases h3 : tag = MKTAG 'a' 'n' 'i' 'm'
  · rw [if_pos h3] at h
    obtain ⟨a, b, c, d, e⟩ := newComponent_args _ _ _ _ _ _ _ h
    refine ⟨a, b, c, ?_, e⟩
    rw [d, e, h3]
    decide
  rw [if_neg h3] at h
  by_cases h4 : tag = MKTAG 'l' 'u' 'a' 'c'
  · rw [if_pos h4] at h
    obtain ⟨a, b, c, d, e⟩ := newComponent_args _ _ _ _ _ _ _ h
    refine ⟨a, b, c, ?_, e⟩
    rw [d, e, h4]
    decide
  rw [if_neg h4] at h
  by_cases h5 : tag = MKTAG 'l' 'u' 'a' 'v'
  · rw [if_pos h5] at h
    obtain ⟨a, b, c, d, e⟩ := newComponent_args _ _ _ _ _ _ _ h
    refine ⟨a, b, c, ?_, e⟩
    rw [d, e, h5]
    decide
  rw [if_neg h5] at h
  by_cases h6 : tag = MKTAG 's' 'p' 'r' 't'
  · rw [if_pos h6] at h
    obtain ⟨a, b, c, d, e⟩ := newComponent_args _ _ _ _ _ _ _ h
    refine ⟨a, b, c, ?_, e⟩
    rw [d, e, h6]
    decide
  rw [if_neg h6] at h
  by_cases h7 : tag = MKTAG 's' 'h' 'a' 'd'
  · rw [if_pos h7] at h
    cases h
  rw [if_neg h7] at h
  by_cases h8 : tag = MKTAG 'a' 'w' 'g' 't'
  · rw [if_pos h8] at h
    cases h
  rw [if_neg h8] at h
  by_cases h9 : tag = MKTAG 's' 'n' 'd' '2'
  · rw [if_pos h9] at h
    cases h
  rw [if_neg h9] at h
  cases h

theorem loadEMIComponent_mesh (parent : Option CompPtr) (parentID : Int)
    (prevComponent : Option CompPtr) (desc junk : List Nat)
    (hm : Format.Marked desc) (h0 : 0 ∉ desc)
    (hk : Format.tagOf desc = MKTAG 'm' 'e' 's' 'h') :
    loadEMIComponent parent parentID (desc ++ 0 :: junk) prevComponent =
      .ok (some { kind := .Mesh, parent := parent, parentID := parentID, name := desc.drop 5,
                  prevComponent := prevComponent, tag := MKTAG 'm' 'e' 's' 'h',
                  costumeArg := true }) := by
  obtain ⟨t0, t1, t2, t3, rest, rfl⟩ := marked_cases desc hm
  have hr : 0 ∉ rest := fun h => h0 (by simp [h])
  have htag : Format.tagOf ('!'.toNat :: t0 :: t1 :: t2 :: t3 :: (rest ++ 0 :: junk)) =
      Format.tagOf ('!'.toNat :: t0 :: t1 :: t2 :: t3 :: rest) := by
    simp [Format.tagOf]
  rw [List.cons_append, List.cons_append, List.cons_append, List.cons_append, List.cons_append,
    loadEMIComponent_marked, htag, hk]
  have hd : ('!'.toNat :: t0 :: t1 :: t2 :: t3 :: rest).drop 5 = rest := rfl
  rw [hd, if_pos rfl]
  simp only [newComponent, cstr_terminated rest junk hr, decide_True]

theorem initialized_eq_some (r : Option Component) (comp : Component)
    (h : initialized r = some comp) :
    ∃ c0, r = some c0 ∧ comp.parent = c0.parent ∧ comp.parentID = c0.parentID ∧
      comp.prevComponent = c0.prevComponent ∧ comp.kind = c0.kind ∧ comp.tag = c0.tag ∧
      comp.name = c0.name := by
  cases r with
  | none => cases h
  | some c0 =>
      simp only [initialized, Option.map_some', Option.some.injEq] at h
      subst h
      exact ⟨c0, rfl, rfl, rfl, rfl, rfl, rfl, rfl⟩

/-! ## The hand-off to the previous costume -/

theorem handOff_first (first : Component) (others : List (Option Component)) (i : Nat)
    (pc0 : Option CompPtr) :
    handOff (some (some first :: others)) i (-1) pc0 =
      .ok (if i = 0 then -2 else -1,
        if first.isComponentType 'M' 'M' 'D' 'L' then some (.prev 0) else none) := by
  simp [handOff]

theorem handOff_some (table : List (Option Component)) (i : Nat) (pi pid : Int)
    (pc0 pc : Option CompPtr) (h : handOff (some table) i pi pc0 = .ok (pid, pc)) :
    (pi = -1 → ∃ first, table.head? = some (some first) ∧
      pid = (if i = 0 then -2 else -1) ∧
      pc = if first.isComponentType 'M' 'M' 'D' 'L' then some (.prev 0) else none) ∧
    (pi ≠ -1 → pid = pi ∧ pc = pc0) := by
  unfold handOff at h
  simp only at h
  by_cases hpi : pi = -1
  · rw [if_pos hpi] at h
    refine ⟨fun _ => ?_, fun hne => absurd hpi hne⟩
    split at h
    · rename_i first hf
      simp only [Except.ok.injEq, Prod.mk.injEq] at h
      refine ⟨first, hf, ?_, h.2.symm⟩
      rw [← h.1, hpi]
    · cases h
  · rw [if_neg hpi] at h
    simp only [Except.ok.injEq, Prod.mk.injEq] at h
    exact ⟨fun hp => absurd hp hpi, fun _ => ⟨h.1.symm, h.2.symm⟩⟩

theorem load_first_track (c c' : EMICostume) (data rest : Stream) (rc : Format.Chore)
    (rcs : List Format.Chore) (t : Format.Track) (ts : List Format.Track)
    (h : c.load data = .ok c') (hread : Format.readCostume data = some (rc :: rcs, rest))
    (htr : rc.tracks = t :: ts) :
    ∃ pid pc parent r,
      handOff c.prevCostume 0 t.parent_index none = .ok (pid, pc) ∧
      resolveParent [] pid = .ok parent ∧
      loadEMIComponent parent pid t.descriptor pc = .ok r ∧
      c'.components[0]? = some (initialized r) := by
  obtain ⟨cs, rest', hcs, -, -, chores, comps, hstep, rfl⟩ := (load_ok_iff c c' data).1 h
  rw [hread] at hcs
  simp only [Option.some.injEq, Prod.mk.injEq] at hcs
  obtain ⟨rfl, -⟩ := hcs
  simp only [choresStep, bind_ok_iff, Prod.exists, Except.ok.injEq, Prod.mk.injEq] at hstep
  obtain ⟨ch, comps1, h1, chs, comps2, h2, -, rfl⟩ := hstep
  obtain ⟨new2, hc2, -⟩ := choresStep_inv _ _ _ _ _ _ h2
  simp only [choreStep, bind_ok_iff, defined_ok_iff, Except.ok.injEq, Prod.mk.injEq] at h1
  obtain ⟨l0, -, st, hs, l, -, -, rfl⟩ := h1
  rw [htr, tracksStep_cons_ok_iff] at hs
  obtain ⟨st1, hs1, hs2⟩ := hs
  obtain ⟨pid, pc, parent, r, keys, g1, g2, g3, -, g5, -⟩ := trackStep_inv _ _ _ _ _ hs1
  obtain ⟨newc, newt, hc, -⟩ := tracksStep_inv _ _ _ _ _ hs2
  refine ⟨pid, pc, parent, r, g1, g2, g3, ?_⟩
  simp only [hc2, hc, g5, List.nil_append, List.singleton_append, List.cons_append,
    List.getElem?_cons_zero]

theorem bind_ne_error {ε α β : Type} (x : Except ε α) (f : α → Except ε β) (e : ε)
    (hx : x ≠ .error e) (hf : ∀ a, f a ≠ .error e) : (x >>= f) ≠ .error e := by
  cases x with
  | error e' =>
      intro h
      simp only [bind, Except.bind, Except.error.injEq] at h
      exact hx (by rw [h])
  | ok a => exact hf a

theorem read_ne_assert (n : Nat) (data : Stream) : read n data ≠ .error .assertNameLength := by
  unfold read
  split <;> simp

theorem readUint32LE_ne_assert (data : Stream) :
    readUint32LE data ≠ .error .assertNameLength := by
  rw [readUint32LE_eq]
  cases Format.u32 data <;> simp

theorem defined_ne_assert (x : Option Int) : defined x ≠ .error .assertNameLength := by
  cases x <;> simp [defined]

theorem loadChoreHeader_of_u32 (i : Nat) (data rest : Stream) (n : Nat)
    (hn : Format.u32 data = some (n, rest)) :
    loadChoreHeader i data =
      if ¬ n < 32 then .error .assertNameLength else
      (read n rest >>= fun r =>
        read 4 r.2 >>= fun f =>
          readUint32LE f.2 >>= fun nt =>
            defined (F32.toInt (normalizeLength (get_float f.1))) >>= fun l =>
              if toInt32 nt.1 < 0 then .error .undefined else
                .ok ({ name := r.1, choreId := i, length := l, numTracks := toInt32 nt.1 },
                  normalizeLength (get_float f.1), nt.2)) := by
  have h := (readUint32LE_ok_iff data (n, rest)).2 hn
  simp only [loadChoreHeader, h, bind, Except.bind]

theorem loadChore_header_error (prev : Option (List (Option Component))) (i : Nat)
    (comps : List (Option Component)) (data : Stream) (e : LoadError)
    (h : loadChoreHeader i data = .error e) : loadChore prev i comps data = .error e := by
  simp only [loadChore, h, bind, Except.bind]

theorem loadChores_error_at (prev : Option (List (Option Component))) (e : LoadError)
    (m : Nat) : ∀ (j i : Nat) (comps comps1 : List (Option Component)) (data data1 : Stream)
      (chs : List EMIChore), loadChores prev j i comps data = .ok (chs, comps1, data1) →
      loadChoreHeader (i + j) data1 = .error e →
      loadChores prev (j + (m + 1)) i comps data = .error e := by
  intro j
  induction j with
  | zero =>
      intro i comps comps1 data data1 chs h he
      simp only [loadChores, Except.ok.injEq, Prod.mk.injEq] at h
      obtain ⟨-, -, rfl⟩ := h
      rw [Nat.zero_add, loadChores]
      simp only [loadChore_header_error prev i comps data e he, bind, Except.bind]
  | succ j ih =>
      intro i comps comps1 data data1 chs h he
      rw [loadChores] at h
      simp only [bind_ok_iff, Prod.exists] at h
      obtain ⟨ch, comps2, data2, h1, chs2, comps3, data3, h2, h3⟩ := h
      simp only [Except.ok.injEq, Prod.mk.injEq] at h3
      obtain ⟨-, rfl, rfl⟩ := h3
      have e1 : j + 1 + (m + 1) = (j + (m + 1)) + 1 := by omega
      have e2 : i + (j + 1) = i + 1 + j := by omega
      rw [e2] at he
      rw [e1, loadChores]
      simp only [h1, bind, Except.bind, ih (i + 1) comps2 comps3 data2 data3 chs2 h2 he]

theorem loadChores_error_mono (prev : Option (List (Option Component))) (e : LoadError)
    (m : Nat) : ∀ (j i : Nat) (comps : List (Option Component)) (data : Stream),
      loadChores prev j i comps data = .error e →
      loadChores prev (j + m) i comps data = .error e := by
  intro j
  induction j with
  | zero => intro i comps data h; simp [loadChores] at h
  | succ j ih =>
      intro i comps data h
      have e1 : j + 1 + m = (j + m) + 1 := by omega
      rw [e1, loadChores]
      rw [loadChores] at h
      cases h1 : loadChore prev i comps data with
      | error e' =>
          rw [h1] at h
          simp only [bind, Except.bind, Except.error.injEq] at h ⊢
          exact h
      | ok v =>
          rw [h1] at h
          simp only [bind, Except.bind] at h ⊢
          cases h2 : loadChores prev j (i + 1) v.2.1 v.2.2 with
          | error e' =>
              rw [h2] at h
              simp only [Except.error.injEq] at h
              subst h
              rw [ih (i + 1) v.2.1 v.2.2 h2]
          | ok w => rw [h2] at h; cases h

theorem load_name_too_long (c : EMICostume) (stream data0 data rest : Stream)
    (count j n : Nat) (chs : List EMIChore) (comps : List (Option Component))
    (hcount : Format.u32 stream = some (count, data0)) (h31 : count < 2147483648)
    (hj : j < count)
    (hchores : loadChores c.prevCostume j 0 [] data0 = .ok (chs, comps, data))
    (hn : Format.u32 data = some (n, rest)) (h32 : 32 ≤ n) :
    c.load stream = .error .assertNameLength := by
  have hhdr : loadChoreHeader (0 + j) data = .error .assertNameLength := by
    rw [loadChoreHeader_of_u32 (0 + j) data rest n hn, if_pos (by omega)]
  have hr := (readUint32LE_ok_iff stream (count, data0)).2 hcount
  obtain ⟨m, rfl⟩ : ∃ m, count = j + (m + 1) := ⟨count - j - 1, by omega⟩
  have hneg : ¬ toInt32 (j + (m + 1)) < 0 := by rw [toInt32_of_lt _ h31]; omega
  simp only [EMICostume.load, hr, bind, Except.bind, if_neg hneg, toInt32_toNat _ h31,
    loadChores_error_at c.prevCostume _ m j 0 [] comps data0 data chs hchores hhdr]

/-! ## The keyframe times `0.0` and `1.2` -/

theorem time_zero : F32.mul (F32.fin 0) F32.thousand = F32.fin 0 := by decide

theorem time_1200 :
    F32.mul (F32.ofBits 1067030938) F32.thousand = F32.fin ((1200 * F32.one : Nat) : Int) := by
  decide

theorem toInt_zero : F32.toInt (F32.fin 0) = some 0 := by decide

theorem toInt_1200 : F32.toInt (F32.fin ((1200 * F32.one : Nat) : Int)) = some 1200 := by decide

theorem ceilToInt_1200 :
    F32.ceilToInt (F32.fin ((1200 * F32.one : Nat) : Int)) = some 1200 := by decide

theorem toRat_1200 : (F32.fin ((1200 * F32.one : Nat) : Int)).toRat = 1200 := by
  have h := F32.one_pos_rat
  simp only [F32.toRat, Nat.cast_mul, Int.cast_mul, Int.cast_natCast, Nat.cast_ofNat,
    Int.cast_ofNat]
  field_simp

theorem widen_to_1200 (d : F32) (l0 : Int) (hdur : F32.toInt d = some l0)
    (hle : d.toRat ≤ 1200) :
    Format.widen d [F32.fin 0, F32.fin ((1200 * F32.one : Nat) : Int)] =
      F32.fin ((1200 * F32.one : Nat) : Int) := by
  cases d with
  | nan => cases hdur
  | inf s => cases hdur
  | fin a =>
      rw [← toRat_1200, F32.toRat_le_iff] at hle
      have h0 : (0 : Int) ≤ ((1200 * F32.one : Nat) : Int) := Int.natCast_nonneg _
      simp only [Format.widen, List.foldl_cons, List.foldl_nil, MAX_fin]
      congr 1
      exact max_eq_right (max_le hle h0)

theorem wave_duration_le :
    (normalizeLength Samples.waveRecord.duration_raw).toRat ≤ 1200 := by
  have h : normalizeLength Samples.waveRecord.duration_raw =
      F32.fin ((1000 * F32.one : Nat) : Int) := by decide
  rw [h, ← toRat_1200, F32.toRat_le_iff]
  decide

/-! ## Lookups in the material cache -/

theorem findFilename_eq_none (fixedName : List Char) (ms : List Material) :
    findFilename fixedName ms = none ↔ ∀ m ∈ ms, m.filename ≠ fixedName := by
  induction ms with
  | nil => simp [findFilename]
  | cons m rest ih =>
      by_cases h : m.filename = fixedName
      · simp [findFilename, h]
      · simp [findFilename, h, ih]

theorem findFilename_eq_some (fixedName : List Char) (ms : List Material) (m : Material)
    (h : findFilename fixedName ms = some m) : m ∈ ms ∧ m.filename = fixedName := by
  induction ms with
  | nil => simp [findFilename] at h
  | cons x rest ih =>
      by_cases hx : x.filename = fixedName
      · simp only [findFilename, hx, if_true, Option.some.injEq] at h
        subst h
        exact ⟨List.mem_cons_self _ _, hx⟩
      · simp only [findFilename, hx, if_false] at h
        exact ⟨List.mem_cons_of_mem _ (ih h).1, (ih h).2⟩

theorem loadMaterial_nodup (loader : ResourceLoader)
    (hloader : ∀ name, (loader.loadMaterial name).filename = loader.fixFilename name)
    (c : EMICostume) (name : List Char)
    (h : (c.materials.map (fun m => m.filename)).Nodup) :
    ((loadMaterial loader c name).2.materials.map (fun m => m.filename)).Nodup := by
  unfold loadMaterial
  cases hf : findMaterial loader c name with
  | some mat => exact h
  | none =>
      simp only [List.map_append, List.map_cons, List.map_nil]
      rw [List.nodup_append]
      refine ⟨h, List.nodup_singleton _, ?_⟩
      intro a ha hb
      rw [List.mem_singleton] at hb
      subst hb
      rw [List.mem_map] at ha
      obtain ⟨m, hm, hmn⟩ := ha
      rw [hloader] at hmn
      exact (findFilename_eq_none _ _).1 hf m hm hmn

theorem loadMaterials_nodup (loader : ResourceLoader)
    (hloader : ∀ name, (loader.loadMaterial name).filename = loader.fixFilename name)
    (names : List (List Char)) (c : EMICostume)
    (h : (c.materials.map (fun m => m.filename)).Nodup) :
    ((loadMaterials loader c names).materials.map (fun m => m.filename)).Nodup := by
  induction names generalizing c with
  | nil => exact h
  | cons name names ih =>
      exact ih _ (loadMaterial_nodup loader hloader c name h)

/-! ## Update and draw -/

theorem updateTracks_eq (time : Nat) (ts : List ChoreTrack) (log : List Event) :
    updateTracks time ts log =
      log ++ (ts.filterMap (fun t => t.component)).map (fun p => Event.componentUpdate p time) := by
  induction ts generalizing log with
  | nil => simp [updateTracks]
  | cons t ts ih =>
      cases h : t.component with
      | none => simp [updateTracks, h, ih]
      | some p => simp [updateTracks, h, ih]

theorem updateLoop_eq (isPlaying : Nat → Bool) (chores : List EMIChore) (time : Nat)
    (todo : List Nat) :
    ∀ (kept : List Nat) (fuel : Nat) (log : List Event), todo.length < fuel →
      (∀ c ∈ todo, c < chores.length) →
      updateLoop isPlaying chores time fuel (kept ++ todo)
          (if todo = [] then 0 else kept.length + 1) log =
        some (kept ++ todo.filter isPlaying,
          log ++ todo.flatMap (choreUpdateEvents chores time)) := by
  induction todo with
  | nil =>
      intro kept fuel log hf _
      obtain ⟨f, rfl⟩ : ∃ f, fuel = f + 1 := ⟨fuel - 1, by simp at hf; omega⟩
      simp [updateLoop]
  | cons c rest ih =>
      intro kept fuel log hf hv
      obtain ⟨f, rfl⟩ : ∃ f, fuel = f + 1 := ⟨fuel - 1, by simp at hf; omega⟩
      have hc : c < chores.length := hv c (List.mem_cons_self _ _)
      have hrest : ∀ x ∈ rest, x < chores.length := fun x hx => hv x (List.mem_cons_of_mem _ hx)
      have hlen : rest.length < f := by simp at hf; omega
      have hget : (kept ++ c :: rest)[kept.length]? = some c := by
        rw [List.getElem?_append_right (Nat.le_refl _)]
        simp
      have hch : chores[c]? = some chores[c] := List.getElem?_eq_getElem hc
      rw [updateLoop, if_neg (List.cons_ne_nil _ _), if_neg (Nat.succ_ne_zero _),
        Nat.add_sub_cancel, hget]
      simp only [hch, updateTracks_eq]
      have hev : log ++ [Event.choreUpdate c time] ++
            (chores[c].tracks.filterMap (fun t => t.component)).map
              (fun p => Event.componentUpdate p time) ++
            rest.flatMap (choreUpdateEvents chores time) =
          log ++ (c :: rest).flatMap (choreUpdateEvents chores time) := by
        simp [List.flatMap_cons, choreUpdateEvents, hch]
      by_cases hp : isPlaying c = true
      · rw [if_pos hp]
        have hnext : ListIter.next (kept ++ c :: rest).length (kept.length + 1) =
            if rest = [] then 0 else (kept ++ [c]).length + 1 := by
          cases rest with
          | nil => simp [ListIter.next]
          | cons r rs => simp [ListIter.next]
        have hpl : kept ++ c :: rest = (kept ++ [c]) ++ rest := by simp
        rw [hnext, hpl, ih (kept ++ [c]) f _ hlen hrest, hev]
        simp [List.filter_cons, hp]
      · rw [if_neg hp]
        have her : ListIter.erase (kept ++ c :: rest) (kept.length + 1) =
            (kept ++ rest, if rest = [] then 0 else kept.length + 1) := by
          simp only [ListIter.erase, Nat.add_sub_cancel, List.length_append, List.length_cons]
          congr 1
          · rw [List.eraseIdx_append_of_length_le (Nat.le_refl _)]
            simp
          · cases rest with
            | nil => simp
            | cons r rs => simp
        have hnext : ListIter.next (kept ++ rest).length
            (ListIter.prev (kept ++ rest).length (if rest = [] then 0 else kept.length + 1)) =
            if rest = [] then 0 else kept.length + 1 := by
          cases rest with
          | nil => simp [ListIter.next, ListIter.prev]
          | cons r rs => simp [ListIter.next, ListIter.prev]
        simp only [her, hnext]
        rw [ih kept f _ hlen hrest, hev]
        simp [List.filter_cons, hp]

theorem drawTracks_eq (c : EMICostume) (ts : List ChoreTrack) :
    ∀ acc : List Event × Bool,
      (∀ p ∈ ts.filterMap (fun t => t.component), (deref c p).isSome) →
      drawTracks c ts acc =
        some (acc.1 ++ (ts.filterMap (fun t => t.component)).map Event.componentDraw,
          acc.2 || (ts.filterMap (fun t => t.component)).any
            (fun p => (deref c p).any (fun comp => comp.isComponentType 'm' 'e' 's' 'h'))) := by
  induction ts with
  | nil => intro acc _; simp [drawTracks]
  | cons t ts ih =>
      intro acc hv
      cases h : t.component with
      | none =>
          have hv2 : ∀ p ∈ ts.filterMap (fun t => t.component), (deref c p).isSome := by
            intro p hp; apply hv; simp [List.filterMap_cons, h, hp]
          simp [drawTracks, h, ih acc hv2, List.filterMap_cons]
      | some p =>
          have hv2 : ∀ p ∈ ts.filterMap (fun t => t.component), (deref c p).isSome := by
            intro q hq; apply hv; simp [List.filterMap_cons, h, hq]
          have hp : (deref c p).isSome := by apply hv; simp [List.filterMap_cons, h]
          obtain ⟨comp, hcomp⟩ := Option.isSome_iff_exists.1 hp
          simp only [drawTracks, h, hcomp, List.filterMap_cons]
          rw [ih _ hv2]
          cases hm : comp.isComponentType 'm' 'e' 's' 'h' <;> cases acc.2 <;>
            simp [hcomp, hm]

theorem drawChores_eq (c : EMICostume) (playing : List Nat) :
    ∀ acc : List Event × Bool,
      (∀ x ∈ playing, x < c.chores.length) →
      (∀ p ∈ boundComponents c.chores playing, (deref c p).isSome) →
      drawChores c playing acc =
        some (acc.1 ++ (boundComponents c.chores playing).map Event.componentDraw,
          acc.2 || (boundComponents c.chores playing).any
            (fun p => (deref c p).any (fun comp => comp.isComponentType 'm' 'e' 's' 'h'))) := by
  induction playing with
  | nil => intro acc _ _; simp [drawChores, boundComponents]
  | cons x rest ih =>
      intro acc hv hd
      have hx : x < c.chores.length := hv x (List.mem_cons_self _ _)
      have hch : c.chores[x]? = some c.chores[x] := List.getElem?_eq_getElem hx
      have hb : boundComponents c.chores (x :: rest) =
          c.chores[x].tracks.filterMap (fun t => t.component) ++
            boundComponents c.chores rest := by
        simp only [boundComponents, hch]
      rw [hb] at hd ⊢
      simp only [drawChores, hch]
      rw [drawTracks_eq c _ acc (fun p hp => hd p (List.mem_append_left _ hp))]
      simp only
      rw [ih _ (fun y hy => hv y (List.mem_cons_of_mem _ hy))
        (fun p hp => hd p (List.mem_append_right _ hp))]
      simp [Bool.or_assoc]

/-! ## The active skeleton in the states of a costume -/

theorem load_wearChore (c c1 : EMICostume) (data : Stream) (h : c.load data = .ok c1) :
    c1.wearChore = c.wearChore ∧ c1.emiSkel = c.emiSkel := by
  obtain ⟨cs, rest, -, -, -, chores, comps, -, rfl⟩ := (load_ok_iff c c1 data).1 h
  exact ⟨rfl, rfl⟩

theorem setWearChore_eq_some (ext : Externals) (c c1 : EMICostume) (chore : Nat)
    (h : setWearChore ext c chore = some c1) :
    (c.wearChore = some chore ∧ c1 = c) ∨
    (c.wearChore ≠ some chore ∧ ∃ ch, c.chores[chore]? = some ch ∧
      c1 = { c with wearChore := some chore, log := resetSkel c,
                    emiSkel := ext.getSkeleton ch }) := by
  by_cases hw : c.wearChore = some chore
  · rw [setWearChore_same ext c chore hw] at h
    simp only [Option.some.injEq] at h
    exact Or.inl ⟨hw, h.symm⟩
  · cases hch : c.chores[chore]? with
    | none =>
        have hw2 : some chore ≠ c.wearChore := fun e => hw e.symm
        simp [setWearChore, hw2, hch] at h
    | some ch =>
        rw [setWearChore_changed ext c chore ch hw hch] at h
        simp only [Option.some.injEq] at h
        exact Or.inr ⟨hw, ch, rfl, h.symm⟩

theorem Reachable.skeleton_of_worn (ext : Externals) (c : EMICostume) (h : Reachable ext c) :
    ∀ w ch, c.wearChore = some w → c.chores[w]? = some ch →
      c.emiSkel = ext.getSkeleton ch := by
  induction h with
  | constructed prevCost => intro w ch hw; cases hw
  | loaded c c1 data _ hnone hl _ =>
      intro w ch hw
      rw [(load_wearChore _ _ _ hl).1, hnone] at hw
      cases hw
  | wear c c1 chore _ hset ih =>
      intro w ch hw hch
      rcases setWearChore_eq_some ext c c1 chore hset with ⟨-, rfl⟩ | ⟨-, ch1, hch1, rfl⟩
      · exact ih w ch hw hch
      · simp only [Option.some.injEq] at hw
        subst hw
        simp only at hch
        rw [hch1] at hch
        simp only [Option.some.injEq] at hch
        subst hch
        rfl
  | other c c1 _ e1 e2 e3 ih =>
      intro w ch hw hch
      rw [e1] at hw
      rw [e3] at hch
      rw [e2]
      exact ih w ch hw hch

theorem Reachable.update (ext : Externals) (isPlaying : Nat → Bool) (fuel : Nat)
    (c c1 : EMICostume) (time : Nat) (res : Int) (h : Reachable ext c)
    (hu : update isPlaying fuel c time = some (res, c1)) : Reachable ext c1 := by
  unfold Grim.update at hu
  split at hu
  · cases hu
  · simp only [Option.some.injEq, Prod.mk.injEq] at hu
    obtain ⟨-, rfl⟩ := hu
    exact Reachable.other c _ h rfl rfl rfl

theorem Reachable.draw (ext : Externals) (c c1 : EMICostume) (h : Reachable ext c)
    (hd : draw c = some c1) : Reachable ext c1 := by
  unfold Grim.draw at hd
  split at hd
  · cases hd
  · split at hd
    · split at hd <;>
      · simp only [Option.some.injEq] at hd
        subst hd
        exact Reachable.other c _ h rfl rfl rfl
    · simp only [Option.some.injEq] at hd
      subst hd
      exact Reachable.other c _ h rfl rfl rfl

theorem Reachable.loadMaterial (ext : Externals) (loader : ResourceLoader) (c : EMICostume)
    (name : List Char) (h : Reachable ext c) :
    Reachable ext (loadMaterial loader c name).2 := by
  unfold Grim.loadMaterial
  split
  · exact h
  · exact Reachable.other c _ h rfl rfl rfl

theorem Reachable.playChore (ext : Externals) (c c1 : EMICostume) (num : Int)
    (hbase : ∀ c0, (ext.playChore num c0).wearChore = c0.wearChore ∧
      (ext.playChore num c0).emiSkel = c0.emiSkel ∧ (ext.playChore num c0).chores = c0.chores)
    (h : Reachable ext c) (hp : playChore ext c num = some c1) : Reachable ext c1 := by
  unfold Grim.playChore at hp
  split at hp
  · cases hp
  · split at hp
    · cases hp
    · rename_i chore hch
      by_cases hw : ext.isWearChore chore = true
      · rw [if_pos hw] at hp
        cases hs : setWearChore ext c num.toNat with
        | none => rw [hs] at hp; cases hp
        | some c2 =>
            rw [hs] at hp
            simp only [Option.some.injEq] at hp
            subst hp
            exact Reachable.other c2 _ (Reachable.wear c c2 _ h hs) (hbase c2).1 (hbase c2).2.1
              (hbase c2).2.2
      · rw [if_neg hw] at hp
        simp only [Option.some.injEq] at hp
        subst hp
        exact Reachable.other c _ h (hbase c).1 (hbase c).2.1 (hbase c).2.2

theorem Reachable.playChoreLooping (ext : Externals) (c c1 : EMICostume) (num : Int)
    (hbase : ∀ c0, (ext.playChoreLooping num c0).wearChore = c0.wearChore ∧
      (ext.playChoreLooping num c0).emiSkel = c0.emiSkel ∧
      (ext.playChoreLooping num c0).chores = c0.chores)
    (h : Reachable ext c) (hp : playChoreLooping ext c num = some c1) : Reachable ext c1 := by
  unfold Grim.playChoreLooping at hp
  split at hp
  · cases hp
  · split at hp
    · cases hp
    · rename_i chore hch
      by_cases hw : ext.isWearChore chore = true
      · rw [if_pos hw] at hp
        cases hs : setWearChore ext c num.toNat with
        | none => rw [hs] at hp; cases hp
        | some c2 =>
            rw [hs] at hp
            simp only [Option.some.injEq] at hp
            subst hp
            exact Reachable.other c2 _ (Reachable.wear c c2 _ h hs) (hbase c2).1 (hbase c2).2.1
              (hbase c2).2.2
      · rw [if_neg hw] at hp
        simp only [Option.some.injEq] at hp
        subst hp
        exact Reachable.other c _ h (hbase c).1 (hbase c).2.1 (hbase c).2.2

theorem Reachable.restoreState (ext : Externals) (c c1 : EMICostume) (state state1 : SaveGame)
    (ret : Bool)
    (hbase : (ext.restoreState c state).2.1.wearChore = c.wearChore ∧
      (ext.restoreState c state).2.1.emiSkel = c.emiSkel ∧
      (ext.restoreState c state).2.1.chores = c.chores)
    (h : Reachable ext c) (hr : restoreState ext c state = some (ret, c1, state1)) :
    Reachable ext c1 := by
  have hb : Reachable ext (ext.restoreState c state).2.1 :=
    Reachable.other c _ h hbase.1 hbase.2.1 hbase.2.2
  unfold Grim.restoreState at hr
  rcases hres : ext.restoreState c state with ⟨r, cb, sb⟩
  rw [hres] at hb hr
  cases r with
  | false =>
      simp only [Option.some.injEq, Prod.mk.injEq] at hr
      obtain ⟨-, rfl, -⟩ := hr
      exact hb
  | true =>
      simp only at hr
      cases ht : readTextures cb.materials sb with
      | none => rw [ht] at hr; cases hr
      | some v =>
          obtain ⟨materials, s2⟩ := v
          rw [ht] at hr
          simp only at hr
          have hm : Reachable ext { cb with materials := materials } :=
            Reachable.other cb _ hb rfl rfl rfl
          cases hl : readLESint32 s2 with
          | none => rw [hl] at hr; cases hr
          | some w =>
              obtain ⟨id, s3⟩ := w
              rw [hl] at hr
              simp only at hr
              by_cases hid : id ≥ 0
              · rw [if_pos hid] at hr
                split at hr
                · cases hr
                · split at hr
                  · rename_i c2 hs
                    simp only [Option.some.injEq, Prod.mk.injEq] at hr
                    obtain ⟨-, rfl, -⟩ := hr
                    exact Reachable.wear _ _ _ hm hs
                  · cases hr
              · rw [if_neg hid] at hr
                simp only [Option.some.injEq, Prod.mk.injEq] at hr
                obtain ⟨-, rfl, -⟩ := hr
                exact hm

/-! ## C1: normalization of the duration -/

/-- Counterexample to C1 as stated: the chore record `plain` has the
normalized duration `1000.5`, and the chore is constructed with `1000`. -/
theorem chore_constructed_with_truncation :
    loadChoreHeader 0 Samples.plain =
      .ok ({ name := [], choreId := 0, length := 1000, numTracks := 0 },
        normalizeLength Samples.plainDuration, []) ∧
    (normalizeLength Samples.plainDuration).toRat = 2001 / 2 ∧
    ((1000 : Int) : ℚ) ≠ (normalizeLength Samples.plainDuration).toRat := by
  have e : normalizeLength Samples.plainDuration =
      .fin 713980658276156430499407556217109941975468998656 := by rfl
  have q : (normalizeLength Samples.plainDuration).toRat = 2001 / 2 := by
    rw [e]
    norm_num [F32.toRat, F32.one, Nat.shiftLeft_eq]
  refine ⟨by rfl, q, ?_⟩
  rw [q]
  norm_num

/-- C1 (as amended): for every chore record `load` reads, the raw duration `d`
is normalized to the single-precision product `d * 1000` when `d < 1000` and
left unchanged when `d ≥ 1000`; the chore is constructed with the normalized
value converted to `int` (truncated toward zero); the normalized value is the
starting value of the keyframe widening, so that the final duration of a chore
without keyframes is the ceiling of the normalized value. -/
theorem chore_duration_normalized (prev : Option (List (Option Component))) (i : Nat)
    (comps comps' : List (Option Component)) (chore : EMIChore) (data data' : Stream)
    (h : loadChore prev i comps data = .ok (chore, comps', data')) :
    ∃ c hdr rest, Format.readChore data = some (c, data') ∧
      loadChoreHeader i data = .ok (hdr, normalizeLength c.duration_raw, rest) ∧
      c.duration_raw.isFinite = true ∧
      (c.duration_raw.toRat < 1000 →
        normalizeLength c.duration_raw = F32.mul c.duration_raw F32.thousand) ∧
      (1000 ≤ c.duration_raw.toRat → normalizeLength c.duration_raw = c.duration_raw) ∧
      hdr.length = (if 0 ≤ (normalizeLength c.duration_raw).toRat
        then ⌊(normalizeLength c.duration_raw).toRat⌋
        else ⌈(normalizeLength c.duration_raw).toRat⌉) ∧
      F32.ceilToInt (Format.widen (normalizeLength c.duration_raw) (Format.keyTimes c.tracks)) =
        some chore.length ∧
      (Format.keyTimes c.tracks = [] →
        chore.length = ⌈(normalizeLength c.duration_raw).toRat⌉) := by
  obtain ⟨c, hdr, rest, hread, hstep, hhdr, hl0⟩ :=
    loadChore_header prev i comps comps' chore data data' h
  obtain ⟨-, hceil, -⟩ := choreStep_spec prev i comps comps' c chore hstep
  have hfin := normalizeLength_finite _ _ hl0
  refine ⟨c, hdr, rest, hread, hhdr, hfin, ?_, ?_, (F32.toInt_eq _ _ hl0).2, hceil, ?_⟩
  · intro hlt
    cases hd : c.duration_raw with
    | nan => rw [hd] at hfin; cases hfin
    | inf s => rw [hd] at hfin; cases hfin
    | fin n =>
        rw [hd] at hlt
        rw [normalizeLength, if_pos ((lt_thousand_iff n).2 hlt)]
  · intro hge
    cases hd : c.duration_raw with
    | nan => rw [hd] at hfin; cases hfin
    | inf s => rw [hd] at hfin; cases hfin
    | fin n =>
        rw [hd] at hge
        have : ¬ F32.lt (.fin n) F32.thousand = true :=
          fun hlt => absurd ((lt_thousand_iff n).1 hlt) (not_lt.2 hge)
        rw [normalizeLength, if_neg this]
  · intro hnil
    rw [hnil] at hceil
    exact (F32.ceilToInt_eq _ _ hceil).2

/-- Witness of C1 (as amended): the chore record `plain`. -/
theorem chore_duration_normalized_witness :
    loadChore none 0 [] Samples.plain = .ok (Samples.plainChore, [], []) ∧
    ∃ hdr rest, loadChoreHeader 0 Samples.plain =
        .ok (hdr, normalizeLength Samples.plainDuration, rest) ∧
      hdr.length = (if 0 ≤ (normalizeLength Samples.plainDuration).toRat
        then ⌊(normalizeLength Samples.plainDuration).toRat⌋
        else ⌈(normalizeLength Samples.plainDuration).toRat⌉) ∧
      Samples.plainChore.length = ⌈(normalizeLength Samples.plainDuration).toRat⌉ :=
  ⟨by rfl, by
    obtain ⟨c, hdr, rest, hread, hhdr, -, -, -, htr, -, hnil⟩ :=
      chore_duration_normalized none 0 [] [] Samples.plainChore Samples.plain [] (by rfl)
    have hc : Format.readChore Samples.plain =
        some ({ name := [], duration_raw := Samples.plainDuration, tracks := [] }, []) := by rfl
    rw [hc] at hread
    simp only [Option.some.injEq, Prod.mk.injEq] at hread
    obtain ⟨rfl, -⟩ := hread
    exact ⟨hdr, rest, hhdr, htr, hnil rfl⟩⟩

/-! ## C2: the duration covers the keyframes -/

/-- C2: for every chore `load` produces, the recorded duration is the ceiling
of the maximum of the normalized duration and the values `time_raw * 1000` of
all keyframes of all its tracks, every stored keyframe time is `time_raw *
1000` converted to `int` (truncated toward zero), and the recorded duration is
at least every stored keyframe time. -/
theorem chore_length_covers_keys (c c' : EMICostume) (data : Stream)
    (h : c.load data = .ok c') :
    ∃ cs rest, Format.readCostume data = some (cs, rest) ∧
      List.Forall₂ (fun (rc : Format.Chore) (chore : EMIChore) =>
        (∃ m ∈ normalizeLength rc.duration_raw :: Format.keyTimes rc.tracks,
          (∀ x ∈ normalizeLength rc.duration_raw :: Format.keyTimes rc.tracks,
            x.isFinite = true ∧ x.toRat ≤ m.toRat) ∧
          chore.length = ⌈m.toRat⌉) ∧
        List.Forall₂ (fun t tr =>
          List.Forall₂ (fun k s =>
            F32.toInt (F32.mul k.time_raw F32.thousand) = some s.time ∧
            s.time = (if 0 ≤ (F32.mul k.time_raw F32.thousand).toRat
              then ⌊(F32.mul k.time_raw F32.thousand).toRat⌋
              else ⌈(F32.mul k.time_raw F32.thousand).toRat⌉)) t.keys tr.keys)
          rc.tracks chore.tracks ∧
        ∀ tr ∈ chore.tracks, ∀ s ∈ tr.keys, s.time ≤ chore.length) cs c'.chores := by
  obtain ⟨cs, rest, hread, -, -, chores, comps, hstep, rfl⟩ := (load_ok_iff c c' data).1 h
  refine ⟨cs, rest, hread, ?_⟩
  refine List.Forall₂.imp ?_ (choresStep_forall₂ _ cs 0 [] comps chores hstep)
  rintro rc chore ⟨i, cmp, cmp', hc⟩
  exact choreStep_covers _ i cmp cmp' rc chore hc

/-- Witness of C2: the costume with the one chore `wave`. -/
theorem chore_length_covers_keys_witness :
    EMICostume.load {} Samples.waveCostume =
      .ok { chores := [Samples.waveChore], components := [some Samples.waveMesh] } ∧
    ∀ tr ∈ Samples.waveChore.tracks, ∀ s ∈ tr.keys, s.time ≤ Samples.waveChore.length :=
  ⟨by rfl, by
    obtain ⟨cs, rest, -, hall⟩ := chore_length_covers_keys {} _ Samples.waveCostume
      (show EMICostume.load {} Samples.waveCostume =
        .ok { chores := [Samples.waveChore], components := [some Samples.waveMesh] } from rfl)
    obtain ⟨rc, -, -, -, h⟩ := forall₂_mem_right hall Samples.waveChore (by simp)
    exact h⟩

/-! ## C3: unknown tags -/

/-- C3: when the stream holds a track whose descriptor `'!' + tag + ...` has a
tag that is none of `mesh`, `skel`, `texi`, `anim`, `luac`, `luav`, `sprt`,
`shad`, `awgt`, `snd2`, then `loadEMIComponent` raises the fatal error on that
descriptor whatever its other arguments are, and `load` does not return a
costume. -/
theorem load_unknown_tag_fatal (c : EMICostume) (data rest : Stream)
    (chores : List Format.Chore) (ch : Format.Chore) (t : Format.Track)
    (parent : Option CompPtr) (parentID : Int) (prevComponent : Option CompPtr)
    (hread : Format.readCostume data = some (chores, rest))
    (hch : ch ∈ chores) (ht : t ∈ ch.tracks) (hm : Format.Marked t.descriptor)
    (hu : Format.tagOf t.descriptor ∉ Format.constructedTags ++ Format.ignorableTags) :
    loadEMIComponent parent parentID t.descriptor prevComponent = .error .missingTag ∧
    ∃ e, c.load data = .error e := by
  refine ⟨loadEMIComponent_unknown _ _ _ _ hm hu, ?_⟩
  cases hl : c.load data with
  | error e => exact ⟨e, rfl⟩
  | ok c' =>
      exfalso
      obtain ⟨cs, rest', hcs, -, -, chs, comps, hstep, -⟩ := (load_ok_iff c c' data).1 hl
      rw [hread] at hcs
      simp only [Option.some.injEq, Prod.mk.injEq] at hcs
      obtain ⟨rfl, -⟩ := hcs
      obtain ⟨p, pid, pc, r, hr⟩ := choresStep_factory _ _ _ _ _ _ hstep ch hch t ht
      rw [loadEMIComponent_unknown _ _ _ _ hm hu] at hr
      cases hr

/-- Witness of C3: the descriptor `!MESHa` in the costume `upper`. -/
theorem load_unknown_tag_fatal_witness :
    Format.readCostume Samples.upper = some ([Samples.upperChore], []) ∧
    loadEMIComponent none (-1) Samples.upperTrack.descriptor none = .error .missingTag ∧
    ∃ e, EMICostume.load {} Samples.upper = .error e :=
  ⟨by rfl,
   load_unknown_tag_fatal {} Samples.upper [] [Samples.upperChore] Samples.upperChore
     Samples.upperTrack none (-1) none (by rfl) (by simp) (by simp [Samples.upperChore])
     (by decide) (by decide)⟩

/-! ## C4: ignorable tags -/

/-- C4: for every track record whose descriptor has the tag `shad`, `awgt` or
`snd2`, `loadEMIComponent` returns no component and no error, and the track
loop body returns (whenever the hand-off, the parent lookup and the keyframe
conversions of that track are defined): the component bound to the track is
none, the chore's component list is unchanged, and the component table gets
exactly one new slot, holding none. -/
theorem ignorable_tag_track (prev : Option (List (Option Component))) (i : Nat)
    (st : LoadState) (data data' : Stream) (t : Format.Track) (parentID : Int)
    (prevComponent parent : Option CompPtr) (keys : List TrackKey)
    (hread : Format.readTrack data = some (t, data')) (hfit : t.Fits)
    (hm : Format.Marked t.descriptor)
    (hi : Format.tagOf t.descriptor ∈ Format.ignorableTags)
    (hh : handOff prev i t.parent_index st.prevComponent = .ok (parentID, prevComponent))
    (hp : resolveParent st.components parentID = .ok parent)
    (hk : Format.storeKeys t.keys = some keys) :
    loadEMIComponent parent parentID t.descriptor prevComponent = .ok none ∧
    loadTrack prev i st data =
      .ok ({ components := st.components ++ [none],
             chore := { st.chore with
               attached := st.chore.attached,
               tracks := st.chore.tracks ++ [{ keys := keys, component := none, compID := -1 }] },
             prevComponent := prevComponent,
             length := Format.widen st.length (t.keys.map Format.Key.time) }, data') := by
  have hf := loadEMIComponent_ignorable parent parentID prevComponent t.descriptor hm hi
  refine ⟨hf, ?_⟩
  rw [loadTrack_ok_iff]
  refine ⟨t, hread, hfit, ?_⟩
  simp only [trackStep, hh, hp, hf, hk, bind, Except.bind, Option.map_none']

/-- Witness of C4: the track `!shadx` read after the track of `wave`. -/
theorem ignorable_tag_track_witness :
    Format.readTrack Samples.shad = some (Samples.shadTrack, [9]) ∧
    loadTrack none 0 Samples.afterWave Samples.shad =
      .ok ({ components := [some Samples.waveMesh, none],
             chore := { Samples.waveChore with
               tracks := Samples.waveChore.tracks ++
                 [{ keys := [{ time := 1200, value := 2 }], component := none, compID := -1 }] },
             prevComponent := none,
             length := Format.widen Samples.afterWave.length
               (Samples.shadTrack.keys.map Format.Key.time) }, [9]) :=
  ⟨by rfl,
   (ignorable_tag_track none 0 Samples.afterWave Samples.shad [9] Samples.shadTrack 0 none
      (some (.own 0)) [{ time := 1200, value := 2 }] (by rfl) ⟨by decide, by decide⟩
      (by decide) (by decide) (by rfl) (by rfl) (by rfl)).2⟩

/-! ## C5: constructed components -/

/-- C5: for every descriptor `'!' + tag + name` (a C string, followed in its
buffer by the terminating NUL) whose tag the specification maps to a variant,
`loadEMIComponent` returns a component of that variant whose name is the
descriptor without its first 5 characters, whose stored tag is the big-endian
tag, and whose parent, parent index and hand-off candidate are the arguments
passed in. -/
theorem loadEMIComponent_constructs (parent : Option CompPtr) (parentID : Int)
    (prevComponent : Option CompPtr) (desc junk : List Nat) (kind : ComponentKind)
    (hm : Format.Marked desc) (h0 : 0 ∉ desc)
    (hk : Format.variantOf (Format.tagOf desc) = some kind) :
    loadEMIComponent parent parentID (desc ++ 0 :: junk) prevComponent =
      .ok (some { kind := kind, parent := parent, parentID := parentID, name := desc.drop 5,
                  prevComponent := prevComponent, tag := Format.tagOf desc,
                  costumeArg := decide (kind = .Mesh) }) := by
  obtain ⟨t0, t1, t2, t3, rest, rfl⟩ := marked_cases desc hm
  have hr : 0 ∉ rest := fun h => h0 (by simp [h])
  have htag : Format.tagOf ('!'.toNat :: t0 :: t1 :: t2 :: t3 :: (rest ++ 0 :: junk)) =
      Format.tagOf ('!'.toNat :: t0 :: t1 :: t2 :: t3 :: rest) := by
    simp [Format.tagOf]
  rw [List.cons_append, List.cons_append, List.cons_append, List.cons_append, List.cons_append,
    loadEMIComponent_marked, htag]
  have hd : ('!'.toNat :: t0 :: t1 :: t2 :: t3 :: rest).drop 5 = rest := rfl
  rw [hd]
  generalize Format.tagOf ('!'.toNat :: t0 :: t1 :: t2 :: t3 :: rest) = tag at hk ⊢
  simp only [Format.variantOf] at hk
  simp only [newComponent, cstr_terminated rest junk hr]
  split_ifs at hk with h1 h2 h3 h4 h5 h6 h7 <;>
    simp only [Option.some.injEq] at hk <;> subst hk <;> simp [*, MKTAG]

/-- Witness of C5: the descriptor `!meshfoo`. -/
theorem loadEMIComponent_constructs_witness :
    Format.Marked [33, 109, 101, 115, 104, 102, 111, 111] ∧
    Format.variantOf (Format.tagOf [33, 109, 101, 115, 104, 102, 111, 111]) = some .Mesh ∧
    loadEMIComponent (some (.own 2)) 2 ([33, 109, 101, 115, 104, 102, 111, 111] ++ 0 :: [7])
        (some (.prev 0)) =
      .ok (some { kind := .Mesh, parent := some (.own 2), parentID := 2,
                  name := [102, 111, 111], prevComponent := some (.prev 0),
                  tag := MKTAG 'm' 'e' 's' 'h', costumeArg := true }) :=
  ⟨by decide, by decide,
   loadEMIComponent_constructs (some (.own 2)) 2 (some (.prev 0))
     [33, 109, 101, 115, 104, 102, 111, 111] [7] .Mesh (by decide) (by decide) (by decide)⟩

/-! ## C6: save and restore -/

/-- C6: for a loaded costume (the id of each chore is its index), saving and
then restoring from the written save game, with a base restore that succeeds,
reads back its own part and leaves the cache entries, the worn chore and the
number of chores as they were, gives every cached material the active texture
it had and leaves the worn chore what it was. -/
theorem save_restore_roundtrip (ext : Externals) (c c1 : EMICostume) (saved : SaveGame)
    (hids : ∀ (i : Nat) (ch : EMIChore), c.chores[i]? = some ch → ch.choreId = (i : Int))
    (hs : saveState ext c [] = some saved)
    (hbase : ext.restoreState c saved = (true, c1, saved.drop (ext.saveState c []).length))
    (hm : c1.materials.map (fun m => m.filename) = c.materials.map (fun m => m.filename))
    (hw : c1.wearChore = c.wearChore) (hc : c1.chores.length = c.chores.length) :
    ∃ c2, restoreState ext c saved = some (true, c2, []) ∧
      c2.materials = c.materials ∧ c2.wearChore = c.wearChore := by
  obtain ⟨wid, hsaved, -, hnone, hsome⟩ := saveState_layout ext c [] saved hs
  have hdrop : saved.drop (ext.saveState c []).length =
      c.materials.map (fun m => m.activeTexture) ++ wid :: [] := by
    rw [hsaved, List.append_assoc, List.drop_left]
  rw [hdrop] at hbase
  have hlen : (c.materials.map (fun m => m.activeTexture)).length = c1.materials.length := by
    have := congrArg List.length hm
    simpa using this.symm
  have hwid : (c.wearChore = none ∧ wid = -1) ∨
      ∃ w, c.wearChore = some w ∧ wid = (w : Int) ∧ w < c.chores.length := by
    cases hwc : c.wearChore with
    | none => exact Or.inl ⟨rfl, hnone hwc⟩
    | some w =>
        simp only [saveState, hwc] at hs
        cases hch : c.chores[w]? with
        | none => simp [hch] at hs
        | some ch =>
            refine Or.inr ⟨w, rfl, ?_, ?_⟩
            · rw [hsome w ch hwc hch, hids w ch hch]
            · exact (List.getElem?_eq_some_iff.1 hch).1
  have hid : wid < 0 ∨ wid.toNat < c1.chores.length := by
    rcases hwid with ⟨-, rfl⟩ | ⟨w, -, rfl, hlt⟩
    · exact Or.inl (by decide)
    · exact Or.inr (by simpa [hc] using hlt)
  obtain ⟨c2, hres, htex, hfile, hneg, hpos⟩ :=
    restoreState_layout ext c c1 saved [] _ wid hbase hlen hid
  refine ⟨c2, hres, materials_ext _ _ (hfile.trans hm) htex, ?_⟩
  rcases hwid with ⟨hn, rfl⟩ | ⟨w, hwc, rfl, -⟩
  · rw [hneg (by decide), hw]
  · rw [hpos (by omega), hwc]; simp

/-- Witness of C6: the sample costume wearing `wave`. -/
theorem save_restore_roundtrip_witness :
    saveState Samples.ext Samples.worn [] = some [0, 3, 5, 0] ∧
    ∃ c2, restoreState Samples.ext Samples.worn [0, 3, 5, 0] = some (true, c2, []) ∧
      c2.materials = Samples.worn.materials ∧ c2.wearChore = Samples.worn.wearChore :=
  ⟨rfl, save_restore_roundtrip Samples.ext Samples.worn Samples.worn [0, 3, 5, 0]
    (by
      intro i ch h
      rcases i with _ | _ | i
      · simp [Samples.worn, Samples.costume] at h; subst h; rfl
      · simp [Samples.worn, Samples.costume] at h; subst h; rfl
      · simp [Samples.worn, Samples.costume] at h)
    rfl rfl rfl rfl rfl⟩

/-! ## C7: the save-state record -/

/-- C7: after the base costume's state, `saveState` writes exactly `N + 1`
integers, `N` being the size of the material cache: the active-texture index
of each cached material in cache order, then the id of the worn chore, or
`-1` when there is none; `restoreState` reads exactly `N + 1` integers after
the base state, in the same order: one per cached material, which becomes its
active texture, then the worn-chore id. -/
theorem save_record_layout (ext : Externals) (c : EMICostume) (out saved : SaveGame)
    (c' c1 : EMICostume) (state rest : SaveGame) (texs : List Int) (id : Int)
    (hs : saveState ext c out = some saved)
    (hbase : ext.restoreState c' state = (true, c1, texs ++ id :: rest))
    (hlen : texs.length = c1.materials.length)
    (hid : id < 0 ∨ id.toNat < c1.chores.length) :
    (∃ wid, saved = ext.saveState c out ++ c.materials.map (fun m => m.activeTexture) ++ [wid] ∧
      saved.length = (ext.saveState c out).length + (c.materials.length + 1) ∧
      (c.wearChore = none → wid = -1) ∧
      (∀ w ch, c.wearChore = some w → c.chores[w]? = some ch → wid = ch.choreId)) ∧
    (∃ c2, restoreState ext c' state = some (true, c2, rest) ∧
      c2.materials.map (fun m => m.activeTexture) = texs ∧
      c2.materials.map (fun m => m.filename) = c1.materials.map (fun m => m.filename) ∧
      (id < 0 → c2.wearChore = c1.wearChore) ∧
      (0 ≤ id → c2.wearChore = some id.toNat)) :=
  ⟨saveState_layout ext c out saved hs, restoreState_layout ext c' c1 state rest texs id hbase hlen hid⟩

/-- Witness of C7: the sample costume wearing `wave` is saved; the sample
costume without worn chore is restored from the textures `9`, `8` and the
worn-chore id `1`. -/
theorem save_record_layout_witness :
    saveState Samples.ext Samples.worn [4] = some [4, 0, 3, 5, 0] ∧
    ∃ c2, restoreState Samples.ext Samples.costume [0, 9, 8, 1, 6] = some (true, c2, [6]) ∧
      c2.materials.map (fun m => m.activeTexture) = [9, 8] ∧
      c2.wearChore = some 1 := by
  obtain ⟨-, c2, h1, h2, -, -, h3⟩ := save_record_layout Samples.ext Samples.worn [4]
    [4, 0, 3, 5, 0] Samples.costume Samples.costume [0, 9, 8, 1, 6] [6] [9, 8] 1 rfl rfl rfl
    (Or.inr (by decide))
  exact ⟨rfl, c2, h1, h2, h3 (by decide)⟩

/-! ## C8: failure of the base restore -/

/-- C8: when the base costume's `restoreState` returns failure,
`EMICostume::restoreState` returns failure, reads nothing more from the save
game, and leaves the costume (cached materials, worn chore, active skeleton)
as the base layer left it; and whenever `EMICostume::restoreState` returns,
its result is the result of the base layer. -/
theorem restoreState_base_failure (ext : Externals) (c c1 : EMICostume)
    (state state1 : SaveGame) (hfail : ext.restoreState c state = (false, c1, state1)) :
    restoreState ext c state = some (false, c1, state1) ∧
    (∀ d s r c2 state2, restoreState ext d s = some (r, c2, state2) →
      r = (ext.restoreState d s).1) := by
  constructor
  · simp only [restoreState, hfail]
  · intro d s r c2 state2 h
    rcases hb : ext.restoreState d s with ⟨ret, d1, s1⟩
    cases ret with
    | false =>
        simp only [restoreState, hb, Option.some.injEq, Prod.mk.injEq] at h
        exact h.1.symm
    | true =>
        simp only [restoreState, hb] at h
        split at h
        · cases h
        · split at h
          · cases h
          · split at h
            · split at h
              · cases h
              · split at h
                · simp only [Option.some.injEq, Prod.mk.injEq] at h
                  exact h.1.symm
                · cases h
            · simp only [Option.some.injEq, Prod.mk.injEq] at h
              exact h.1.symm

/-- Witness of C8: the sample base reader fails on an empty save game. -/
theorem restoreState_base_failure_witness :
    Samples.ext.restoreState Samples.worn [] = (false, Samples.worn, []) ∧
    restoreState Samples.ext Samples.worn [] = some (false, Samples.worn, []) :=
  ⟨rfl, (restoreState_base_failure Samples.ext Samples.worn Samples.worn [] [] rfl).1⟩

/-! ## C9: the worn-chore setter is idempotent -/

/-- C9: for every costume state and every chore of the costume, a second call
`setWearChore(c)` right after `setWearChore(c)` returns the state unchanged:
no skeleton is reset (the log is the same), and the worn chore and the active
skeleton are what the first call left. -/
theorem setWearChore_idempotent (ext : Externals) (c : EMICostume) (chore : Nat)
    (hvalid : chore < c.chores.length) :
    ∃ c1, setWearChore ext c chore = some c1 ∧ c1.wearChore = some chore ∧
      ∃ c2, setWearChore ext c1 chore = some c2 ∧ c2.log = c1.log ∧
        c2.wearChore = c1.wearChore ∧ c2.emiSkel = c1.emiSkel ∧ c2.chores = c1.chores ∧
        c2.materials = c1.materials ∧ c2.playingChores = c1.playingChores ∧
        c2.components = c1.components := by
  obtain ⟨ch, hch⟩ : ∃ ch, c.chores[chore]? = some ch :=
    ⟨c.chores[chore], List.getElem?_eq_getElem hvalid⟩
  by_cases h : c.wearChore = some chore
  · refine ⟨c, setWearChore_same ext c chore h, h, c, setWearChore_same ext c chore h, ?_⟩
    simp
  · refine ⟨_, setWearChore_changed ext c chore ch h hch, rfl, _,
      setWearChore_same ext _ chore rfl, ?_⟩
    simp

/-- Witness of C9: the sample costume, no chore worn, and its chore `wave`. -/
theorem setWearChore_idempotent_witness :
    ∃ c1, setWearChore Samples.ext Samples.costume 0 = some c1 ∧
      c1.wearChore = some 0 ∧
      ∃ c2, setWearChore Samples.ext c1 0 = some c2 ∧ c2.log = c1.log ∧
        c2.wearChore = c1.wearChore ∧ c2.emiSkel = c1.emiSkel ∧ c2.chores = c1.chores ∧
        c2.materials = c1.materials ∧ c2.playingChores = c1.playingChores ∧
        c2.components = c1.components :=
  setWearChore_idempotent Samples.ext Samples.costume 0 (by decide)

/-! ## C10: playing a wear chore -/

/-- C10: for every valid chore index `num`, in every state a costume goes
through, `playChore(num)` and `playChoreLooping(num)` on a chore flagged as
wear call the base start on a state `c1` in which that chore is the worn
chore and its skeleton is the active skeleton: when the worn chore changes,
`c1` differs from the state before in the worn chore, in the active skeleton
and in one more logged call, the reset of the previously active skeleton, if
there was one; when the chore is worn already, `c1` is the state before.  On
a chore not flagged as wear they call the base start on the unchanged
state. -/
theorem playChore_wear (ext : Externals) (c : EMICostume) (num : Int) (chore : EMIChore)
    (hreach : Reachable ext c) (hnum : 0 ≤ num) (hch : c.chores[num.toNat]? = some chore) :
    (ext.isWearChore chore = true →
      ∃ c1, playChore ext c num = some (ext.playChore num c1) ∧
        playChoreLooping ext c num = some (ext.playChoreLooping num c1) ∧
        c1.wearChore = some num.toNat ∧ c1.emiSkel = ext.getSkeleton chore ∧
        (c.wearChore = some num.toNat → c1 = c) ∧
        (c.wearChore ≠ some num.toNat →
          (c.emiSkel = none → c1.log = c.log) ∧
          (∀ skel, c.emiSkel = some skel → c1.log = c.log ++ [Event.skelReset skel])) ∧
        c1.chores = c.chores ∧ c1.components = c.components ∧
        c1.playingChores = c.playingChores ∧ c1.materials = c.materials ∧
        c1.prevCostume = c.prevCostume) ∧
    (ext.isWearChore chore = false →
      playChore ext c num = some (ext.playChore num c) ∧
      playChoreLooping ext c num = some (ext.playChoreLooping num c)) := by
  have hn : ¬ num < 0 := not_lt.2 hnum
  constructor
  · intro hw
    by_cases h : c.wearChore = some num.toNat
    · refine ⟨c, ?_, ?_, h, Reachable.skeleton_of_worn ext c hreach _ _ h hch,
        fun _ => rfl, fun hne => absurd h hne, rfl, rfl, rfl, rfl, rfl⟩
      · simp [playChore, hn, hch, hw, setWearChore_same ext c _ h]
      · simp [playChoreLooping, hn, hch, hw, setWearChore_same ext c _ h]
    · obtain ⟨c1, hset, e1, e2, e3, e4, e5, e6, e7, e8⟩ :
          ∃ c1, setWearChore ext c num.toNat = some c1 ∧ c1.wearChore = some num.toNat ∧
            c1.emiSkel = ext.getSkeleton chore ∧ c1.log = resetSkel c ∧
            c1.chores = c.chores ∧ c1.components = c.components ∧
            c1.playingChores = c.playingChores ∧ c1.materials = c.materials ∧
            c1.prevCostume = c.prevCostume :=
        ⟨_, setWearChore_changed ext c _ chore h hch, rfl, rfl, rfl, rfl, rfl, rfl, rfl, rfl⟩
      refine ⟨c1, ?_, ?_, e1, e2, fun hh => absurd hh h, fun _ => ⟨?_, ?_⟩, e4, e5, e6, e7, e8⟩
      · simp only [playChore, hn, hch, hw, hset, if_true, if_false]
      · simp only [playChoreLooping, hn, hch, hw, hset, if_true, if_false]
      · intro hs
        rw [e3]
        simp only [resetSkel, hs]
      · intro skel hs
        rw [e3]
        simp only [resetSkel, hs]
  · intro hw
    constructor
    · simp [playChore, hn, hch, hw]
    · simp [playChoreLooping, hn, hch, hw]

set_option maxRecDepth 8000 in
/-- Witness of C10: the costume `family`, loaded and wearing its chore `wave`
with component 0 as the active skeleton, plays its wear chore `kin`: `kin`
becomes the worn chore, component 2 the active skeleton, and component 0 is
reset; playing `wave`, worn already, resets nothing. -/
theorem playChore_wear_witness :
    Reachable Samples.ext Samples.familyWorn ∧
    Samples.ext.isWearChore Samples.kinChore = true ∧
    playChore Samples.ext Samples.familyWorn 0 =
      some (Samples.ext.playChore 0 Samples.familyWorn) ∧
    playChore Samples.ext Samples.familyWorn 1 =
      some (Samples.ext.playChore 1
        { Samples.familyCostume with
          wearChore := some 1, emiSkel := some (.own 2),
          log := [Event.skelReset (.own 0)] }) ∧
    ∃ c1, playChore Samples.ext Samples.familyWorn 1 = some (Samples.ext.playChore 1 c1) ∧
      playChoreLooping Samples.ext Samples.familyWorn 1 =
        some (Samples.ext.playChoreLooping 1 c1) ∧
      c1.wearChore = some 1 ∧ c1.emiSkel = some (.own 2) ∧
      c1.log = [Event.skelReset (.own 0)] := by
  have hreach : Reachable Samples.ext Samples.familyWorn :=
    Reachable.wear Samples.familyCostume Samples.familyWorn 0
      (Reachable.loaded (EMICostume.new none) Samples.familyCostume Samples.family
        (Reachable.constructed none) rfl rfl) rfl
  obtain ⟨c1, h1, h2, h3, h4, -, h6, -⟩ := (playChore_wear Samples.ext Samples.familyWorn 1
    Samples.kinChore hreach (by decide) rfl).1 rfl
  exact ⟨hreach, rfl, rfl, rfl, c1, h1, h2, h3, h4,
    (h6 (by decide)).2 (.own 0) rfl⟩

/-! ## C11: the hand-off is accepted -/

/-- C12: when costume B is loaded with a previous costume A whose component 0
has the tag `skel`, and the first track of B's first chore has the parent
index `-1`, the component built for that track has no hand-off component and
no parent. -/
theorem handoff_discarded (c c' : EMICostume) (data rest : Stream) (rc : Format.Chore)
    (rcs : List Format.Chore) (t : Format.Track) (ts : List Format.Track)
    (first : Component) (others : List (Option Component))
    (h : c.load data = .ok c') (hread : Format.readCostume data = some (rc :: rcs, rest))
    (htr : rc.tracks = t :: ts) (hpi : t.parent_index = -1)
    (hprev : c.prevCostume = some (some first :: others))
    (htag : first.tag = MKTAG 's' 'k' 'e' 'l') :
    ∃ pid r, handOff c.prevCostume 0 t.parent_index none = .ok (pid, none) ∧
      loadEMIComponent none pid t.descriptor none = .ok r ∧
      c'.components[0]? = some (initialized r) ∧
      ∀ comp, initialized r = some comp → comp.prevComponent = none ∧ comp.parent = none := by
  obtain ⟨pid, pc, parent, r, g1, g2, g3, g4⟩ :=
    load_first_track c c' data rest rc rcs t ts h hread htr
  have hg1 := g1
  have hty : first.isComponentType 'M' 'M' 'D' 'L' = false := by
    simp [Component.isComponentType, htag, MKTAG]
  rw [hprev, hpi, handOff_first, hty] at g1
  simp only [if_true, Except.ok.injEq, Prod.mk.injEq] at g1
  obtain ⟨rfl, hpc⟩ := g1
  simp only [Bool.false_eq_true, if_false] at hpc
  subst hpc
  rw [resolveParent_neg _ _ (by decide)] at g2
  simp only [Except.ok.injEq] at g2
  subst g2
  refine ⟨-2, r, hg1, g3, g4, ?_⟩
  intro comp hcomp
  obtain ⟨c0, rfl, e1, e2, e3, -⟩ := initialized_eq_some r comp hcomp
  obtain ⟨a1, a2, a3, -⟩ := loadEMIComponent_args _ _ _ _ _ g3
  exact ⟨by rw [e3, a3], by rw [e1, a1]⟩

/-- Witness of C12: the costume `wave` loaded after a costume whose component
0 has the tag `skel`. -/
theorem handoff_discarded_witness :
    EMICostume.load { prevCostume := some [some Samples.skeleton] } Samples.waveCostume =
      .ok { prevCostume := some [some Samples.skeleton], chores := [Samples.waveChore],
            components := [some { Samples.waveMesh with parentID := -2 }] } ∧
    ∃ pid r, handOff (some [some Samples.skeleton]) 0 (-1) none = .ok (pid, none) ∧
      loadEMIComponent none pid [33, 109, 101, 115, 104, 97, 46, 109, 0] none = .ok r ∧
      ([some { Samples.waveMesh with parentID := -2 }] : List (Option Component))[0]? =
        some (initialized r) ∧
      ∀ comp, initialized r = some comp → comp.prevComponent = none ∧ comp.parent = none :=
  ⟨rfl, handoff_discarded { prevCostume := some [some Samples.skeleton] }
    { prevCostume := some [some Samples.skeleton], chores := [Samples.waveChore],
      components := [some { Samples.waveMesh with parentID := -2 }] }
    Samples.waveCostume [] Samples.waveRecord [] Samples.waveTrack [] Samples.skeleton []
    rfl rfl rfl rfl rfl rfl⟩

/-! ## C13: which tracks are handed off -/

set_option maxRecDepth 8000 in
/-- Counterexample to C13 as stated: with a previous costume whose component
0 has the tag `MMDL`, the first track of the second chore, whose parent index
is `-1`, gets the hand-off candidate (and keeps the parent index `-1`). -/
theorem handoff_in_second_chore :
    EMICostume.load { prevCostume := some [some Samples.model] } Samples.twoWaves =
      .ok { prevCostume := some [some Samples.model],
            chores := [Samples.waveChore, Samples.secondWave],
            components := [some { Samples.waveMesh with
                             parentID := -2, prevComponent := some (.prev 0) },
                           some { Samples.waveMesh with prevComponent := some (.prev 0) }] } ∧
    ({ Samples.waveMesh with prevComponent := some (.prev 0) } : Component).prevComponent ≠
      none :=
  ⟨rfl, by decide⟩

/-- C13 (as amended): during load with a previous costume present, the parent
index passed to the factory differs from the one read only when it is `-2`,
the track is in the first chore and the index read is `-1`, and it is `-2`
for the first track of the first chore when the index read is `-1`; a
hand-off candidate is supplied for every track, of any chore, whose index
read is `-1` (the previous costume's component 0 when its tag is `MMDL`, none
otherwise); and the candidate is none for the first track of a chore whose
index read is not `-1`. -/
theorem handoff_rule (table : List (Option Component)) (i : Nat) (st st' : LoadState)
    (data data' : Stream) (h : loadTrack (some table) i st data = .ok (st', data')) :
    ∃ t pid pc parent r, Format.readTrack data = some (t, data') ∧
      resolveParent st.components pid = .ok parent ∧
      loadEMIComponent parent pid t.descriptor pc = .ok r ∧
      st'.components = st.components ++ [initialized r] ∧
      (pid ≠ t.parent_index → pid = -2 ∧ i = 0 ∧ t.parent_index = -1) ∧
      (i = 0 → st.chore.tracks = [] → t.parent_index = -1 → pid = -2) ∧
      (t.parent_index = -1 → ∃ first, table.head? = some (some first) ∧
        pc = if first.isComponentType 'M' 'M' 'D' 'L' then some (.prev 0) else none) ∧
      (t.parent_index ≠ -1 → st.prevComponent = none → pc = none) := by
  obtain ⟨t, hread, -, hstep⟩ := (loadTrack_ok_iff _ _ _ _ _ _).1 h
  obtain ⟨pid, pc, parent, r, keys, g1, g2, g3, -, g5, -⟩ := trackStep_inv _ _ _ _ _ hstep
  obtain ⟨hyes, hno⟩ := handOff_some _ _ _ _ _ _ g1
  refine ⟨t, pid, pc, parent, r, hread, g2, g3, g5, ?_, ?_, ?_, ?_⟩
  · intro hne
    by_cases hpi : t.parent_index = -1
    · obtain ⟨first, -, hpid, -⟩ := hyes hpi
      by_cases hi : i = 0
      · rw [if_pos hi] at hpid
        exact ⟨hpid, hi, hpi⟩
      · rw [if_neg hi] at hpid
        exact absurd (hpid.trans hpi.symm) hne
    · exact absurd (hno hpi).1 hne
  · intro hi _ hpi
    obtain ⟨first, -, hpid, -⟩ := hyes hpi
    rw [if_pos hi] at hpid
    exact hpid
  · intro hpi
    obtain ⟨first, hf, -, hpc⟩ := hyes hpi
    exact ⟨first, hf, hpc⟩
  · intro hpi hnone
    rw [(hno hpi).2, hnone]

/-- Witness of C13 (as amended): the track of `wave`, the first of chore 0,
read with a previous costume whose component 0 has the tag `MMDL`. -/
theorem handoff_rule_witness :
    loadTrack (some [some Samples.model]) 0 Samples.beforeWave Samples.meshTrack =
      .ok (Samples.afterHandOff, []) ∧
    ∃ t pid pc parent r, Format.readTrack Samples.meshTrack = some (t, []) ∧
      resolveParent Samples.beforeWave.components pid = .ok parent ∧
      loadEMIComponent parent pid t.descriptor pc = .ok r ∧
      Samples.afterHandOff.components = Samples.beforeWave.components ++ [initialized r] ∧
      (pid ≠ t.parent_index → pid = -2 ∧ 0 = 0 ∧ t.parent_index = -1) ∧
      (0 = 0 → Samples.beforeWave.chore.tracks = [] → t.parent_index = -1 → pid = -2) ∧
      (t.parent_index = -1 → ∃ first, [some Samples.model].head? = some (some first) ∧
        pc = if first.isComponentType 'M' 'M' 'D' 'L' then some (.prev 0) else none) ∧
      (t.parent_index ≠ -1 → Samples.beforeWave.prevComponent = none → pc = none) :=
  ⟨rfl, handoff_rule [some Samples.model] 0 Samples.beforeWave Samples.afterHandOff
    Samples.meshTrack [] rfl⟩

/-! ## C14: one chore with one mesh track -/

/-- C14: a stream with one chore that has one track with the tag `mesh`, the
parent index `-1` and two keyframes at the raw times `0.0` and `1.2`, loaded
without previous costume, the normalized duration not exceeding 1200 (the
name of the chore being shorter than 32 bytes and the values of the
keyframes and the normalized duration convertible to `int`): `load` returns a costume whose component table has exactly one entry, the mesh
component, bound to the track with `compID = -1`; the stored keyframe times
are 0 and 1200 and the duration of the chore is 1200. -/
theorem scenario_one_mesh_track (c : EMICostume) (data rest : Stream) (rc : Format.Chore)
    (t : Format.Track) (k1 k2 : Format.Key) (desc junk : List Nat) (v1 v2 l0 : Int)
    (hprev : c.prevCostume = none)
    (hread : Format.readCostume data = some ([rc], rest)) (hname : rc.name.length < 32)
    (htr : rc.tracks = [t]) (hdesc : t.descriptor = desc ++ 0 :: junk)
    (hlen : t.descriptor.length < 2147483648)
    (hm : Format.Marked desc) (h0 : 0 ∉ desc)
    (htag : Format.tagOf desc = MKTAG 'm' 'e' 's' 'h') (hpi : t.parent_index = -1)
    (hkeys : t.keys = [k1, k2]) (ht1 : k1.time_raw = F32.fin 0)
    (ht2 : k2.time_raw = F32.ofBits 1067030938)
    (hv1 : F32.toInt k1.value_raw = some v1) (hv2 : F32.toInt k2.value_raw = some v2)
    (hdur : F32.toInt (normalizeLength rc.duration_raw) = some l0)
    (hle : (normalizeLength rc.duration_raw).toRat ≤ 1200) :
    c.load data =
      .ok { c with
        chores := [{ name := rc.name, choreId := 0, length := 1200, numTracks := 1,
                     tracks := [{ keys := [{ time := 0, value := v1 },
                                           { time := 1200, value := v2 }],
                                  component := some (.own 0), compID := -1 }],
                     attached := [.own 0] }],
        components := [some { kind := .Mesh, parent := none, parentID := -1,
                              name := desc.drop 5, prevComponent := none,
                              tag := MKTAG 'm' 'e' 's' 'h', costumeArg := true,
                              costumeSet := true, initDone := true }] } := by
  have hfac := loadEMIComponent_mesh none (-1) none desc junk hm h0 htag
  have hk : Format.storeKeys [k1, k2] =
      some [{ time := 0, value := v1 }, { time := 1200, value := v2 }] := by
    simp only [Format.storeKeys, Format.storeKey, Format.Key.time, ht1, ht2, time_zero,
      time_1200, toInt_zero, toInt_1200, hv1, hv2]
  have hw : Format.widen (normalizeLength rc.duration_raw) ([k1, k2].map Format.Key.time) =
      F32.fin ((1200 * F32.one : Nat) : Int) := by
    simp only [List.map_cons, List.map_nil, Format.Key.time, ht1, ht2, time_zero, time_1200]
    exact widen_to_1200 _ l0 hdur hle
  rw [load_ok_iff]
  refine ⟨[rc], rest, hread, by simp, ?_, _, _, ?_, rfl⟩
  · intro x hx
    rw [List.mem_singleton.1 hx]
    refine ⟨hname, by rw [htr]; simp, ?_⟩
    intro y hy
    rw [htr] at hy
    rw [List.mem_singleton.1 hy]
    exact ⟨hlen, by rw [hkeys]; simp⟩
  · simp only [choresStep, choreStep, htr, tracksStep, trackStep, hprev, hpi, hdesc, hkeys,
      handOff, resolveParent, hfac, htag, hk, hw, hdur, ceilToInt_1200, defined, bind,
      Except.bind, List.length_singleton, List.length_nil, List.nil_append, Nat.cast_one,
      if_pos (by decide : (-1 : Int) < 0)]
    rfl

/-- Witness of C14: the costume with the one chore `wave`. -/
theorem scenario_one_mesh_track_witness :
    Format.readCostume Samples.waveCostume = some ([Samples.waveRecord], []) ∧
    (normalizeLength Samples.waveRecord.duration_raw).toRat ≤ 1200 ∧
    EMICostume.load {} Samples.waveCostume =
      .ok { chores := [{ name := [119, 97, 118, 101, 0], choreId := 0, length := 1200,
                         numTracks := 1,
                         tracks := [{ keys := [{ time := 0, value := 0 },
                                               { time := 1200, value := 2 }],
                                      component := some (.own 0), compID := -1 }],
                         attached := [.own 0] }],
            components := [some { kind := .Mesh, parent := none, parentID := -1,
                                  name := [97, 46, 109], prevComponent := none,
                                  tag := MKTAG 'm' 'e' 's' 'h', costumeArg := true,
                                  costumeSet := true, initDone := true }] } :=
  ⟨rfl, wave_duration_le,
   scenario_one_mesh_track {} Samples.waveCostume [] Samples.waveRecord Samples.waveTrack
     { time_raw := F32.ofBits 0, value_raw := F32.ofBits 0 }
     { time_raw := F32.ofBits 1067030938, value_raw := F32.ofBits 1073741824 }
     [33, 109, 101, 115, 104, 97, 46, 109] [] 0 2 1000 rfl rfl (by decide) rfl rfl (by decide)
     (by decide) (by decide) (by decide) rfl rfl rfl rfl rfl rfl rfl wave_duration_le⟩

/-! ## C15: the material cache -/

/-- C15: with a resource loader that returns a material whose filename is the
canonical filename of the requested name, and a costume whose cache is empty:
after every sequence of `loadMaterial` calls no two entries of the cache have
the same filename; in the state `c` reached, `findMaterial` returns none
exactly when no cached filename is the canonical name, and what it returns is
a cached entry with that filename; `loadMaterial` returns the cached entry and
leaves the costume unchanged when `findMaterial` finds one, and otherwise
returns the material of the loader and appends exactly it to the cache,
nothing else of the costume being changed.  (`findMaterial` is a function of
the costume and returns no new costume.) -/
theorem material_cache (loader : ResourceLoader) (c0 : EMICostume) (names : List (List Char))
    (name : List Char)
    (hloader : ∀ name, (loader.loadMaterial name).filename = loader.fixFilename name)
    (hempty : c0.materials = []) :
    let c := loadMaterials loader c0 names
    (c.materials.map (fun m => m.filename)).Nodup ∧
    (findMaterial loader c name = none ↔
      ∀ m ∈ c.materials, m.filename ≠ loader.fixFilename name) ∧
    (∀ mat, findMaterial loader c name = some mat →
      mat ∈ c.materials ∧ mat.filename = loader.fixFilename name ∧
      loadMaterial loader c name = (mat, c)) ∧
    (findMaterial loader c name = none →
      (loadMaterial loader c name).1 = loader.loadMaterial name ∧
      (loadMaterial loader c name).2 =
        { c with materials := c.materials ++ [loader.loadMaterial name] } ∧
      (loadMaterial loader c name).2.materials.length = c.materials.length + 1) := by
  intro c
  refine ⟨loadMaterials_nodup loader hloader names c0 (by rw [hempty]; exact List.nodup_nil),
    findFilename_eq_none _ _, ?_, ?_⟩
  · intro mat h
    refine ⟨(findFilename_eq_some _ _ _ h).1, (findFilename_eq_some _ _ _ h).2, ?_⟩
    simp only [loadMaterial, h]
  · intro h
    simp only [loadMaterial, h, List.length_append, List.length_singleton, and_self]

/-- Witness of C15: the names `A`, `c`, `C`, `b` loaded into the empty cache
with the sample loader, then the name `B` looked up. -/
theorem material_cache_witness :
    (∀ name, (Samples.loader.loadMaterial name).filename = Samples.loader.fixFilename name) ∧
    (loadMaterials Samples.loader {} [['A'], ['c'], ['C'], ['b']]).materials =
      [{ filename := ['a'], activeTexture := 0 }, { filename := ['c'], activeTexture := 0 },
       { filename := ['b'], activeTexture := 0 }] ∧
    loadMaterial Samples.loader (loadMaterials Samples.loader {} [['A'], ['c'], ['C'], ['b']])
        ['B'] =
      ({ filename := ['b'], activeTexture := 0 },
        loadMaterials Samples.loader {} [['A'], ['c'], ['C'], ['b']]) :=
  ⟨fun _ => rfl, rfl,
   ((material_cache Samples.loader {} [['A'], ['c'], ['C'], ['b']] ['B'] (fun _ => rfl)
      rfl).2.2.1 { filename := ['b'], activeTexture := 0 } rfl).2.2⟩

/-! ## C16: the name-length assertion -/

/-- C16: in a stream whose first `j` chore records can be read, chore `j`
being one of the `chore_count` chores and `n` its `name_len`: when `n` is 32
or more, `load` does not return a costume, the chore record fails at the
name-length assertion whatever follows `name_len` in the stream (no name byte
is read), and `load` fails with that assertion when the chores before load;
when `n` is below 32 the assertion does not fail, and the name is the next
`n` bytes: the record header ends `n + 8` bytes after `name_len`. -/
theorem name_length_check (c : EMICostume) (stream data0 data rest : Stream)
    (count j n : Nat) (cs : List Format.Chore)
    (hcount : Format.u32 stream = some (count, data0)) (hj : j < count)
    (hcs : Format.readChores j data0 = some (cs, data))
    (hn : Format.u32 data = some (n, rest)) :
    (32 ≤ n →
      (∃ e, c.load stream = .error e) ∧
      (∀ i, loadChoreHeader i data = .error .assertNameLength) ∧
      (∀ chs comps data1, count < 2147483648 →
        loadChores c.prevCostume j 0 [] data0 = .ok (chs, comps, data1) →
        c.load stream = .error .assertNameLength)) ∧
    (n < 32 → ∀ i, loadChoreHeader i data ≠ .error .assertNameLength ∧
      ∀ hdr len data', loadChoreHeader i data = .ok (hdr, len, data') →
        hdr.name = rest.take n ∧ hdr.name.length = n ∧ data' = rest.drop (n + 8)) := by
  have hdata : ∀ chs comps data1,
      loadChores c.prevCostume j 0 [] data0 = .ok (chs, comps, data1) → data1 = data := by
    intro chs comps data1 h
    obtain ⟨cs', h1, -⟩ := (loadChores_ok_iff _ _ _ _ _ _ _ _).1 h
    rw [hcs] at h1
    simp only [Option.some.injEq, Prod.mk.injEq] at h1
    exact h1.2.symm
  have hr := (readUint32LE_ok_iff stream (count, data0)).2 hcount
  refine ⟨fun h32 => ⟨?_, ?_, ?_⟩, ?_⟩
  · by_cases h31 : count < 2147483648
    · cases hl : loadChores c.prevCostume j 0 [] data0 with
      | error e =>
          obtain ⟨m, rfl⟩ : ∃ m, count = j + m := ⟨count - j, by omega⟩
          have hneg : ¬ toInt32 (j + m) < 0 := by rw [toInt32_of_lt _ h31]; omega
          refine ⟨e, ?_⟩
          simp only [EMICostume.load, hr, bind, Except.bind, if_neg hneg, toInt32_toNat _ h31,
            loadChores_error_mono c.prevCostume e m j 0 [] data0 hl]
      | ok v =>
          obtain ⟨chs, comps, data1⟩ := v
          obtain rfl := hdata chs comps data1 hl
          exact ⟨_, load_name_too_long c stream data0 data1 rest count j n chs comps hcount h31
            hj hl hn h32⟩
    · have hlt := u32_lt _ _ _ hcount
      have hneg : toInt32 count < 0 := (toInt32_neg_iff count hlt).2 (by omega)
      refine ⟨.undefined, ?_⟩
      simp only [EMICostume.load, hr, bind, Except.bind, if_pos hneg]
  · intro i
    rw [loadChoreHeader_of_u32 i data rest n hn, if_pos (by omega)]
  · intro chs comps data1 h31 hl
    obtain rfl := hdata chs comps data1 hl
    exact load_name_too_long c stream data0 data1 rest count j n chs comps hcount h31 hj hl hn h32
  · intro hlt i
    constructor
    · rw [loadChoreHeader_of_u32 i data rest n hn, if_neg (by omega)]
      refine bind_ne_error _ _ _ (read_ne_assert _ _) (fun r => ?_)
      refine bind_ne_error _ _ _ (read_ne_assert _ _) (fun f => ?_)
      refine bind_ne_error _ _ _ (readUint32LE_ne_assert _) (fun nt => ?_)
      refine bind_ne_error _ _ _ (defined_ne_assert _) (fun l => ?_)
      split <;> simp
    · intro hdr len data' h
      rw [loadChoreHeader_ok_iff] at h
      obtain ⟨n1, d1, name, d2, dr, d3, nt, l0, h1, -, h2, h3, h4, -, -, -, rfl⟩ := h
      rw [hn] at h1
      simp only [Option.some.injEq, Prod.mk.injEq] at h1
      obtain ⟨rfl, rfl⟩ := h1
      obtain ⟨hle, rfl, rfl⟩ := (bytes_eq_some _ _ _ _).1 h2
      obtain ⟨-, -, rfl⟩ := (f32_eq_some _ _ _).1 h3
      obtain ⟨-, -, rfl⟩ := (u32_eq_some _ _ _).1 h4
      refine ⟨rfl, by simp [hle], ?_⟩
      simp only [List.drop_drop]

/-- Witness of C16: a costume of two chores, the record `wave` followed by a
record whose `name_len` is 32. -/
theorem name_length_check_witness :
    Format.u32 ([2, 0, 0, 0] ++ (Samples.wave ++ [32, 0, 0, 0, 120])) =
      some (2, Samples.wave ++ [32, 0, 0, 0, 120]) ∧
    Format.readChores 1 (Samples.wave ++ [32, 0, 0, 0, 120]) =
      some ([Samples.waveRecord], [32, 0, 0, 0, 120]) ∧
    Format.u32 [32, 0, 0, 0, 120] = some (32, [120]) ∧
    EMICostume.load {} ([2, 0, 0, 0] ++ (Samples.wave ++ [32, 0, 0, 0, 120])) =
      .error .assertNameLength :=
  ⟨rfl, rfl, rfl,
   ((name_length_check {} ([2, 0, 0, 0] ++ (Samples.wave ++ [32, 0, 0, 0, 120]))
      (Samples.wave ++ [32, 0, 0, 0, 120]) [32, 0, 0, 0, 120] [120] 2 1 32
      [Samples.waveRecord] (by rfl) (by decide) (by rfl) (by rfl)).1 (by decide)).2.2
     [Samples.waveChore] [some Samples.waveMesh] [32, 0, 0, 0, 120] (by decide) (by rfl)⟩

/-! ## C17: one update of the playing chores -/

/-- C17: for a playing list of chores of the costume and enough fuel for the
tests of the loop condition, `update` returns 0; the playing list afterwards
is the list before with the chores that no longer play removed, in the same
order; the calls logged are, after those logged before, one group per entry
of the list before in list order (the update of the chore, then the updates
of the bound components of its tracks), preceded by one reset and followed by
one commit of the active skeleton when there is one. -/
theorem update_visits_each_once (isPlaying : Nat → Bool) (fuel : Nat) (c : EMICostume)
    (time : Nat) (hvalid : ∀ x ∈ c.playingChores, x < c.chores.length)
    (hfuel : c.playingChores.length < fuel) :
    ∃ log, update isPlaying fuel c time =
        some (0, { c with playingChores := c.playingChores.filter isPlaying, log := log }) ∧
      (c.emiSkel = none →
        log = c.log ++ c.playingChores.flatMap (choreUpdateEvents c.chores time)) ∧
      (∀ skel, c.emiSkel = some skel →
        log = c.log ++ [Event.skelReset skel]
          ++ c.playingChores.flatMap (choreUpdateEvents c.chores time)
          ++ [Event.skelCommit skel]) := by
  have h := updateLoop_eq isPlaying c.chores time c.playingChores [] fuel (resetSkel c)
    hfuel hvalid
  have hb : ListIter.begin c.playingChores.length =
      if c.playingChores = [] then 0 else ([] : List Nat).length + 1 := by
    cases c.playingChores with
    | nil => simp [ListIter.begin, ListIter.next]
    | cons r rs => simp [ListIter.begin, ListIter.next]
  rw [List.nil_append, ← hb] at h
  refine ⟨commitSkel c.emiSkel
    (resetSkel c ++ c.playingChores.flatMap (choreUpdateEvents c.chores time)), ?_, ?_, ?_⟩
  · simp only [update, h, List.nil_append]
  · intro hs
    simp [commitSkel, resetSkel, hs]
  · intro skel hs
    simp [commitSkel, resetSkel, hs]

/-- Witness of C17: four playing chores of which the first, the third and
the fourth (the last) finish. -/
theorem update_visits_each_once_witness :
    update (fun c => c == 1) 5 Samples.band 40 =
      some (0, { Samples.band with
        playingChores := [1],
        log := [.skelReset (.own 0), .choreUpdate 0 40, .componentUpdate (.own 0) 40,
                .choreUpdate 1 40, .choreUpdate 2 40, .choreUpdate 3 40,
                .skelCommit (.own 0)] }) ∧
    ∃ log, update (fun c => c == 1) 5 Samples.band 40 =
        some (0, { Samples.band with
          playingChores := Samples.band.playingChores.filter (fun c => c == 1),
          log := log }) ∧
      (Samples.band.emiSkel = none →
        log = Samples.band.log ++
          Samples.band.playingChores.flatMap (choreUpdateEvents Samples.band.chores 40)) ∧
      (∀ skel, Samples.band.emiSkel = some skel →
        log = Samples.band.log ++ [Event.skelReset skel]
          ++ Samples.band.playingChores.flatMap (choreUpdateEvents Samples.band.chores 40)
          ++ [Event.skelCommit skel]) :=
  ⟨rfl, update_visits_each_once (fun c => c == 1) 5 Samples.band 40 (by decide) (by decide)⟩

/-! ## C18: drawing and the mesh fallback -/

/-- C18: for a playing list of chores of the costume whose bound components
exist, `draw` returns; it logs, after the calls logged before, one draw per
bound component of the tracks of the playing chores, in order, and after them
one draw of the mesh of the worn chore when there is a worn chore and none of
the components drawn has the tag `mesh`, and nothing more when there is no
worn chore or one of the components drawn has the tag `mesh`; nothing else of
the costume changes. -/
theorem draw_mesh_fallback (c : EMICostume)
    (hvalid : ∀ x ∈ c.playingChores, x < c.chores.length)
    (hbound : ∀ p ∈ boundComponents c.chores c.playingChores, (deref c p).isSome) :
    ∃ log, draw c = some { c with log := log } ∧
      (∀ w, c.wearChore = some w →
        (∀ p ∈ boundComponents c.chores c.playingChores, ∀ comp, deref c p = some comp →
          comp.isComponentType 'm' 'e' 's' 'h' = false) →
        log = c.log ++ (boundComponents c.chores c.playingChores).map Event.componentDraw
          ++ [Event.meshDraw w]) ∧
      ((c.wearChore = none ∨
        ∃ p ∈ boundComponents c.chores c.playingChores, ∃ comp, deref c p = some comp ∧
          comp.isComponentType 'm' 'e' 's' 'h' = true) →
        log = c.log ++ (boundComponents c.chores c.playingChores).map Event.componentDraw) := by
  have h := drawChores_eq c c.playingChores (c.log, false) hvalid hbound
  simp only [Bool.false_or] at h
  cases hany : (boundComponents c.chores c.playingChores).any
      (fun p => (deref c p).any (fun comp => comp.isComponentType 'm' 'e' 's' 'h')) with
  | false =>
      rw [hany] at h
      have hno : ∀ p ∈ boundComponents c.chores c.playingChores, ∀ comp,
          deref c p = some comp → comp.isComponentType 'm' 'e' 's' 'h' = false := by
        intro p hp comp hcomp
        have := (List.any_eq_false.1 hany) p hp
        simpa [hcomp] using this
      cases hw : c.wearChore with
      | none =>
          refine ⟨_, by simp only [draw, h, hw]; rfl, ?_, ?_⟩
          · intro w hw2; cases hw2
          · intro _; rfl
      | some w =>
          refine ⟨_, by simp only [draw, h, hw]; rfl, ?_, ?_⟩
          · intro w2 hw2 _
            cases hw2; rfl
          · rintro (hn | ⟨p, hp, comp, hcomp, hm⟩)
            · cases hn
            · rw [hno p hp comp hcomp] at hm; cases hm
  | true =>
      rw [hany] at h
      obtain ⟨p, hp, hpm⟩ := List.any_eq_true.1 hany
      obtain ⟨comp, hcomp⟩ := Option.isSome_iff_exists.1 (hbound p hp)
      have hm : comp.isComponentType 'm' 'e' 's' 'h' = true := by simpa [hcomp] using hpm
      cases hw : c.wearChore with
      | none =>
          refine ⟨_, by simp only [draw, h, hw]; rfl, ?_, ?_⟩
          · intro w hw2; cases hw2
          · intro _; rfl
      | some w =>
          refine ⟨_, by simp only [draw, h, hw]; rfl, ?_, ?_⟩
          · intro w2 _ hno
            rw [hno p hp comp hcomp] at hm; cases hm
          · intro _; rfl

/-- Witness of C18: the worn chore `wave` is drawn as a fallback while only
`idle` plays, and is not while `wave` plays too. -/
theorem draw_mesh_fallback_witness :
    draw Samples.waving = some { Samples.waving with log := [.componentDraw (.own 0)] } ∧
    draw Samples.resting = some { Samples.resting with log := [.meshDraw 0] } ∧
    ∃ log, draw Samples.resting = some { Samples.resting with log := log } ∧
      (∀ w, Samples.resting.wearChore = some w →
        (∀ p ∈ boundComponents Samples.resting.chores Samples.resting.playingChores,
          ∀ comp, deref Samples.resting p = some comp →
            comp.isComponentType 'm' 'e' 's' 'h' = false) →
        log = Samples.resting.log ++
          (boundComponents Samples.resting.chores Samples.resting.playingChores).map
            Event.componentDraw ++ [Event.meshDraw w]) ∧
      ((Samples.resting.wearChore = none ∨
        ∃ p ∈ boundComponents Samples.resting.chores Samples.resting.playingChores,
          ∃ comp, deref Samples.resting p = some comp ∧
            comp.isComponentType 'm' 'e' 's' 'h' = true) →
        log = Samples.resting.log ++
          (boundComponents Samples.resting.chores Samples.resting.playingChores).map
            Event.componentDraw) :=
  ⟨rfl, rfl, draw_mesh_fallback Samples.resting (by decide) (by decide)⟩

/-! ## C19: the parent lookup -/

/-- C19: in `load`, the parent passed to the factory is none when the
(possibly rewritten) parent index is negative and otherwise the entry at that
index of the component list built so far, whose length is the number of
tracks parsed before in the whole costume; when a non-negative parent index
is below that number the lookup is in range and returns that entry, which is
none when the slot holds none. -/
theorem parent_lookup_in_range (prev : Option (List (Option Component))) (n k : Nat)
    (data data1 data2 data3 data4 : Stream) (chores : List EMIChore)
    (comps : List (Option Component)) (hdr : EMIChore) (len : F32) (st1 : LoadState)
    (t : Format.Track) (pid : Int) (pc : Option CompPtr)
    (hchores : loadChores prev n 0 [] data = .ok (chores, comps, data1))
    (htracks : loadTracks prev n k
      { components := comps, chore := hdr, prevComponent := none, length := len } data2 =
        .ok (st1, data3))
    (hread : Format.readTrack data3 = some (t, data4))
    (hh : handOff prev n t.parent_index st1.prevComponent = .ok (pid, pc)) :
    st1.components.length = (allTracks chores).length + k ∧
    (pid < 0 → resolveParent st1.components pid = .ok none) ∧
    (0 ≤ pid → pid.toNat < (allTracks chores).length + k →
      ∃ entry, st1.components[pid.toNat]? = some entry ∧
        resolveParent st1.components pid = .ok (entry.map (fun _ => CompPtr.own pid.toNat))) ∧
    (∀ st2 data5, loadTrack prev n st1 data3 = .ok (st2, data5) →
      ∃ parent r, resolveParent st1.components pid = .ok parent ∧
        loadEMIComponent parent pid t.descriptor pc = .ok r ∧
        st2.components = st1.components ++ [initialized r]) := by
  have hlen : st1.components.length = (allTracks chores).length + k := by
    obtain ⟨cs, -, -, hstep⟩ := (loadChores_ok_iff prev n 0 [] comps chores data data1).1 hchores
    obtain ⟨newc, hc, hp, -⟩ := choresStep_inv _ _ _ _ _ _ hstep
    obtain ⟨ts, hts, -, hsteps⟩ := (loadTracks_ok_iff prev n k _ st1 data2 data3).1 htracks
    obtain ⟨newc2, -, hc2, -, hl2, -⟩ := tracksStep_inv _ _ _ _ _ hsteps
    rw [hc2, List.length_append, hl2, Format.readTracks_length _ _ _ _ hts, hc,
      List.nil_append, allTracks_length_of_ptrs _ _ _ hp]
  refine ⟨hlen, fun h => resolveParent_neg _ _ h, ?_, ?_⟩
  · intro h0 hlt
    exact resolveParent_inRange _ _ h0 (by rw [hlen]; exact hlt)
  · intro st2 data5 hl
    obtain ⟨t', hread', -, hstep⟩ := (loadTrack_ok_iff _ _ _ _ _ _).1 hl
    rw [hread] at hread'
    simp only [Option.some.injEq, Prod.mk.injEq] at hread'
    obtain ⟨rfl, -⟩ := hread'
    obtain ⟨pid', pc', parent, r, keys, g1, g2, g3, -, g5, -⟩ := trackStep_inv _ _ _ _ _ hstep
    rw [hh] at g1
    simp only [Except.ok.injEq, Prod.mk.injEq] at g1
    obtain ⟨rfl, rfl⟩ := g1
    exact ⟨parent, r, g2, g3, g5⟩

set_option maxRecDepth 8000 in
/-- Witness of C19: the second track of the chore `kin`, read after the chore
`wave` and the track `!shadx`, has the parent index 1; slot 1 is in range and
holds none. -/
theorem parent_lookup_in_range_witness :
    loadChores none 1 0 [] (Samples.wave ++ Samples.kin) =
      .ok ([Samples.waveChore], [some Samples.waveMesh], Samples.kin) ∧
    loadTracks none 1 1 Samples.beforeKin Samples.kinTracks =
      .ok (Samples.afterShad, Samples.child) ∧
    Format.readTrack Samples.child = some (Samples.childTrack, []) ∧
    ∃ entry, Samples.afterShad.components[(1 : Int).toNat]? = some entry ∧
      resolveParent Samples.afterShad.components 1 =
        .ok (entry.map (fun _ => CompPtr.own (1 : Int).toNat)) :=
  ⟨rfl, rfl, rfl,
   (parent_lookup_in_range none 1 1 (Samples.wave ++ Samples.kin) Samples.kin
      Samples.kinTracks Samples.child [] [Samples.waveChore] [some Samples.waveMesh]
      Samples.beforeKin.chore Samples.beforeKin.length Samples.afterShad Samples.childTrack
      1 none rfl rfl rfl rfl).2.2.1 (by decide) (by decide)⟩

/-! ## C20: the layout of the component table -/

/-- C20: after a successful load the component table has as many entries as
there are tracks over all chores; the track with the global ordinal `p` has
`compID = -1` and is bound to the entry at position `p` of the table (to no
component when that entry is none); and chore `i` has the id `i`. -/
theorem component_table_layout (c c' : EMICostume) (data : Stream)
    (h : c.load data = .ok c') :
    c'.components.length = (allTracks c'.chores).length ∧
    (∀ (p : Nat) (track : ChoreTrack), (allTracks c'.chores)[p]? = some track →
      track.compID = -1 ∧
      ∃ entry, c'.components[p]? = some entry ∧
        track.component = entry.map (fun _ => CompPtr.own p)) ∧
    (∀ (i : Nat) (chore : EMIChore), c'.chores[i]? = some chore → chore.choreId = (i : Int)) := by
  obtain ⟨cs, rest, -, -, -, chores, comps, hstep, rfl⟩ := (load_ok_iff c c' data).1 h
  obtain ⟨newc, hc, hp, hid, hcid⟩ := choresStep_inv _ _ _ _ _ _ hstep
  simp only [List.nil_append] at hc
  subst hc
  refine ⟨allTracks_length_of_ptrs _ _ _ hp, ?_, ?_⟩
  · intro p track hpt
    refine ⟨hid track (List.getElem?_mem hpt), ?_⟩
    have h1 : ((allTracks chores).map (fun t => t.component))[p]? = some track.component := by
      simp [hpt]
    rw [hp, slotPtrs_getElem?] at h1
    simp only [List.length_nil, Nat.zero_add] at h1
    cases hn : comps[p]? with
    | none => simp [hn] at h1
    | some entry =>
        simp only [hn, Option.map_some', Option.some.injEq] at h1
        exact ⟨entry, rfl, h1.symm⟩
  · intro i chore hi
    simpa using hcid i chore hi

set_option maxRecDepth 8000 in
/-- Witness of C20: the costume with the chores `wave` and `kin`, three
tracks and three slots, the second of which holds none. -/
theorem component_table_layout_witness :
    EMICostume.load {} Samples.family = .ok Samples.familyCostume ∧
    Samples.familyCostume.components.length = (allTracks Samples.familyCostume.chores).length ∧
    (∀ (p : Nat) (track : ChoreTrack),
      (allTracks Samples.familyCostume.chores)[p]? = some track →
      track.compID = -1 ∧
      ∃ entry, Samples.familyCostume.components[p]? = some entry ∧
        track.component = entry.map (fun _ => CompPtr.own p)) ∧
    (∀ (i : Nat) (chore : EMIChore), Samples.familyCostume.chores[i]? = some chore →
      chore.choreId = (i : Int)) :=
  ⟨rfl, component_table_layout {} Samples.familyCostume Samples.family rfl⟩

end Grim
